import Mathlib

/-!
# Expert system: expression parser and inference engine

A shallow embedding of the propositional expert system of this repository
(`Fact.h`, `Expression.h`, `KnowledgeBase.h`, `KnowledgeBase.cpp`).

Modelling conventions.

* A `std::string` is a `List Char`; every decision the program takes on a
  character is an equality or range test against an ASCII character, so bytes
  are embedded as `Char`.
* `std::map<char, Fact>` is a finite partial map, embedded as `Char → Option Fact`.
  `operator[]` on a missing key default-constructs the entry (`FactMap.get`,
  `FactMap.set`).
* `isFactTrue` and `Expression::evaluate` are mutually recursive through the
  rule base and mutate the fact map.  They are embedded with explicit state
  passing and a fuel argument bounding the nesting depth of `isFactTrue`;
  `none` means that the fuel ran out.  `fuelBound` gives a fuel that always
  suffices (`isFactTrue_total`).
* The recursive-descent parser works on the unread suffix of `input_str`;
  `current_pos` is the length of the text minus the length of that suffix.
  The parser functions carry a fuel argument bounding the nesting of
  parentheses and the number of loop iterations; `parseExpression` supplies
  the length of the text plus one, which always suffices.
* A thrown `std::runtime_error` from `syntaxError` is a value of `SyntaxError`
  holding the three parts the message is built from.
-/

namespace ExpertSystem

/-! ## Fact.h -/

/-- Truth state of a fact (`enum class FactState`). -/
inductive FactState where
  | TRUE
  | FALSE
  | UNDETERMINED
  | PROCESSING
  deriving DecidableEq, Repr

/-- One entry of the fact store (`class Fact`), with the default member initialisers. -/
structure Fact where
  symbol : Char := Char.ofNat 0
  currentState : FactState := FactState.FALSE
  isProcessing : Bool := false
  true_reasons : List (List Char) := []
  final_state_reason : List Char := []
  deriving DecidableEq

/-! ## Expression.h -/

/-- Binary operators (`BinaryOperation::Operator`). -/
inductive Operator where
  | AND
  | OR
  | XOR
  deriving DecidableEq, Repr

/-- The AST: a fact leaf (`FactExpression`) or a binary node (`BinaryOperation`). -/
inductive Expression where
  | FactExpression (factSymbol : Char) (isNegated : Bool)
  | BinaryOperation (op : Operator) (left right : Expression)
  deriving DecidableEq

/-- Facts of an expression, left to right (`getFacts`). -/
def Expression.getFacts : Expression → List Char
  | .FactExpression factSymbol _ => [factSymbol]
  | .BinaryOperation _ left right => left.getFacts ++ right.getFacts

/-- The virtual `isOrXor`: false on a leaf, true on an OR or XOR node. -/
def Expression.isOrXor : Expression → Bool
  | .FactExpression _ _ => false
  | .BinaryOperation op _ _ => decide (op = Operator.OR) || decide (op = Operator.XOR)

/-- Operator text used by `BinaryOperation::to_string`. -/
def Operator.op_str : Operator → List Char
  | .AND => ['+']
  | .OR => ['|']
  | .XOR => ['^']

/-- Text rendering of an expression (`to_string`). -/
def Expression.to_string : Expression → List Char
  | .FactExpression factSymbol isNegated =>
      (if isNegated then ['!'] else []) ++ [factSymbol]
  | .BinaryOperation op left right =>
      ['('] ++ left.to_string ++ op.op_str ++ right.to_string ++ [')']

/-! ## KnowledgeBase.h -/

/-- An implication rule (`class Rule`). -/
structure Rule where
  antecedent : Expression
  consequent : Expression
  deriving DecidableEq

/-- Text rendering of a rule (`Rule::to_string`). -/
def Rule.to_string (rule : Rule) : List Char :=
  rule.antecedent.to_string ++ " => ".toList ++ rule.consequent.to_string

/-- The fact store `std::map<char, Fact>`. -/
abbrev FactMap := Char → Option Fact

/-- The empty fact store. -/
def FactMap.empty : FactMap := fun _ => none

/-- Value of `facts[c]`: the stored entry, or a default-constructed one. -/
def FactMap.get (facts : FactMap) (c : Char) : Fact :=
  (facts c).getD {}

/-- Store `f` at key `c`. -/
def FactMap.set (facts : FactMap) (c : Char) (f : Fact) : FactMap :=
  fun d => if d = c then some f else facts d

/-- The result of a call that returns a state and may have changed the fact store. -/
abbrev Resolved := Option (FactState × FactMap)

/-! ## Expression::evaluate -/

/-- Body of `FactExpression::evaluate` after the call to `isFactTrue`. -/
def negateState (isNegated : Bool) (state : FactState) : FactState :=
  if !isNegated then state
  else if state = FactState.TRUE then FactState.FALSE
  else if state = FactState.FALSE then FactState.TRUE
  else FactState.UNDETERMINED

/-- Body of `BinaryOperation::evaluate` after both children have been evaluated. -/
def combineStates (op : Operator) (leftState rightState : FactState) : FactState :=
  match op with
  | .AND =>
      if leftState = FactState.FALSE ∨ rightState = FactState.FALSE then FactState.FALSE
      else if leftState = FactState.TRUE ∧ rightState = FactState.TRUE then FactState.TRUE
      else FactState.UNDETERMINED
  | .OR =>
      if leftState = FactState.TRUE ∨ rightState = FactState.TRUE then FactState.TRUE
      else if leftState = FactState.FALSE ∧ rightState = FactState.FALSE then FactState.FALSE
      else FactState.UNDETERMINED
  | .XOR =>
      if leftState = FactState.UNDETERMINED ∨ rightState = FactState.UNDETERMINED then
        FactState.UNDETERMINED
      else
        let is_left_true := decide (leftState = FactState.TRUE)
        let is_right_true := decide (rightState = FactState.TRUE)
        if is_left_true ≠ is_right_true then FactState.TRUE else FactState.FALSE

/-- The two `evaluate` overrides, with the knowledge base seen through its
`isFactTrue` entry point: the left child is evaluated before the right one and
the fact store is threaded through. -/
def Expression.evaluate (isFactTrue : Char → FactMap → Resolved) :
    Expression → FactMap → Resolved
  | .FactExpression factSymbol isNegated, facts =>
      match isFactTrue factSymbol facts with
      | none => none
      | some (state, facts1) => some (negateState isNegated state, facts1)
  | .BinaryOperation op left right, facts =>
      match left.evaluate isFactTrue facts with
      | none => none
      | some (leftState, facts1) =>
          match right.evaluate isFactTrue facts1 with
          | none => none
          | some (rightState, facts2) => some (combineStates op leftState rightState, facts2)

/-! ## KnowledgeBase::isFactTrue -/

/-- The test `concerns_symbol` of the rule loop: a single-fact consequent must
be the non-negated symbol; any binary consequent concerns every fact it lists. -/
def concerns_symbol (rule : Rule) (symbol : Char) : Bool :=
  match rule.consequent with
  | .FactExpression factSymbol isNegated => decide (factSymbol = symbol) && !isNegated
  | .BinaryOperation op left right =>
      (Expression.BinaryOperation op left right).getFacts.any (fun c => decide (c = symbol))

/-- The derivation note pushed when a premise is TRUE. -/
def derivedNote (rule : Rule) : List Char :=
  "Derived TRUE from Rule: ".toList ++ rule.to_string ++ " (Premise was TRUE)".toList

/-- The statement `facts[c].true_reasons.push_back(reason)`. -/
def FactMap.pushReason (facts : FactMap) (c : Char) (reason : List Char) : FactMap :=
  facts.set c { facts.get c with true_reasons := (facts.get c).true_reasons ++ [reason] }

/-- Step 2 of `isFactTrue`: set the in-progress flag, the provisional state
FALSE, and clear the proof list. -/
def FactMap.start (facts : FactMap) (symbol : Char) : FactMap :=
  facts.set symbol
    { facts.get symbol with
      isProcessing := true, currentState := FactState.FALSE, true_reasons := [] }

/-- The loop over `rules` in `isFactTrue` (step 3), carrying `isProvenByAnyRule`,
`isUndeterminedPossible` and the fact store. -/
def ruleLoop (isFactTrue : Char → FactMap → Resolved) (symbol : Char) :
    List Rule → Bool → Bool → FactMap → Option (Bool × Bool × FactMap)
  | [], isProvenByAnyRule, isUndeterminedPossible, facts =>
      some (isProvenByAnyRule, isUndeterminedPossible, facts)
  | rule :: rest, isProvenByAnyRule, isUndeterminedPossible, facts =>
      if concerns_symbol rule symbol then
        match rule.antecedent.evaluate isFactTrue facts with
        | none => none
        | some (premiseState, facts1) =>
            let facts2 :=
              if premiseState = FactState.TRUE then facts1.pushReason symbol (derivedNote rule)
              else facts1
            ruleLoop isFactTrue symbol rest
              (if premiseState = FactState.TRUE then true else isProvenByAnyRule)
              (if premiseState = FactState.UNDETERMINED then true else isUndeterminedPossible)
              facts2
      else
        ruleLoop isFactTrue symbol rest isProvenByAnyRule isUndeterminedPossible facts

/-- Reason stored when a fact settles as UNDETERMINED. -/
def undeterminedReason : List Char :=
  "Fact is UNDETERMINED. Premise of a relevant rule was UNDETERMINED.".toList

/-- Reason stored when a fact settles as FALSE. -/
def falseReason : List Char :=
  "Fact is FALSE (by default/not proven by any rule).".toList

/-- Step 4 of `isFactTrue`: clear the flag and settle the state. -/
def settle (fact : Fact) (isProvenByAnyRule isUndeterminedPossible : Bool) : Fact :=
  if isProvenByAnyRule then
    { fact with isProcessing := false, currentState := FactState.TRUE }
  else if isUndeterminedPossible then
    { fact with isProcessing := false, currentState := FactState.UNDETERMINED,
                final_state_reason := undeterminedReason }
  else
    { fact with isProcessing := false, currentState := FactState.FALSE,
                final_state_reason := falseReason }

/-- The fact store after the lazy creation at the head of `isFactTrue`. -/
def FactMap.create (facts : FactMap) (symbol : Char) : FactMap :=
  match facts symbol with
  | some _ => facts
  | none => facts.set symbol { symbol := symbol }

/-- Backward chaining, `KnowledgeBase::isFactTrue`.  The fuel bounds the nesting
depth of the calls; `none` is returned only when it is exhausted. -/
def isFactTrue (rules : List Rule) : Nat → Char → FactMap → Resolved
  | 0, _, _ => none
  | fuel + 1, symbol, facts =>
      let facts0 := facts.create symbol
      let fact := facts0.get symbol
      if fact.currentState ≠ FactState.FALSE ∧ fact.currentState ≠ FactState.UNDETERMINED then
        some (fact.currentState, facts0)
      else if fact.isProcessing then
        some (FactState.FALSE, facts0)
      else
        let facts1 := facts0.start symbol
        match ruleLoop (isFactTrue rules fuel) symbol rules false false facts1 with
        | none => none
        | some (isProvenByAnyRule, isUndeterminedPossible, facts2) =>
            let settled := settle (facts2.get symbol) isProvenByAnyRule isUndeterminedPossible
            some (settled.currentState, facts2.set symbol settled)

/-- Evaluation of an expression against a knowledge base with the given rules. -/
def evaluate (rules : List Rule) (fuel : Nat) (e : Expression) (facts : FactMap) : Resolved :=
  e.evaluate (isFactTrue rules fuel) facts

/-- Symbols occurring in the antecedents of the rules, without repetition. -/
def antecedentSymbols (rules : List Rule) : List Char :=
  (rules.flatMap (fun rule => rule.antecedent.getFacts)).dedup

/-- A fuel that suffices for every call of `isFactTrue` and `evaluate`. -/
def fuelBound (rules : List Rule) : Nat :=
  (antecedentSymbols rules).length + 2

/-! ## The recursive-descent parser -/

/-- The end-of-input sentinel returned by `peek`. -/
def NUL : Char := Char.ofNat 0

/-- The tab character. -/
def TAB : Char := Char.ofNat 9

/-- Skip spaces and tabs (`skipWhitespace`), on the unread suffix. -/
def skipWhitespace : List Char → List Char
  | [] => []
  | c :: rest => if c = ' ' ∨ c = TAB then skipWhitespace rest else c :: rest

/-- Next unread character, or NUL at the end of the text (`peek`). -/
def peek : List Char → Char
  | [] => NUL
  | c :: _ => c

/-- Advance by one character unless at the end (`consume`). -/
def consume : List Char → List Char
  | [] => []
  | _ :: rest => rest

/-- What a parser function does: return an AST with the unread suffix, throw
through `syntaxError` with the unread suffix at that moment, or exhaust the fuel. -/
inductive ParseResult where
  | ok (expr : Expression) (rest : List Char)
  | syntaxError (rest : List Char) (message : List Char)
  | outOfFuel
  deriving DecidableEq

/-- Message of `parse_Factor` for a missing closing parenthesis. -/
def msgExpectedClose : List Char := "Expected ')'".toList

/-- Message of `parse_Factor` when neither a fact nor an opening parenthesis is seen. -/
def msgExpectedFact : List Char := "Expected a fact (A-Z) or '('".toList

/-- Message of `parse_NOT` for the negation of a compound expression. -/
def msgComplexNegation : List Char :=
  "Complex negation like !(A+B) is not fully supported.".toList

/-- Message of `parseExpression` for trailing input. -/
def msgUnexpectedToken : List Char := "Unexpected token at end of expression".toList

/-- Message of `parseRule` when no separator is found. -/
def msgInvalidRule : List Char := "Invalid rule format: expected '=>' or '<=>'".toList

/-- The function `parse_Factor`, with `parse_XOR` passed in for the parenthesised case. -/
def parse_Factor (parse_XOR : List Char → ParseResult) (s : List Char) : ParseResult :=
  let s1 := skipWhitespace s
  let current_char := peek s1
  if current_char = '(' then
    match parse_XOR (consume s1) with
    | .ok expr s2 =>
        let s3 := skipWhitespace s2
        if peek s3 ≠ ')' then .syntaxError s3 msgExpectedClose
        else .ok expr (consume s3)
    | other => other
  else if 'A' ≤ current_char ∧ current_char ≤ 'Z' then
    .ok (Expression.FactExpression current_char false) (consume s1)
  else
    .syntaxError s1 msgExpectedFact

/-- The function `parse_NOT`: an optional `!` before a factor; the `dynamic_cast` to
`FactExpression` is the match on the constructor. -/
def parse_NOT (parse_XOR : List Char → ParseResult) (s : List Char) : ParseResult :=
  let s1 := skipWhitespace s
  if peek s1 = '!' then
    match parse_Factor parse_XOR (consume s1) with
    | .ok (Expression.FactExpression factSymbol isNegated) s2 =>
        .ok (Expression.FactExpression factSymbol (!isNegated)) s2
    | .ok (Expression.BinaryOperation _ _ _) s2 => .syntaxError s2 msgComplexNegation
    | other => other
  else
    parse_Factor parse_XOR s1

/-- The `while (true)` loop shared by `parse_AND`, `parse_OR` and `parse_XOR`:
as long as the next token is `tok`, parse a right operand with `sub` and fold it
into `left` under `op`. -/
def binaryLoop (op : Operator) (tok : Char) (sub : List Char → ParseResult) :
    Nat → Expression → List Char → ParseResult
  | 0, _, _ => .outOfFuel
  | fuel + 1, left, s =>
      let s1 := skipWhitespace s
      if peek s1 = tok then
        match sub (consume s1) with
        | .ok right s2 => binaryLoop op tok sub fuel (Expression.BinaryOperation op left right) s2
        | other => other
      else .ok left s1

/-- One precedence level: a first operand, then the loop. -/
def binaryLevel (op : Operator) (tok : Char) (sub : List Char → ParseResult)
    (fuel : Nat) (s : List Char) : ParseResult :=
  match sub s with
  | .ok left s1 => binaryLoop op tok sub fuel left s1
  | other => other

/-- The function `parse_AND`: operands are parsed by `parse_NOT`, token `+`. -/
def parse_AND (parse_XOR : List Char → ParseResult) (fuel : Nat) (s : List Char) : ParseResult :=
  binaryLevel Operator.AND '+' (parse_NOT parse_XOR) fuel s

/-- The function `parse_OR`: operands are parsed by `parse_AND`, token `|`. -/
def parse_OR (parse_XOR : List Char → ParseResult) (fuel : Nat) (s : List Char) : ParseResult :=
  binaryLevel Operator.OR '|' (parse_AND parse_XOR fuel) fuel s

/-- The function `parse_XOR`: operands are parsed by `parse_OR`, token `^`.  The fuel bounds
the nesting of parentheses and the iterations of each loop. -/
def parse_XOR : Nat → List Char → ParseResult
  | 0, _ => .outOfFuel
  | fuel + 1, s => binaryLevel Operator.XOR '^' (parse_OR (parse_XOR fuel) fuel) fuel s

/-- The parser part of `parseExpression`: `parse_XOR`, then the check that
nothing but whitespace is left. -/
def parseText (str : List Char) : ParseResult :=
  match parse_XOR (str.length + 1) str with
  | .ok ast_root rest =>
      let rest1 := skipWhitespace rest
      if peek rest1 ≠ NUL then .syntaxError rest1 msgUnexpectedToken
      else .ok ast_root rest1
  | other => other

/-- The exception thrown by `syntaxError`: position, original text and message. -/
structure SyntaxError where
  current_pos : Nat
  input_str : List Char
  message : List Char
  deriving DecidableEq

/-- Outcome of `parseExpression`. -/
inductive Parsed where
  | ast (ast_root : Expression)
  | error (e : SyntaxError)
  | outOfFuel
  deriving DecidableEq

/-- The function `parseExpression` as a function of the text. -/
def parseExpression (str : List Char) : Parsed :=
  match parseText str with
  | .ok ast_root _ => .ast ast_root
  | .syntaxError rest message => .error ⟨str.length - rest.length, str, message⟩
  | .outOfFuel => .outOfFuel

/-! ## The knowledge base -/

/-- The state of `class KnowledgeBase`, parser cursor included. -/
structure KnowledgeBase where
  facts : FactMap := FactMap.empty
  rules : List Rule := []
  queries : List Char := []
  initial_fact_states : Char → Option FactState := fun _ => none
  input_str : List Char := []
  current_pos : Nat := 0

/-- Outcome of a loading step: it returns, or it throws a syntax error; in both
cases the knowledge base is the one reached at that moment. -/
inductive Outcome where
  | done (kb : KnowledgeBase)
  | thrown (kb : KnowledgeBase) (e : SyntaxError)
  | outOfFuel

/-- Sequencing of loading steps: an exception ends the sequence. -/
def Outcome.andThen (o : Outcome) (next : KnowledgeBase → Outcome) : Outcome :=
  match o with
  | .done kb => next kb
  | other => other

/-- The rule store reached by a loading step, thrown or not. -/
def Outcome.rules : Outcome → Option (List Rule)
  | .done kb => some kb.rules
  | .thrown kb _ => some kb.rules
  | .outOfFuel => none

/-- The function `parseExpression` as a member function: it leaves the text and the cursor
in the parser state. -/
def KnowledgeBase.parseExpression (kb : KnowledgeBase) (str : List Char) :
    KnowledgeBase × Parsed :=
  match parseText str with
  | .ok ast_root rest =>
      ({ kb with input_str := str, current_pos := str.length - rest.length }, .ast ast_root)
  | .syntaxError rest message =>
      ({ kb with input_str := str, current_pos := str.length - rest.length },
        .error ⟨str.length - rest.length, str, message⟩)
  | .outOfFuel => (kb, .outOfFuel)

/-- One `rules.emplace_back(Rule ...)` of `addImpliesRule`: the antecedent is
parsed first, then the consequent; the rule is appended when both succeed. -/
def emplaceRule (kb : KnowledgeBase) (antecedent_str consequent_str : List Char) : Outcome :=
  match kb.parseExpression antecedent_str with
  | (kb1, .ast antecedent) =>
      match kb1.parseExpression consequent_str with
      | (kb2, .ast consequent) => .done { kb2 with rules := kb2.rules ++ [⟨antecedent, consequent⟩] }
      | (kb2, .error e) => .thrown kb2 e
      | (_, .outOfFuel) => .outOfFuel
  | (kb1, .error e) => .thrown kb1 e
  | (_, .outOfFuel) => .outOfFuel

/-- The segments read by repeated `std::getline(ss, segment, delim)`: `cur` is
the segment being read, in reverse.  At the end of the text a last segment is
returned only if at least one character was read. -/
def getlineLoop (delim : Char) : List Char → List Char → List (List Char)
  | [], cur => if cur = [] then [] else [cur.reverse]
  | c :: rest, cur =>
      if c = delim then cur.reverse :: getlineLoop delim rest []
      else getlineLoop delim rest (c :: cur)

/-- The `while (std::getline ...)` loop of `addImpliesRule`. -/
def segmentLoop (antecedent_str : List Char) : List (List Char) → KnowledgeBase → Outcome
  | [], kb => .done kb
  | segment :: rest, kb =>
      if segment = [] then segmentLoop antecedent_str rest kb
      else (emplaceRule kb antecedent_str segment).andThen (segmentLoop antecedent_str rest)

/-- The function `addImpliesRule`: a consequent containing `+` is split at every `+` after
its spaces are removed; any other consequent is parsed whole. -/
def addImpliesRule (kb : KnowledgeBase) (antecedent_str consequent_str : List Char) : Outcome :=
  let temp_conc_str := consequent_str.filter (fun c => decide (c ≠ ' '))
  if '+' ∈ temp_conc_str ∧ temp_conc_str ≠ [] then
    segmentLoop antecedent_str (getlineLoop '+' temp_conc_str []) kb
  else
    emplaceRule kb antecedent_str consequent_str

/-- Whether `pat` is read at the head of `s`. -/
def startsWith : List Char → List Char → Bool
  | [], _ => true
  | _ :: _, [] => false
  | p :: pat, c :: s => decide (p = c) && startsWith pat s

/-- Index of the first occurrence of `pat` in `s` (`std::string::find`). -/
def findSub (pat : List Char) : List Char → Option Nat
  | [] => if startsWith pat [] then some 0 else none
  | c :: s =>
      if startsWith pat (c :: s) then some 0
      else (findSub pat s).map (fun i => i + 1)

/-- The function `parseRule`: a biconditional is looked for first, then an implication. -/
def parseRule (kb : KnowledgeBase) (rule_str : List Char) : Outcome :=
  match findSub "<=>".toList rule_str with
  | some biconditional_pos =>
      let left_side := rule_str.take biconditional_pos
      let right_side := rule_str.drop (biconditional_pos + 3)
      (addImpliesRule kb left_side right_side).andThen
        (fun kb1 => addImpliesRule kb1 right_side left_side)
  | none =>
      match findSub "=>".toList rule_str with
      | some implies_pos =>
          addImpliesRule kb (rule_str.take implies_pos) (rule_str.drop (implies_pos + 2))
      | none => .thrown kb ⟨kb.current_pos, kb.input_str, msgInvalidRule⟩

/-- The C `isspace` test in the default locale. -/
def isspace (c : Char) : Bool :=
  decide (c = ' ') || (decide (9 ≤ c.toNat) && decide (c.toNat ≤ 13))

/-- The function `parseInitialFacts`. -/
def parseInitialFacts (kb : KnowledgeBase) (fact_str : List Char) (interactive : Bool) :
    KnowledgeBase :=
  let cleaned_str := fact_str.filter (fun c => !isspace c)
  let facts0 : FactMap :=
    if !interactive then
      fun c => (kb.facts c).map (fun f =>
        if f.currentState = FactState.TRUE then { f with currentState := FactState.FALSE } else f)
    else kb.facts
  { kb with facts := cleaned_str.foldl (fun (facts : FactMap) c =>
      if 'A' ≤ c ∧ c ≤ 'Z' then
        facts.set c { facts.get c with symbol := c, currentState := FactState.TRUE }
      else facts) facts0 }

/-- The function `parseQueries`. -/
def parseQueries (kb : KnowledgeBase) (query_str : List Char) : KnowledgeBase :=
  let cleaned_str := query_str.filter (fun c => !isspace c)
  { kb with queries := kb.queries ++ cleaned_str.filter (fun c => decide ('A' ≤ c ∧ c ≤ 'Z')) }

/-- The function `saveInitialState`. -/
def saveInitialState (kb : KnowledgeBase) : KnowledgeBase :=
  { kb with initial_fact_states := fun c => (kb.facts c).map (fun f => f.currentState) }

/-- The function `resetFacts` on the fact store: every entry is cleared, then the facts the
snapshot maps to TRUE are set TRUE (created by `operator[]` when missing). -/
def resetStore (initial_fact_states : Char → Option FactState) (facts : FactMap) : FactMap :=
  let cleared : FactMap := fun c => (facts c).map (fun f =>
    { f with currentState := FactState.FALSE, isProcessing := false,
             true_reasons := [], final_state_reason := [] })
  fun c =>
    if initial_fact_states c = some FactState.TRUE then
      some { cleared.get c with currentState := FactState.TRUE }
    else cleared c

/-- The function `resetFacts`. -/
def resetFacts (kb : KnowledgeBase) : KnowledgeBase :=
  { kb with facts := resetStore kb.initial_fact_states kb.facts }

/-- The derivation note pushed by the forward elimination step. -/
def eliminationNote (rule : Rule) : List Char :=
  "Derived TRUE by elimination from Rule: ".toList ++ rule.to_string ++
    " (All other conclusions were determined to be FALSE or resolved)".toList

/-- The loop over the conclusions of a rule in `propagate_Undetermined`, carrying
`undetermined_or_false_count` and `last_undetermined_fact`. -/
def conclusionLoop (isFactTrue : Char → FactMap → Resolved) :
    List Char → Nat → Char → FactMap → Option (Nat × Char × FactMap)
  | [], count, last, facts => some (count, last, facts)
  | c :: rest, count, last, facts =>
      match isFactTrue c facts with
      | none => none
      | some (state, facts1) =>
          if state = FactState.UNDETERMINED ∨ state = FactState.FALSE then
            conclusionLoop isFactTrue rest (count + 1) c facts1
          else conclusionLoop isFactTrue rest count last facts1

/-- The body of the loop over the rules in `propagate_Undetermined`, for one rule. -/
def propagateRule (isFactTrue : Char → FactMap → Resolved) (rule : Rule)
    (changed : Bool) (facts : FactMap) : Option (Bool × FactMap) :=
  if rule.consequent.isOrXor then
    match rule.antecedent.evaluate isFactTrue facts with
    | none => none
    | some (premiseState, facts1) =>
        if premiseState = FactState.TRUE then
          match conclusionLoop isFactTrue rule.consequent.getFacts 0 NUL facts1 with
          | none => none
          | some (undetermined_or_false_count, last_undetermined_fact, facts2) =>
              if undetermined_or_false_count = 1 ∧
                  (facts2.get last_undetermined_fact).currentState ≠ FactState.TRUE then
                some (true, facts2.set last_undetermined_fact
                  { facts2.get last_undetermined_fact with
                    currentState := FactState.TRUE,
                    true_reasons := (facts2.get last_undetermined_fact).true_reasons ++
                      [eliminationNote rule] })
              else some (changed, facts2)
        else some (changed, facts1)
  else some (changed, facts)

/-- One scan of all the rules in `propagate_Undetermined`. -/
def propagateScan (isFactTrue : Char → FactMap → Resolved) :
    List Rule → Bool → FactMap → Option (Bool × FactMap)
  | [], changed, facts => some (changed, facts)
  | rule :: rest, changed, facts =>
      match propagateRule isFactTrue rule changed facts with
      | none => none
      | some (changed1, facts1) => propagateScan isFactTrue rest changed1 facts1

/-- The `do ... while (changed && max_iterations > 0)` loop; the first argument is
`max_iterations` before the decrement at the head of the body. -/
def propagateLoop (rules : List Rule) (fuel : Nat) : Nat → FactMap → Option FactMap
  | 0, facts => (propagateScan (isFactTrue rules fuel) rules false facts).map (fun p => p.2)
  | max_iterations + 1, facts =>
      match propagateScan (isFactTrue rules fuel) rules false facts with
      | none => none
      | some (changed, facts1) =>
          if changed ∧ max_iterations > 0 then propagateLoop rules fuel max_iterations facts1
          else some facts1

/-- The function `propagate_Undetermined`, with its cap of 100 iterations. -/
def propagate_Undetermined (rules : List Rule) (fuel : Nat) (facts : FactMap) : Option FactMap :=
  propagateLoop rules fuel 100 facts

/-- The loop over the queries in `runQueries`: the reported pairs and the fact store. -/
def queryLoop (isFactTrue : Char → FactMap → Resolved) :
    List Char → FactMap → Option (List (Char × FactState) × FactMap)
  | [], facts => some ([], facts)
  | query_fact :: rest, facts =>
      match isFactTrue query_fact facts with
      | none => none
      | some (result, facts1) =>
          match queryLoop isFactTrue rest facts1 with
          | none => none
          | some (results, facts2) => some ((query_fact, result) :: results, facts2)

/-- The function `runQueries`: reset, forward elimination, then the queries in order.  The
result is the list of reported (fact, result) pairs with the final knowledge base. -/
def runQueries (kb : KnowledgeBase) (fuel : Nat) :
    Option (List (Char × FactState) × KnowledgeBase) :=
  let kb1 := resetFacts kb
  match propagate_Undetermined kb1.rules fuel kb1.facts with
  | none => none
  | some facts1 =>
      match queryLoop (isFactTrue kb1.rules fuel) kb1.queries facts1 with
      | none => none
      | some (results, facts2) => some (results, { kb1 with facts := facts2 })

/-! ## Views of the fact store used in the statements -/

/-- The in-progress flag of `c`; a fact that is not in the store is not in progress. -/
def inProgress (facts : FactMap) (c : Char) : Bool :=
  (facts.get c).isProcessing

/-- The state of `c`; a fact that is not in the store has the default state FALSE. -/
def stateOf (facts : FactMap) (c : Char) : FactState :=
  (facts.get c).currentState

/-- What a call of `isFactTrue` or `evaluate` leaves in place: every in-progress
flag, every entry whose state is TRUE, and the state of every entry in progress. -/
def Frame (facts facts1 : FactMap) : Prop :=
  (∀ c, inProgress facts1 c = inProgress facts c) ∧
  (∀ c f, facts c = some f → f.currentState = FactState.TRUE → facts1 c = some f) ∧
  (∀ c, inProgress facts c = true → stateOf facts1 c = stateOf facts c)

/-- Number of antecedent symbols not in progress: the measure that bounds the
nesting depth of `isFactTrue`. -/
def idleCount (rules : List Rule) (facts : FactMap) : Nat :=
  (antecedentSymbols rules).countP (fun c => !inProgress facts c)

/-! ## Two-valued stores and refutation sets

The notions below are used to state and prove that re-evaluation is stable.
With a two-valued store every answer of `isFactTrue` is TRUE or FALSE.  A TRUE
answer is cached in the store.  A FALSE answer is justified by a set of facts
that are not TRUE, each of them either in progress or such that every rule
concerning it has an antecedent which is false when the facts of the set are
read as false and the facts that are TRUE in the store as true. -/

/-- Whether `c` is TRUE in the store. -/
def isTrue (facts : FactMap) (c : Char) : Bool :=
  decide (stateOf facts c = FactState.TRUE)

/-- Two-valued reading of an expression under a valuation of the facts. -/
def Expression.holds (val : Char → Bool) : Expression → Bool
  | .FactExpression factSymbol isNegated => if isNegated then !val factSymbol else val factSymbol
  | .BinaryOperation .AND left right => left.holds val && right.holds val
  | .BinaryOperation .OR left right => left.holds val || right.holds val
  | .BinaryOperation .XOR left right => left.holds val != right.holds val

/-- The state TRUE or FALSE for a truth value. -/
def FactState.ofBool (b : Bool) : FactState :=
  if b then FactState.TRUE else FactState.FALSE

/-- Every fact of the store is TRUE or FALSE. -/
def TwoValued (facts : FactMap) : Prop :=
  ∀ c, stateOf facts c = FactState.TRUE ∨ stateOf facts c = FactState.FALSE

/-- A refutation set for the store: no member is TRUE, and every member is in
progress or has all the rules that concern it refuted, their antecedents
mentioning only TRUE facts and members and being false under the store. -/
def Closed (rules : List Rule) (facts : FactMap) (R : Char → Prop) : Prop :=
  ∀ c, R c →
    stateOf facts c ≠ FactState.TRUE ∧
    (inProgress facts c = true ∨
      ∀ rule ∈ rules, concerns_symbol rule c = true →
        (∀ d ∈ rule.antecedent.getFacts, stateOf facts d = FactState.TRUE ∨ R d) ∧
        rule.antecedent.holds (isTrue facts) = false)

/-- The fact `c` belongs to some refutation set for the store. -/
def Refuted (rules : List Rule) (facts : FactMap) (c : Char) : Prop :=
  ∃ R, Closed rules facts R ∧ R c

/-- The store `facts1` extends `facts`: TRUE facts stay TRUE and refuted facts stay refuted. -/
def Extends (rules : List Rule) (facts facts1 : FactMap) : Prop :=
  (∀ c, stateOf facts c = FactState.TRUE → stateOf facts1 c = FactState.TRUE) ∧
  (∀ c, Refuted rules facts c → Refuted rules facts1 c)

/-- What a resolver does on a two-valued store: the store stays two-valued and
is extended, and the answer is TRUE with the fact TRUE in the store, or FALSE
with the fact refuted. -/
def ResolverSound (rules : List Rule) (resolve : Char → FactMap → Resolved) : Prop :=
  ∀ c s r s1, TwoValued s → resolve c s = some (r, s1) →
    TwoValued s1 ∧ Extends rules s s1 ∧
    ((r = FactState.TRUE ∧ stateOf s1 c = FactState.TRUE) ∨
     (r = FactState.FALSE ∧ Refuted rules s1 c))

/-! ## Concrete inputs used in the examples -/

/-- The fact leaf `c`, not negated. -/
def leaf (c : Char) : Expression := Expression.FactExpression c false

/-- The rule `a => c` between two non-negated facts. -/
def factRule (a c : Char) : Rule := ⟨leaf a, leaf c⟩

/-- A fact entry for `c` in the given state, the other members at their defaults. -/
def factIn (c : Char) (state : FactState) : Fact := { symbol := c, currentState := state }

/-- The store in which A is FALSE and B is TRUE. -/
def storeAFalseBTrue : FactMap :=
  (FactMap.empty.set 'A' (factIn 'A' FactState.FALSE)).set 'B' (factIn 'B' FactState.TRUE)

/-- The rules `!B => A` and `A => B`. -/
def rulesNotBA : List Rule :=
  [⟨Expression.FactExpression 'B' true, leaf 'A'⟩, factRule 'A' 'B']

/-- No fact leaf of the expression is negated. -/
def Expression.isPositive : Expression → Bool
  | .FactExpression _ isNegated => !isNegated
  | .BinaryOperation _ left right => left.isPositive && right.isPositive

/-- The knowledge base loaded from the lines `X=>A|B`, `=X` and `?AB`. -/
def eliminationKB : KnowledgeBase :=
  match parseRule {} "X=>A|B".toList with
  | .done kb => saveInitialState (parseQueries (parseInitialFacts kb "X".toList false) "AB".toList)
  | _ => {}

/-- The rule `X => A|B` as an AST. -/
def ruleXAorB : Rule :=
  ⟨leaf 'X', Expression.BinaryOperation Operator.OR (leaf 'A') (leaf 'B')⟩

/-- Registering the rules `antecedent_str => c` for the consequent texts `c` of
the list, in order; an exception ends the sequence. -/
def registerEach (antecedent_str : List Char) : List (List Char) → KnowledgeBase → Outcome
  | [], kb => .done kb
  | c :: rest, kb => (addImpliesRule kb antecedent_str c).andThen (registerEach antecedent_str rest)

/-- Parsing the rule lines of the list with `parseRule`, in order; an exception
ends the sequence. -/
def parseRules : List (List Char) → KnowledgeBase → Outcome
  | [], kb => .done kb
  | rule_str :: rest, kb => (parseRule kb rule_str).andThen (parseRules rest)

/-- The text of the implication separator. -/
def impliesText : List Char := ['=', '>']

/-- The text of the biconditional separator. -/
def iffText : List Char := ['<', '=', '>']

/-! ## Properties of parser functions used in the proofs -/

/-- The parser `sub1` repeats on `s ++ suffix` every success of `sub` on `s`,
leaving the suffix unread. -/
def Stable (suffix : List Char) (sub sub1 : List Char → ParseResult) : Prop :=
  ∀ s e rest, sub s = ParseResult.ok e rest → sub1 (s ++ suffix) = ParseResult.ok e (rest ++ suffix)

/-- The parser has fuel for every text shorter than `bound`, and a success
consumes at least one character. -/
def Adequate (sub : List Char → ParseResult) (bound : Nat) : Prop :=
  ∀ s, s.length < bound →
    sub s ≠ ParseResult.outOfFuel ∧
    ∀ e rest, sub s = ParseResult.ok e rest → rest.length < s.length

/-- The unread text `rest` is a suffix of `s`, and the part of `s` read before it
has as many opening as closing parentheses. -/
def Consumed (s rest : List Char) : Prop :=
  rest <:+ s ∧ s.count '(' + rest.count ')' = s.count ')' + rest.count '('

/-- Every success of the parser reads a balanced part of the text. -/
def Tracks (sub : List Char → ParseResult) : Prop :=
  ∀ s e rest, sub s = ParseResult.ok e rest → Consumed s rest

/-- Number of distinct fact identifiers a call of `isFactTrue` on `c` can reach:
`c` itself and the facts of the antecedents. -/
def distinctFacts (rules : List Rule) (c : Char) : Nat :=
  ((c :: rules.flatMap (fun rule => rule.antecedent.getFacts)).dedup).length

/-- A knowledge base whose store holds stale entries: A in progress and
UNDETERMINED with a proof note and a reason, B TRUE; the snapshot maps A to FALSE,
B to TRUE and C, which is not in the store, to TRUE. -/
def staleKB : KnowledgeBase :=
  { facts := (FactMap.empty.set 'A'
        { symbol := 'A', currentState := FactState.UNDETERMINED, isProcessing := true,
          true_reasons := [derivedNote (factRule 'B' 'A')],
          final_state_reason := undeterminedReason }).set 'B' (factIn 'B' FactState.TRUE),
    initial_fact_states := fun c =>
      if c = 'A' then some FactState.FALSE
      else if c = 'B' ∨ c = 'C' then some FactState.TRUE else none }

/-- Whether `f` occurs in the expression as a non-negated leaf. -/
def Expression.hasPositive (f : Char) : Expression → Bool
  | .FactExpression factSymbol isNegated => decide (factSymbol = f) && !isNegated
  | .BinaryOperation _ left right => left.hasPositive f || right.hasPositive f

/-- The rule `X => !A|B` as an AST. -/
def ruleXNotAorB : Rule :=
  ⟨leaf 'X', Expression.BinaryOperation Operator.OR (Expression.FactExpression 'A' true)
    (leaf 'B')⟩

/-- The store in which X is TRUE and no other fact is present. -/
def storeXTrue : FactMap := FactMap.empty.set 'X' (factIn 'X' FactState.TRUE)

/-- The store after the two statements of the elimination step of
`propagate_Undetermined` on the fact `c`: its state is set TRUE and the
elimination note of the rule is pushed. -/
def FactMap.eliminate (facts : FactMap) (c : Char) (rule : Rule) : FactMap :=
  facts.set c
    { facts.get c with
      currentState := FactState.TRUE,
      true_reasons := (facts.get c).true_reasons ++ [eliminationNote rule] }

/-- Every entry that is TRUE in `facts` is the same entry in `facts1`. -/
def KeepsTrue (facts facts1 : FactMap) : Prop :=
  ∀ c f, facts c = some f → f.currentState = FactState.TRUE → facts1 c = some f

/-- Two stores with the same state and the same in-progress flag for every fact
(a fact missing from a store counting as FALSE and not in progress). -/
def SameViews (s t : FactMap) : Prop :=
  ∀ c, stateOf s c = stateOf t c ∧ inProgress s c = inProgress t c

/-- The text `s` with every space and tab removed. -/
def removeWhitespace (s : List Char) : List Char :=
  s.filter (fun c => !(decide (c = ' ' ∨ c = TAB)))

/-- Apply `f` to the unread text carried by a result. -/
def ParseResult.onRest (f : List Char → List Char) : ParseResult → ParseResult
  | .ok expr rest => .ok expr (f rest)
  | .syntaxError rest message => .syntaxError (f rest) message
  | .outOfFuel => .outOfFuel

/-- The parser does on the text without whitespace what it does on the text, up to
the whitespace of the unread part. -/
def WhitespaceBlind (sub : List Char → ParseResult) : Prop :=
  ∀ s, sub (removeWhitespace s) = (sub s).onRest removeWhitespace

/-- The parser `sub1` repeats every result of `sub` that is not a lack of fuel. -/
def Repeats (sub sub1 : List Char → ParseResult) : Prop :=
  ∀ s, sub s ≠ ParseResult.outOfFuel → sub1 s = sub s

/-- The rule `X => A^B` as an AST. -/
def ruleXAxorB : Rule :=
  ⟨leaf 'X', Expression.BinaryOperation Operator.XOR (leaf 'A') (leaf 'B')⟩

/-- The uppercase letters of a text, in order, duplicates included. -/
def uppercaseLetters (s : List Char) : List Char :=
  s.filter (fun c => decide ('A' ≤ c ∧ c ≤ 'Z'))

/-- Every success of the parser returns an AST whose facts are the uppercase
letters of the part of the text it has read, in order. -/
def Collects (sub : List Char → ParseResult) : Prop :=
  ∀ s e rest, sub s = ParseResult.ok e rest →
    uppercaseLetters s = e.getFacts ++ uppercaseLetters rest

/-! # Theorems -/

/-! ## C1 -/

/-- C1: `evaluate` follows the three-valued semantics at each node.  A fact leaf
returns the state resolved by `isFactTrue`, with TRUE and FALSE swapped and
UNDETERMINED kept when the leaf is negated; a binary node returns
`combineStates` of the values of its children, the left one evaluated first;
and on values in TRUE, FALSE, UNDETERMINED, `combineStates` is the table of the
specification: AND is FALSE if a child is FALSE, TRUE if both are TRUE, else
UNDETERMINED; OR is TRUE if a child is TRUE, FALSE if both are FALSE, else
UNDETERMINED; XOR is UNDETERMINED if a child is UNDETERMINED, otherwise TRUE
exactly when one child is TRUE. -/
theorem evaluate_three_valued_semantics (rules : List Rule) (fuel : Nat) (facts : FactMap) :
    (∀ c neg state facts1, isFactTrue rules fuel c facts = some (state, facts1) →
      ∃ v, evaluate rules fuel (Expression.FactExpression c neg) facts = some (v, facts1) ∧
        (neg = false → v = state) ∧
        (neg = true →
          (state = FactState.TRUE → v = FactState.FALSE) ∧
          (state = FactState.FALSE → v = FactState.TRUE) ∧
          (state = FactState.UNDETERMINED → v = FactState.UNDETERMINED))) ∧
    (∀ op l r lv facts1 rv facts2,
      evaluate rules fuel l facts = some (lv, facts1) →
      evaluate rules fuel r facts1 = some (rv, facts2) →
      evaluate rules fuel (Expression.BinaryOperation op l r) facts =
        some (combineStates op lv rv, facts2)) ∧
    (∀ lv rv, lv ≠ FactState.PROCESSING → rv ≠ FactState.PROCESSING →
      ((lv = FactState.FALSE ∨ rv = FactState.FALSE →
          combineStates Operator.AND lv rv = FactState.FALSE) ∧
       (lv = FactState.TRUE ∧ rv = FactState.TRUE →
          combineStates Operator.AND lv rv = FactState.TRUE) ∧
       (¬ (lv = FactState.FALSE ∨ rv = FactState.FALSE) →
        ¬ (lv = FactState.TRUE ∧ rv = FactState.TRUE) →
          combineStates Operator.AND lv rv = FactState.UNDETERMINED)) ∧
      ((lv = FactState.TRUE ∨ rv = FactState.TRUE →
          combineStates Operator.OR lv rv = FactState.TRUE) ∧
       (lv = FactState.FALSE ∧ rv = FactState.FALSE →
          combineStates Operator.OR lv rv = FactState.FALSE) ∧
       (¬ (lv = FactState.TRUE ∨ rv = FactState.TRUE) →
        ¬ (lv = FactState.FALSE ∧ rv = FactState.FALSE) →
          combineStates Operator.OR lv rv = FactState.UNDETERMINED)) ∧
      ((lv = FactState.UNDETERMINED ∨ rv = FactState.UNDETERMINED →
          combineStates Operator.XOR lv rv = FactState.UNDETERMINED) ∧
       (lv ≠ FactState.UNDETERMINED → rv ≠ FactState.UNDETERMINED →
          (combineStates Operator.XOR lv rv = FactState.TRUE ∨
            combineStates Operator.XOR lv rv = FactState.FALSE) ∧
          (combineStates Operator.XOR lv rv = FactState.TRUE ↔
            ((lv = FactState.TRUE ∧ rv ≠ FactState.TRUE) ∨
             (lv ≠ FactState.TRUE ∧ rv = FactState.TRUE)))))) := by
  refine ⟨?_, ?_, ?_⟩
  · intro c neg state facts1 h
    refine ⟨negateState neg state, ?_, ?_, ?_⟩
    · simp [evaluate, Expression.evaluate, h]
    · intro hn; subst hn; simp [negateState]
    · intro hn; subst hn
      refine ⟨?_, ?_, ?_⟩ <;> intro hs <;> subst hs <;> simp [negateState]
  · intro op l r lv facts1 rv facts2 hl hr
    simp only [evaluate] at hl hr
    simp [evaluate, Expression.evaluate, hl, hr]
  · intro lv rv hl hr
    cases lv <;> cases rv <;> simp_all [combineStates]

/-- Witness for C1: with no rule and A the only TRUE fact, the leaf `A` evaluates
TRUE, the leaf `!A` FALSE, `A ^ B` TRUE, and XOR of TRUE and UNDETERMINED is
UNDETERMINED. -/
theorem evaluate_three_valued_semantics_witness :
    (evaluate [] 2 (Expression.FactExpression 'A' true)
        (FactMap.empty.set 'A' { symbol := 'A', currentState := FactState.TRUE })).map
          (fun p => p.1) = some FactState.FALSE ∧
    combineStates Operator.XOR FactState.TRUE FactState.UNDETERMINED = FactState.UNDETERMINED := by
  have h := evaluate_three_valued_semantics [] 2
    (FactMap.empty.set 'A' { symbol := 'A', currentState := FactState.TRUE })
  refine ⟨?_, ?_⟩
  · obtain ⟨v, hv, _, hneg⟩ := h.1 'A' true FactState.TRUE _ rfl
    rw [hv, (hneg rfl).1 rfl]; rfl
  · exact (h.2.2 FactState.TRUE FactState.UNDETERMINED (by decide) (by decide)).2.2.1 (Or.inr rfl)

/-! ## Basic facts about the fact store -/

@[simp] theorem FactMap.set_same (facts : FactMap) (c : Char) (f : Fact) :
    (facts.set c f) c = some f := by
  simp [FactMap.set]

@[simp] theorem FactMap.set_other (facts : FactMap) (c d : Char) (f : Fact) (h : d ≠ c) :
    (facts.set c f) d = facts d := by
  simp [FactMap.set, h]

@[simp] theorem FactMap.get_set_same (facts : FactMap) (c : Char) (f : Fact) :
    (facts.set c f).get c = f := by
  simp [FactMap.get]

@[simp] theorem FactMap.get_set_other (facts : FactMap) (c d : Char) (f : Fact) (h : d ≠ c) :
    (facts.set c f).get d = facts.get d := by
  simp [FactMap.get, h]

theorem FactMap.create_other (facts : FactMap) (c d : Char) (h : d ≠ c) :
    (facts.create c) d = facts d := by
  unfold FactMap.create
  cases hc : facts c <;> simp [h]

theorem FactMap.create_some (facts : FactMap) (c : Char) (f : Fact) (h : facts c = some f) :
    facts.create c = facts := by
  simp [FactMap.create, h]

theorem FactMap.create_none (facts : FactMap) (c : Char) (h : facts c = none) :
    facts.create c = facts.set c { symbol := c } := by
  simp [FactMap.create, h]

theorem FactMap.get_of_some (facts : FactMap) (c : Char) (f : Fact) (h : facts c = some f) :
    facts.get c = f := by
  simp [FactMap.get, h]

theorem FactMap.create_self (facts : FactMap) (c : Char) :
    (facts.create c) c = some ((facts.create c).get c) := by
  cases hc : facts c with
  | none => simp [FactMap.create_none _ _ hc]
  | some f => simp [FactMap.create_some _ _ _ hc, FactMap.get, hc]

theorem inProgress_create (facts : FactMap) (c d : Char) :
    inProgress (facts.create c) d = inProgress facts d := by
  cases hc : facts c with
  | some f => rw [FactMap.create_some _ _ _ hc]
  | none =>
    rw [FactMap.create_none _ _ hc]
    by_cases hd : d = c
    · subst hd; simp [inProgress, FactMap.get, hc]
    · simp [inProgress, hd]

theorem stateOf_create (facts : FactMap) (c d : Char) :
    stateOf (facts.create c) d = stateOf facts d := by
  cases hc : facts c with
  | some f => rw [FactMap.create_some _ _ _ hc]
  | none =>
    rw [FactMap.create_none _ _ hc]
    by_cases hd : d = c
    · subst hd; simp [stateOf, FactMap.get, hc]
    · simp [stateOf, hd]

theorem create_keeps (facts : FactMap) (c d : Char) (f : Fact) (h : facts d = some f) :
    (facts.create c) d = some f := by
  by_cases hd : d = c
  · subst hd; rw [FactMap.create_some _ _ _ h]; exact h
  · rw [FactMap.create_other _ _ _ hd]; exact h

theorem stateOf_of_some (facts : FactMap) (c : Char) (f : Fact) (h : facts c = some f) :
    stateOf facts c = f.currentState := by
  simp [stateOf, FactMap.get, h]

theorem some_of_stateOf_TRUE (facts : FactMap) (c : Char) (h : stateOf facts c = FactState.TRUE) :
    ∃ f, facts c = some f ∧ f.currentState = FactState.TRUE := by
  cases hc : facts c with
  | none => simp [stateOf, FactMap.get, hc] at h
  | some f => exact ⟨f, rfl, by simpa [stateOf, FactMap.get, hc] using h⟩

/-! ## The frame of a call -/

theorem Frame.id (facts : FactMap) : Frame facts facts :=
  ⟨fun _ => rfl, fun _ _ h _ => h, fun _ _ => rfl⟩

theorem Frame.comp {a b c : FactMap} (h1 : Frame a b) (h2 : Frame b c) : Frame a c := by
  refine ⟨fun d => ?_, fun d f hf ht => ?_, fun d hd => ?_⟩
  · rw [h2.1, h1.1]
  · exact h2.2.1 d f (h1.2.1 d f hf ht) ht
  · rw [h2.2.2 d (by rw [h1.1]; exact hd), h1.2.2 d hd]

theorem Frame.stateOf_TRUE {a b : FactMap} (h : Frame a b) (c : Char)
    (hc : stateOf a c = FactState.TRUE) : stateOf b c = FactState.TRUE := by
  obtain ⟨f, hf, ht⟩ := some_of_stateOf_TRUE a c hc
  rw [stateOf_of_some b c f (h.2.1 c f hf ht)]; exact ht

theorem Frame.create (facts : FactMap) (c : Char) : Frame facts (facts.create c) :=
  ⟨fun d => inProgress_create facts c d, fun d f hf _ => create_keeps facts c d f hf,
    fun d _ => stateOf_create facts c d⟩

/-- Pushing a derivation note on an entry that is not TRUE is within the frame. -/
theorem Frame.pushReason (facts : FactMap) (c : Char) (note : List Char)
    (h : stateOf facts c ≠ FactState.TRUE) :
    Frame facts (facts.pushReason c note) := by
  unfold FactMap.pushReason
  refine ⟨fun d => ?_, fun d f hf ht => ?_, fun d _ => ?_⟩
  · by_cases hd : d = c
    · subst hd; simp [inProgress]
    · simp [inProgress, hd]
  · by_cases hd : d = c
    · subst hd; exact absurd (by rw [stateOf_of_some _ _ _ hf]; exact ht) h
    · simp [hd, hf]
  · by_cases hd : d = c
    · subst hd; simp [stateOf]
    · simp [stateOf, hd]

/-! ## Invariants carried through `evaluate` and the rule loop -/

/-- An invariant of the fact store kept by every call of the resolver is kept by `evaluate`. -/
theorem Expression.evaluate_inv (resolve : Char → FactMap → Resolved) (I : FactMap → Prop)
    (hres : ∀ c t r t1, I t → resolve c t = some (r, t1) → I t1) :
    ∀ (e : Expression) (s : FactMap) (v : FactState) (s1 : FactMap),
      I s → e.evaluate resolve s = some (v, s1) → I s1 := by
  intro e
  induction e with
  | FactExpression c neg =>
    intro s v s1 hI h
    simp only [Expression.evaluate] at h
    cases hr : resolve c s with
    | none => simp [hr] at h
    | some p =>
      obtain ⟨r, t⟩ := p
      simp [hr] at h
      obtain ⟨_, rfl⟩ := h
      exact hres c s r t hI hr
  | BinaryOperation op l r ihl ihr =>
    intro s v s1 hI h
    simp only [Expression.evaluate] at h
    cases hl : l.evaluate resolve s with
    | none => simp [hl] at h
    | some p =>
      obtain ⟨lv, t⟩ := p
      cases hr : r.evaluate resolve t with
      | none => simp [hl, hr] at h
      | some q =>
        obtain ⟨rv, t2⟩ := q
        simp [hl, hr] at h
        obtain ⟨_, rfl⟩ := h
        exact ihr t rv t2 (ihl s lv t hI hl) hr

/-- An invariant kept by `evaluate` of every antecedent and by the push of a
derivation note is kept by the rule loop. -/
theorem ruleLoop_inv (resolve : Char → FactMap → Resolved) (symbol : Char) (I : FactMap → Prop)
    (heval : ∀ (e : Expression) t v t1, I t → e.evaluate resolve t = some (v, t1) → I t1)
    (hpush : ∀ t note, I t → I (t.pushReason symbol note)) :
    ∀ (rs : List Rule) (p u : Bool) (s : FactMap) (p1 u1 : Bool) (s1 : FactMap),
      I s → ruleLoop resolve symbol rs p u s = some (p1, u1, s1) → I s1 := by
  intro rs
  induction rs with
  | nil =>
    intro p u s p1 u1 s1 hI h
    simp [ruleLoop] at h
    obtain ⟨_, _, rfl⟩ := h
    exact hI
  | cons rule rest ih =>
    intro p u s p1 u1 s1 hI h
    simp only [ruleLoop] at h
    by_cases hc : concerns_symbol rule symbol = true
    · simp only [hc, if_true] at h
      cases he : rule.antecedent.evaluate resolve s with
      | none => simp [he] at h
      | some q =>
        obtain ⟨v, t⟩ := q
        simp only [he] at h
        have hIt := heval _ s v t hI he
        by_cases hv : v = FactState.TRUE
        · simp only [hv, if_true] at h
          exact ih _ _ _ _ _ _ (hpush t _ hIt) h
        · simp only [hv, if_false] at h
          exact ih _ _ _ _ _ _ hIt h
    · simp only [hc] at h
      exact ih _ _ _ _ _ _ hI h

/-! ## The three ways `isFactTrue` returns -/

/-- A call of `isFactTrue` that returns does so in one of three ways: at once
with a state that is neither FALSE nor UNDETERMINED; at once with FALSE on a
fact in progress; or after the rule loop. -/
theorem isFactTrue_cases {rules : List Rule} {n : Nat} {c : Char} {s : FactMap}
    {r : FactState} {s1 : FactMap} (h : isFactTrue rules (n + 1) c s = some (r, s1)) :
    (stateOf s c ≠ FactState.FALSE ∧ stateOf s c ≠ FactState.UNDETERMINED ∧
      r = stateOf s c ∧ s1 = s.create c) ∨
    ((stateOf s c = FactState.FALSE ∨ stateOf s c = FactState.UNDETERMINED) ∧
      inProgress s c = true ∧ r = FactState.FALSE ∧ s1 = s.create c) ∨
    ((stateOf s c = FactState.FALSE ∨ stateOf s c = FactState.UNDETERMINED) ∧
      inProgress s c = false ∧
      ∃ p u s2, ruleLoop (isFactTrue rules n) c rules false false ((s.create c).start c)
          = some (p, u, s2) ∧
        r = (settle (s2.get c) p u).currentState ∧
        s1 = s2.set c (settle (s2.get c) p u)) := by
  simp only [isFactTrue] at h
  rw [← stateOf_create s c c, ← inProgress_create s c c]
  by_cases h1 : ((s.create c).get c).currentState ≠ FactState.FALSE ∧
      ((s.create c).get c).currentState ≠ FactState.UNDETERMINED
  · left
    rw [if_pos h1] at h
    simp only [Option.some.injEq, Prod.mk.injEq] at h
    exact ⟨h1.1, h1.2, h.1.symm, h.2.symm⟩
  · right
    rw [if_neg h1] at h
    have h1' : stateOf (s.create c) c = FactState.FALSE ∨
        stateOf (s.create c) c = FactState.UNDETERMINED := by
      unfold stateOf
      by_contra hcon
      exact h1 ⟨fun hx => hcon (Or.inl hx), fun hx => hcon (Or.inr hx)⟩
    by_cases h2 : ((s.create c).get c).isProcessing = true
    · left
      rw [if_pos h2] at h
      simp only [Option.some.injEq, Prod.mk.injEq] at h
      exact ⟨h1', h2, h.1.symm, h.2.symm⟩
    · right
      rw [if_neg h2] at h
      refine ⟨h1', by simpa [inProgress] using h2, ?_⟩
      cases hl : ruleLoop (isFactTrue rules n) c rules false false ((s.create c).start c) with
      | none => simp [hl] at h
      | some q =>
        obtain ⟨p, u, s2⟩ := q
        simp only [hl, Option.some.injEq, Prod.mk.injEq] at h
        exact ⟨p, u, s2, rfl, h.1.symm, h.2.symm⟩

theorem settle_isProcessing (f : Fact) (p u : Bool) : (settle f p u).isProcessing = false := by
  unfold settle; split_ifs <;> rfl

theorem inProgress_start (s : FactMap) (c d : Char) (h : d ≠ c) :
    inProgress (s.start c) d = inProgress s d := by
  simp [inProgress, FactMap.start, h]

theorem inProgress_start_self (s : FactMap) (c : Char) : inProgress (s.start c) c = true := by
  simp [inProgress, FactMap.start]

theorem stateOf_start_self (s : FactMap) (c : Char) : stateOf (s.start c) c = FactState.FALSE := by
  simp [stateOf, FactMap.start]

theorem stateOf_start (s : FactMap) (c d : Char) (h : d ≠ c) :
    stateOf (s.start c) d = stateOf s d := by
  simp [stateOf, FactMap.start, h]

/-- The frame of the rule loop, from the frame of the nested calls. -/
theorem ruleLoop_frame (resolve : Char → FactMap → Resolved) (symbol : Char)
    (hres : ∀ c t r t1, resolve c t = some (r, t1) → Frame t t1)
    (s0 : FactMap) (hip : inProgress s0 symbol = true)
    (hst : stateOf s0 symbol ≠ FactState.TRUE)
    (rs : List Rule) (p u : Bool) (s : FactMap) (p1 u1 : Bool) (s1 : FactMap)
    (hs : Frame s0 s) (h : ruleLoop resolve symbol rs p u s = some (p1, u1, s1)) :
    Frame s0 s1 := by
  refine ruleLoop_inv resolve symbol (fun t => Frame s0 t) ?_ ?_ rs p u s p1 u1 s1 hs h
  · intro e t v t1 hI he
    exact Expression.evaluate_inv resolve (fun t => Frame s0 t)
      (fun c t r t1 hI hr => hI.comp (hres c t r t1 hr)) e t v t1 hI he
  · intro t note hI
    refine hI.comp (Frame.pushReason t symbol note ?_)
    rw [hI.2.2 symbol hip]; exact hst

/-- The function `isFactTrue` keeps every in-progress flag, every entry that is TRUE, and
the state of every entry in progress. -/
theorem isFactTrue_frame (rules : List Rule) :
    ∀ (n : Nat) (c : Char) (s : FactMap) (r : FactState) (s1 : FactMap),
      isFactTrue rules n c s = some (r, s1) → Frame s s1 := by
  intro n
  induction n with
  | zero => intro c s r s1 h; simp [isFactTrue] at h
  | succ n ih =>
    intro c s r s1 h
    rcases isFactTrue_cases h with ⟨_, _, _, rfl⟩ | ⟨_, _, _, rfl⟩ | ⟨hst, hip, p, u, s2, hl, _, rfl⟩
    · exact Frame.create s c
    · exact Frame.create s c
    · have hf := ruleLoop_frame (isFactTrue rules n) c ih ((s.create c).start c)
        (inProgress_start_self _ c) (by rw [stateOf_start_self]; decide)
        rules false false _ p u s2 (Frame.id _) hl
      refine ⟨fun d => ?_, fun d f hd ht => ?_, fun d hd => ?_⟩
      · by_cases hdc : d = c
        · subst hdc
          simp [inProgress, settle_isProcessing] at hip ⊢
          exact hip
        · have := hf.1 d
          rw [inProgress_start _ _ _ hdc, inProgress_create] at this
          simpa [inProgress, hdc] using this
      · have hdc : d ≠ c := by
          intro hdc; subst hdc
          rw [stateOf_of_some s d f hd, ht] at hst
          simp at hst
        have h1 : ((s.create c).start c) d = some f := by
          simp [FactMap.start, hdc, create_keeps s c d f hd]
        simpa [hdc] using hf.2.1 d f h1 ht
      · have hdc : d ≠ c := by
          intro hdc; subst hdc; rw [hip] at hd; simp at hd
        have h1 := hf.2.2 d (by rw [inProgress_start _ _ _ hdc, inProgress_create]; exact hd)
        rw [stateOf_start _ _ _ hdc, stateOf_create] at h1
        simpa [stateOf, hdc] using h1

/-- The frame of `evaluate`. -/
theorem evaluate_frame (rules : List Rule) (n : Nat) (e : Expression) (s : FactMap)
    (v : FactState) (s1 : FactMap) (h : evaluate rules n e s = some (v, s1)) : Frame s s1 :=
  Expression.evaluate_inv (isFactTrue rules n) (fun t => Frame s t)
    (fun c t r t1 hI hr => hI.comp (isFactTrue_frame rules n c t r t1 hr)) e s v s1
    (Frame.id s) h

/-! ## Termination: enough fuel gives a result -/

theorem countP_lt_of_mem {α : Type} (p q : α → Bool) (l : List α) (c : α)
    (hmono : ∀ d, q d = true → p d = true) (hc : c ∈ l) (hp : p c = true) (hq : q c = false) :
    l.countP q < l.countP p := by
  induction l with
  | nil => simp at hc
  | cons a l ih =>
    have hle : l.countP q ≤ l.countP p := List.countP_mono_left (fun d _ => hmono d)
    rcases List.mem_cons.mp hc with rfl | hmem
    · rw [List.countP_cons_of_pos _ _ hp, List.countP_cons_of_neg _ _ (by simp [hq])]
      omega
    · have := ih hmem
      by_cases hqa : q a = true
      · rw [List.countP_cons_of_pos _ _ hqa, List.countP_cons_of_pos _ _ (hmono a hqa)]
        omega
      · rw [List.countP_cons_of_neg _ _ hqa]
        by_cases hpa : p a = true
        · rw [List.countP_cons_of_pos _ _ hpa]; omega
        · rw [List.countP_cons_of_neg _ _ hpa]; omega

theorem idleCount_le (rules : List Rule) (s : FactMap) :
    idleCount rules s ≤ (antecedentSymbols rules).length :=
  List.countP_le_length _

theorem idleCount_congr (rules : List Rule) (s t : FactMap)
    (h : ∀ c, inProgress t c = inProgress s c) : idleCount rules t = idleCount rules s := by
  unfold idleCount
  congr 1
  funext c
  rw [h]

theorem idleCount_start (rules : List Rule) (s : FactMap) (c : Char)
    (hc : c ∈ antecedentSymbols rules) (hip : inProgress s c = false) :
    idleCount rules ((s.create c).start c) < idleCount rules s := by
  unfold idleCount
  refine countP_lt_of_mem _ _ _ c ?_ hc (by simp [hip]) (by simp [inProgress_start_self])
  intro d hd
  by_cases hdc : d = c
  · subst hdc; simp [inProgress_start_self] at hd
  · rw [inProgress_start _ _ _ hdc, inProgress_create] at hd
    exact hd

theorem mem_antecedentSymbols (rules : List Rule) (rule : Rule) (c : Char)
    (hr : rule ∈ rules) (hc : c ∈ rule.antecedent.getFacts) : c ∈ antecedentSymbols rules := by
  unfold antecedentSymbols
  rw [List.mem_dedup, List.mem_flatMap]
  exact ⟨rule, hr, hc⟩

/-- The function `evaluate` returns when the resolver returns on every fact of the expression,
on every store meeting an invariant that the resolver keeps. -/
theorem Expression.evaluate_total_of (resolve : Char → FactMap → Resolved) (I : FactMap → Prop)
    (hinv : ∀ c t r t1, I t → resolve c t = some (r, t1) → I t1) :
    ∀ (e : Expression),
      (∀ c ∈ e.getFacts, ∀ t, I t → ∃ r t1, resolve c t = some (r, t1)) →
      ∀ s, I s → ∃ v s1, e.evaluate resolve s = some (v, s1) := by
  intro e
  induction e with
  | FactExpression c neg =>
    intro htot s hI
    obtain ⟨r, t1, hr⟩ := htot c (by simp [Expression.getFacts]) s hI
    exact ⟨negateState neg r, t1, by simp [Expression.evaluate, hr]⟩
  | BinaryOperation op l r ihl ihr =>
    intro htot s hI
    obtain ⟨lv, t1, hl⟩ := ihl (fun c hc => htot c (by simp [Expression.getFacts, hc])) s hI
    have hI1 := Expression.evaluate_inv resolve I hinv l s lv t1 hI hl
    obtain ⟨rv, t2, hr⟩ := ihr (fun c hc => htot c (by simp [Expression.getFacts, hc])) t1 hI1
    exact ⟨combineStates op lv rv, t2, by simp [Expression.evaluate, hl, hr]⟩

/-- The rule loop returns when the resolver returns on every antecedent fact. -/
theorem ruleLoop_total (resolve : Char → FactMap → Resolved) (symbol : Char) (I : FactMap → Prop)
    (hinv : ∀ c t r t1, I t → resolve c t = some (r, t1) → I t1)
    (hpush : ∀ t note, I t → I (t.pushReason symbol note)) :
    ∀ (rs : List Rule),
      (∀ rule ∈ rs, ∀ c ∈ rule.antecedent.getFacts, ∀ t, I t →
        ∃ r t1, resolve c t = some (r, t1)) →
      ∀ (p u : Bool) (s : FactMap), I s →
        ∃ p1 u1 s1, ruleLoop resolve symbol rs p u s = some (p1, u1, s1) := by
  intro rs
  induction rs with
  | nil => intro _ p u s _; exact ⟨p, u, s, rfl⟩
  | cons rule rest ih =>
    intro htot p u s hI
    have htot' : ∀ rule ∈ rest, ∀ c ∈ rule.antecedent.getFacts, ∀ t, I t →
        ∃ r t1, resolve c t = some (r, t1) :=
      fun r hr => htot r (List.mem_cons_of_mem _ hr)
    simp only [ruleLoop]
    by_cases hc : concerns_symbol rule symbol = true
    · simp only [hc, if_true]
      obtain ⟨v, t, he⟩ := Expression.evaluate_total_of resolve I hinv rule.antecedent
        (htot rule (List.mem_cons_self _ _)) s hI
      have hIt := Expression.evaluate_inv resolve I hinv _ s v t hI he
      simp only [he]
      by_cases hv : v = FactState.TRUE
      · simp only [hv, if_true]
        exact ih htot' _ _ _ (hpush t _ hIt)
      · simp only [hv, if_false]
        exact ih htot' _ _ _ hIt
    · simp only [hc]
      exact ih htot' _ _ _ hI

/-- A nested call on an antecedent symbol returns when the fuel exceeds the
number of antecedent symbols that are not in progress. -/
theorem isFactTrue_nested_total (rules : List Rule) :
    ∀ (n : Nat) (c : Char) (s : FactMap), c ∈ antecedentSymbols rules →
      idleCount rules s < n → ∃ r s1, isFactTrue rules n c s = some (r, s1) := by
  intro n
  induction n with
  | zero => intro c s _ h; omega
  | succ n ih =>
    intro c s hc hn
    simp only [isFactTrue]
    split_ifs with h1 h2
    · exact ⟨_, _, rfl⟩
    · exact ⟨_, _, rfl⟩
    · have hip : inProgress s c = false := by
        rw [← inProgress_create s c c]; simpa [inProgress] using h2
      have hlt := idleCount_start rules s c hc hip
      obtain ⟨p, u, s2, hl⟩ := ruleLoop_total (isFactTrue rules n) c
        (fun t => Frame ((s.create c).start c) t)
        (fun d t r t1 hI hr => hI.comp (isFactTrue_frame rules n d t r t1 hr))
        (fun t note hI => hI.comp (Frame.pushReason t c note (by
          rw [hI.2.2 c (inProgress_start_self _ c), stateOf_start_self]; decide)))
        rules
        (fun rule hr d hd t hI => ih d t (mem_antecedentSymbols rules rule d hr hd) (by
          rw [idleCount_congr rules _ t hI.1]; omega))
        false false _ (Frame.id _)
      simp only [hl]
      exact ⟨_, _, rfl⟩

/-- Every call of `isFactTrue` returns when given `fuelBound rules` or more. -/
theorem isFactTrue_total (rules : List Rule) (k : Nat) (c : Char) (s : FactMap) :
    ∃ r s1, isFactTrue rules (fuelBound rules + k) c s = some (r, s1) := by
  have hfuel : fuelBound rules + k = ((antecedentSymbols rules).length + 1 + k) + 1 := by
    unfold fuelBound; omega
  rw [hfuel]
  simp only [isFactTrue]
  split_ifs with h1 h2
  · exact ⟨_, _, rfl⟩
  · exact ⟨_, _, rfl⟩
  · obtain ⟨p, u, s2, hl⟩ := ruleLoop_total
      (isFactTrue rules ((antecedentSymbols rules).length + 1 + k)) c (fun _ => True)
      (fun _ _ _ _ _ _ => trivial) (fun _ _ _ => trivial) rules
      (fun rule hr d hd t _ => isFactTrue_nested_total rules _ d t
        (mem_antecedentSymbols rules rule d hr hd) (by
          have := idleCount_le rules t; omega))
      false false ((s.create c).start c) trivial
    simp only [hl]
    exact ⟨_, _, rfl⟩

/-- Every call of `evaluate` returns when given `fuelBound rules` or more. -/
theorem evaluate_total (rules : List Rule) (k : Nat) (e : Expression) (s : FactMap) :
    ∃ v s1, evaluate rules (fuelBound rules + k) e s = some (v, s1) :=
  Expression.evaluate_total_of (isFactTrue rules (fuelBound rules + k)) (fun _ => True)
    (fun _ _ _ _ _ _ => trivial) e (fun c _ t _ => isFactTrue_total rules k c t) s trivial

/-! ## Refutation sets -/

theorem Refuted.closed (rules : List Rule) (s : FactMap) : Closed rules s (Refuted rules s) := by
  intro c hc
  obtain ⟨R, hR, hRc⟩ := hc
  obtain ⟨h1, h2⟩ := hR c hRc
  refine ⟨h1, ?_⟩
  rcases h2 with h2 | h2
  · exact Or.inl h2
  · right
    intro rule hr hcon
    obtain ⟨h3, h4⟩ := h2 rule hr hcon
    refine ⟨fun d hd => ?_, h4⟩
    rcases h3 d hd with h | h
    · exact Or.inl h
    · exact Or.inr ⟨R, hR, h⟩

theorem Refuted.not_TRUE {rules : List Rule} {s : FactMap} {c : Char} (h : Refuted rules s c) :
    stateOf s c ≠ FactState.TRUE :=
  (Refuted.closed rules s c h).1

theorem Expression.holds_congr (val val1 : Char → Bool) :
    ∀ (e : Expression), (∀ d ∈ e.getFacts, val1 d = val d) → e.holds val1 = e.holds val := by
  intro e
  induction e with
  | FactExpression c neg =>
    intro h
    have := h c (by simp [Expression.getFacts])
    simp [Expression.holds, this]
  | BinaryOperation op l r ihl ihr =>
    intro h
    have h1 := ihl (fun d hd => h d (by simp [Expression.getFacts, hd]))
    have h2 := ihr (fun d hd => h d (by simp [Expression.getFacts, hd]))
    cases op <;> simp [Expression.holds, h1, h2]

/-- A set refuted in `s` is a refutation set for `s1` when TRUE facts and
in-progress flags of `s` are kept and no refuted fact has become TRUE. -/
theorem Refuted.persist (rules : List Rule) (s s1 : FactMap)
    (htrue : ∀ d, stateOf s d = FactState.TRUE → stateOf s1 d = FactState.TRUE)
    (hip : ∀ d, inProgress s d = true → inProgress s1 d = true)
    (hnot : ∀ d, Refuted rules s d → stateOf s1 d ≠ FactState.TRUE) :
    Closed rules s1 (Refuted rules s) := by
  intro c hc
  refine ⟨hnot c hc, ?_⟩
  rcases (Refuted.closed rules s c hc).2 with h | h
  · exact Or.inl (hip c h)
  · right
    intro rule hr hcon
    obtain ⟨h3, h4⟩ := h rule hr hcon
    refine ⟨fun d hd => ?_, ?_⟩
    · rcases h3 d hd with h | h
      · exact Or.inl (htrue d h)
      · exact Or.inr h
    · rw [← h4]
      apply Expression.holds_congr
      intro d hd
      rcases h3 d hd with h | h
      · simp [isTrue, h, htrue d h]
      · simp [isTrue, hnot d h, Refuted.not_TRUE h]

theorem Extends.same (rules : List Rule) (s : FactMap) : Extends rules s s :=
  ⟨fun _ h => h, fun _ h => h⟩

theorem Extends.chain {rules : List Rule} {a b c : FactMap} (h1 : Extends rules a b)
    (h2 : Extends rules b c) : Extends rules a c :=
  ⟨fun d h => h2.1 d (h1.1 d h), fun d h => h2.2 d (h1.2 d h)⟩

/-- Stores with the same states and in-progress flags extend each other. -/
theorem Extends.of_views (rules : List Rule) (s s1 : FactMap)
    (hst : ∀ d, stateOf s1 d = stateOf s d) (hip : ∀ d, inProgress s1 d = inProgress s d) :
    Extends rules s s1 := by
  refine ⟨fun d h => by rw [hst]; exact h, fun d h => ?_⟩
  exact ⟨_, Refuted.persist rules s s1 (fun d h => by rw [hst]; exact h)
    (fun d h => by rw [hip]; exact h) (fun d h => by rw [hst]; exact Refuted.not_TRUE h), h⟩

/-- The value of an expression whose facts are TRUE or refuted is kept by an extension. -/
theorem Extends.holds {rules : List Rule} {s s1 : FactMap} (h : Extends rules s s1)
    (e : Expression)
    (hfacts : ∀ d ∈ e.getFacts, stateOf s d = FactState.TRUE ∨ Refuted rules s d) :
    e.holds (isTrue s1) = e.holds (isTrue s) ∧
    (∀ d ∈ e.getFacts, stateOf s1 d = FactState.TRUE ∨ Refuted rules s1 d) := by
  refine ⟨?_, fun d hd => ?_⟩
  · apply Expression.holds_congr
    intro d hd
    rcases hfacts d hd with hd1 | hd1
    · simp [isTrue, hd1, h.1 d hd1]
    · simp [isTrue, Refuted.not_TRUE hd1, Refuted.not_TRUE (h.2 d hd1)]
  · rcases hfacts d hd with hd1 | hd1
    · exact Or.inl (h.1 d hd1)
    · exact Or.inr (h.2 d hd1)

theorem combineStates_ofBool (a b : Bool) :
    combineStates Operator.AND (FactState.ofBool a) (FactState.ofBool b)
      = FactState.ofBool (a && b) ∧
    combineStates Operator.OR (FactState.ofBool a) (FactState.ofBool b)
      = FactState.ofBool (a || b) ∧
    combineStates Operator.XOR (FactState.ofBool a) (FactState.ofBool b)
      = FactState.ofBool (a != b) := by
  cases a <;> cases b <;> decide

theorem combineStates_holds (op : Operator) (l r : Expression) (val : Char → Bool) :
    combineStates op (FactState.ofBool (l.holds val)) (FactState.ofBool (r.holds val)) =
      FactState.ofBool ((Expression.BinaryOperation op l r).holds val) := by
  cases op
  · simp only [Expression.holds]; exact (combineStates_ofBool _ _).1
  · simp only [Expression.holds]; exact (combineStates_ofBool _ _).2.1
  · simp only [Expression.holds]; exact (combineStates_ofBool _ _).2.2

/-! ## Soundness of the answers on a two-valued store -/

theorem negateState_ofBool (neg : Bool) (b : Bool) :
    negateState neg (FactState.ofBool b) = FactState.ofBool (if neg then !b else b) := by
  cases neg <;> cases b <;> decide

/-- The function `evaluate` on a two-valued store, for a sound resolver: the value is the
two-valued reading of the expression in the store reached, and every fact of
the expression is TRUE or refuted there. -/
theorem Expression.evaluate_sound_of (rules : List Rule) (resolve : Char → FactMap → Resolved)
    (hres : ResolverSound rules resolve) :
    ∀ (e : Expression) (s : FactMap) (v : FactState) (s1 : FactMap),
      TwoValued s → e.evaluate resolve s = some (v, s1) →
      TwoValued s1 ∧ Extends rules s s1 ∧
      (∀ d ∈ e.getFacts, stateOf s1 d = FactState.TRUE ∨ Refuted rules s1 d) ∧
      v = FactState.ofBool (e.holds (isTrue s1)) := by
  intro e
  induction e with
  | FactExpression c neg =>
    intro s v s1 htv h
    simp only [Expression.evaluate] at h
    cases hr : resolve c s with
    | none => simp [hr] at h
    | some q =>
      obtain ⟨r, t⟩ := q
      simp only [hr, Option.some.injEq, Prod.mk.injEq] at h
      obtain ⟨hv, rfl⟩ := h
      obtain ⟨h1, h2, h3⟩ := hres c s r t htv hr
      refine ⟨h1, h2, ?_, ?_⟩
      · intro d hd
        simp only [Expression.getFacts, List.mem_singleton] at hd
        subst hd
        rcases h3 with ⟨_, h3⟩ | ⟨_, h3⟩
        · exact Or.inl h3
        · exact Or.inr h3
      · rw [← hv]
        rcases h3 with ⟨hr1, h3⟩ | ⟨hr1, h3⟩
        · have : isTrue t c = true := by simp [isTrue, h3]
          rw [hr1]
          simp only [Expression.holds, this]
          exact negateState_ofBool neg true
        · have : isTrue t c = false := by simp [isTrue, Refuted.not_TRUE h3]
          rw [hr1]
          simp only [Expression.holds, this]
          exact negateState_ofBool neg false
  | BinaryOperation op l r ihl ihr =>
    intro s v s1 htv h
    simp only [Expression.evaluate] at h
    cases hl : l.evaluate resolve s with
    | none => simp [hl] at h
    | some q =>
      obtain ⟨lv, t⟩ := q
      cases hr : r.evaluate resolve t with
      | none => simp [hl, hr] at h
      | some q2 =>
        obtain ⟨rv, t2⟩ := q2
        simp only [hl, hr, Option.some.injEq, Prod.mk.injEq] at h
        obtain ⟨hv, rfl⟩ := h
        obtain ⟨hl1, hl2, hl3, hl4⟩ := ihl s lv t htv hl
        obtain ⟨hr1, hr2, hr3, hr4⟩ := ihr t rv t2 hl1 hr
        obtain ⟨hk1, hk2⟩ := hr2.holds l hl3
        refine ⟨hr1, hl2.chain hr2, ?_, ?_⟩
        · intro d hd
          simp only [Expression.getFacts, List.mem_append] at hd
          rcases hd with hd | hd
          · exact hk2 d hd
          · exact hr3 d hd
        · rw [← hv, hl4, hr4, ← hk1]
          exact combineStates_holds op l r (isTrue t2)

theorem stateOf_pushReason (s : FactMap) (c : Char) (note : List Char) (d : Char) :
    stateOf (s.pushReason c note) d = stateOf s d := by
  by_cases hd : d = c
  · subst hd; simp [stateOf, FactMap.pushReason]
  · simp [stateOf, FactMap.pushReason, hd]

theorem inProgress_pushReason (s : FactMap) (c : Char) (note : List Char) (d : Char) :
    inProgress (s.pushReason c note) d = inProgress s d := by
  by_cases hd : d = c
  · subst hd; simp [inProgress, FactMap.pushReason]
  · simp [inProgress, FactMap.pushReason, hd]

theorem FactState.ofBool_eq_TRUE (b : Bool) : FactState.ofBool b = FactState.TRUE ↔ b = true := by
  cases b <;> simp [FactState.ofBool]

theorem FactState.ofBool_ne_UNDETERMINED (b : Bool) :
    FactState.ofBool b ≠ FactState.UNDETERMINED := by
  cases b <;> simp [FactState.ofBool]

/-- The rule loop on a two-valued store, for a sound resolver: no premise is
UNDETERMINED, the fact is proven exactly when a rule that concerns it has an
antecedent that holds in the store reached, and the facts of these antecedents
are TRUE or refuted there. -/
theorem ruleLoop_sound (rules : List Rule) (resolve : Char → FactMap → Resolved)
    (hres : ResolverSound rules resolve) (symbol : Char) :
    ∀ (rs : List Rule) (p u : Bool) (s : FactMap) (p1 u1 : Bool) (s1 : FactMap),
      TwoValued s → ruleLoop resolve symbol rs p u s = some (p1, u1, s1) →
      TwoValued s1 ∧ Extends rules s s1 ∧ u1 = u ∧
      (∀ rule ∈ rs, concerns_symbol rule symbol = true →
        ∀ d ∈ rule.antecedent.getFacts, stateOf s1 d = FactState.TRUE ∨ Refuted rules s1 d) ∧
      (p1 = true ↔ (p = true ∨ ∃ rule ∈ rs, concerns_symbol rule symbol = true ∧
        rule.antecedent.holds (isTrue s1) = true)) := by
  intro rs
  induction rs with
  | nil =>
    intro p u s p1 u1 s1 htv h
    simp only [ruleLoop, Option.some.injEq, Prod.mk.injEq] at h
    obtain ⟨rfl, rfl, rfl⟩ := h
    exact ⟨htv, Extends.same rules _, rfl, by simp, by simp⟩
  | cons rule rest ih =>
    intro p u s p1 u1 s1 htv h
    simp only [ruleLoop] at h
    by_cases hc : concerns_symbol rule symbol = true
    · simp only [hc, if_true] at h
      cases he : rule.antecedent.evaluate resolve s with
      | none => simp [he] at h
      | some q =>
        obtain ⟨v, t⟩ := q
        simp only [he] at h
        obtain ⟨ht1, ht2, ht3, ht4⟩ :=
          Expression.evaluate_sound_of rules resolve hres rule.antecedent s v t htv he
        have hu : (if v = FactState.UNDETERMINED then true else u) = u := by
          rw [if_neg]; rw [ht4]; exact FactState.ofBool_ne_UNDETERMINED _
        rw [hu] at h
        -- the store after the optional push of the derivation note
        have hpush : ∀ t2 : FactMap,
            t2 = (if v = FactState.TRUE then t.pushReason symbol (derivedNote rule) else t) →
            TwoValued t2 ∧ Extends rules t t2 := by
          intro t2 ht2
          by_cases hv : v = FactState.TRUE
          · rw [if_pos hv] at ht2
            subst ht2
            refine ⟨fun d => ?_, Extends.of_views rules _ _ (stateOf_pushReason t symbol _)
              (inProgress_pushReason t symbol _)⟩
            rw [stateOf_pushReason]; exact ht1 d
          · rw [if_neg hv] at ht2
            subst ht2
            exact ⟨ht1, Extends.same rules _⟩
        obtain ⟨hp1, hp2⟩ := hpush _ rfl
        obtain ⟨hi1, hi2, hi3, hi4, hi5⟩ := ih _ _ _ _ _ _ hp1 h
        have hext : Extends rules t s1 := hp2.chain hi2
        obtain ⟨hk1, hk2⟩ := hext.holds rule.antecedent ht3
        refine ⟨hi1, ht2.chain hext, hi3, ?_, ?_⟩
        · intro rule1 hr1 hc1 d hd
          rcases List.mem_cons.mp hr1 with rfl | hr1
          · exact hk2 d hd
          · exact hi4 rule1 hr1 hc1 d hd
        · rw [hi5]
          have hvT : v = FactState.TRUE ↔ rule.antecedent.holds (isTrue s1) = true := by
            rw [ht4, FactState.ofBool_eq_TRUE, hk1]
          constructor
          · rintro (hp | ⟨rule1, hr1, hc1, hh1⟩)
            · by_cases hv : v = FactState.TRUE
              · exact Or.inr ⟨rule, List.mem_cons_self _ _, hc, hvT.mp hv⟩
              · rw [if_neg hv] at hp; exact Or.inl hp
            · exact Or.inr ⟨rule1, List.mem_cons_of_mem _ hr1, hc1, hh1⟩
          · rintro (hp | ⟨rule1, hr1, hc1, hh1⟩)
            · left
              by_cases hv : v = FactState.TRUE
              · rw [if_pos hv]
              · rw [if_neg hv]; exact hp
            · rcases List.mem_cons.mp hr1 with rfl | hr1
              · left; rw [if_pos (hvT.mpr hh1)]
              · exact Or.inr ⟨rule1, hr1, hc1, hh1⟩
    · simp only [hc] at h
      obtain ⟨hi1, hi2, hi3, hi4, hi5⟩ := ih _ _ _ _ _ _ htv h
      refine ⟨hi1, hi2, hi3, ?_, ?_⟩
      · intro rule1 hr1 hc1 d hd
        rcases List.mem_cons.mp hr1 with rfl | hr1
        · exact absurd hc1 hc
        · exact hi4 rule1 hr1 hc1 d hd
      · rw [hi5]
        constructor
        · rintro (hp | ⟨rule1, hr1, hc1, hh1⟩)
          · exact Or.inl hp
          · exact Or.inr ⟨rule1, List.mem_cons_of_mem _ hr1, hc1, hh1⟩
        · rintro (hp | ⟨rule1, hr1, hc1, hh1⟩)
          · exact Or.inl hp
          · rcases List.mem_cons.mp hr1 with rfl | hr1
            · exact absurd hc1 hc
            · exact Or.inr ⟨rule1, hr1, hc1, hh1⟩

theorem settle_currentState_proven (f : Fact) (u : Bool) :
    (settle f true u).currentState = FactState.TRUE := by
  simp [settle]

theorem settle_currentState_unproven (f : Fact) :
    (settle f false false).currentState = FactState.FALSE := by
  simp [settle]

theorem stateOf_set (s : FactMap) (c : Char) (f : Fact) (d : Char) :
    stateOf (s.set c f) d = if d = c then f.currentState else stateOf s d := by
  by_cases hd : d = c
  · subst hd; simp [stateOf]
  · simp [stateOf, hd]

theorem inProgress_set (s : FactMap) (c : Char) (f : Fact) (d : Char) :
    inProgress (s.set c f) d = if d = c then f.isProcessing else inProgress s d := by
  by_cases hd : d = c
  · subst hd; simp [inProgress]
  · simp [inProgress, hd]

/-- The function `isFactTrue` is sound on two-valued stores: the store stays two-valued, TRUE
and refuted facts stay so, and the answer is TRUE with the fact TRUE in the
store or FALSE with the fact refuted. -/
theorem isFactTrue_sound (rules : List Rule) :
    ∀ n : Nat, ResolverSound rules (isFactTrue rules n) := by
  intro n
  induction n with
  | zero => intro c s r s1 _ h; simp [isFactTrue] at h
  | succ n ih =>
    intro c s r s1 htv h
    have hcreate : TwoValued (s.create c) ∧ Extends rules s (s.create c) :=
      ⟨fun d => by rw [stateOf_create]; exact htv d,
        Extends.of_views rules _ _ (stateOf_create s c) (inProgress_create s c)⟩
    rcases isFactTrue_cases h with ⟨h1, h2, rfl, rfl⟩ | ⟨h1, h2, rfl, rfl⟩ |
      ⟨hst, hip, p, u, s2, hl, rfl, rfl⟩
    · refine ⟨hcreate.1, hcreate.2, Or.inl ?_⟩
      have : stateOf s c = FactState.TRUE := by
        rcases htv c with h | h
        · exact h
        · exact absurd h h1
      exact ⟨this, by rw [stateOf_create]; exact this⟩
    · refine ⟨hcreate.1, hcreate.2, Or.inr ⟨rfl, fun d => d = c, ?_, rfl⟩⟩
      intro d hd
      subst hd
      refine ⟨?_, Or.inl (by rw [inProgress_create]; exact h2)⟩
      rw [stateOf_create]
      rcases h1 with h | h <;> rw [h] <;> decide
    · -- the state of `c` is FALSE, and the store after step 2 has the same states
      have hstF : stateOf s c = FactState.FALSE := by
        rcases htv c with h | h
        · rcases hst with h1 | h1 <;> rw [h] at h1 <;> simp at h1
        · exact h
      have hst1 : ∀ d, stateOf ((s.create c).start c) d = stateOf s d := by
        intro d
        by_cases hd : d = c
        · subst hd; rw [stateOf_start_self, hstF]
        · rw [stateOf_start _ _ _ hd, stateOf_create]
      have hip1 : ∀ d, inProgress s d = true → inProgress ((s.create c).start c) d = true := by
        intro d hd
        by_cases hdc : d = c
        · subst hdc; exact inProgress_start_self _ _
        · rw [inProgress_start _ _ _ hdc, inProgress_create]; exact hd
      have htv1 : TwoValued ((s.create c).start c) := fun d => by rw [hst1]; exact htv d
      have hext1 : Extends rules s ((s.create c).start c) :=
        ⟨fun d hd => by rw [hst1]; exact hd, fun d hd =>
          ⟨_, Refuted.persist rules s _ (fun d hd => by rw [hst1]; exact hd) hip1
            (fun d hd => by rw [hst1]; exact Refuted.not_TRUE hd), hd⟩⟩
      obtain ⟨htv2, hext2, hu, hfacts, hp⟩ :=
        ruleLoop_sound rules (isFactTrue rules n) ih c rules false false _ p u s2 htv1 hl
      have hframe := ruleLoop_frame (isFactTrue rules n) c (isFactTrue_frame rules n)
        ((s.create c).start c) (inProgress_start_self _ c) (by rw [stateOf_start_self]; decide)
        rules false false _ p u s2 (Frame.id _) hl
      have hc2 : stateOf s2 c = FactState.FALSE := by
        rw [hframe.2.2 c (inProgress_start_self _ c), stateOf_start_self]
      have hip2 : ∀ d, d ≠ c → inProgress s2 d = inProgress s d := by
        intro d hd
        rw [hframe.1, inProgress_start _ _ _ hd, inProgress_create]
      have hext : Extends rules s s2 := hext1.chain hext2
      subst hu
      simp only [Bool.false_eq_true, false_or] at hp
      cases p with
      | true =>
        have hex := hp.mp rfl
        rw [settle_currentState_proven]
        have hstate : ∀ d, stateOf (s2.set c (settle (s2.get c) true false)) d =
            if d = c then FactState.TRUE else stateOf s2 d := by
          intro d; rw [stateOf_set, settle_currentState_proven]
        have hnotc : ¬ Refuted rules s c := by
          intro href
          rcases (Refuted.closed rules s c href).2 with h | h
          · rw [hip] at h; simp at h
          · obtain ⟨rule, hr, hcon, hh⟩ := hex
            obtain ⟨h3, h4⟩ := h rule hr hcon
            rw [(hext.holds rule.antecedent h3).1, h4] at hh
            simp at hh
        have htrue : ∀ d, stateOf s d = FactState.TRUE →
            stateOf (s2.set c (settle (s2.get c) true false)) d = FactState.TRUE := by
          intro d hd
          rw [hstate]
          split_ifs
          · rfl
          · exact hext.1 d hd
        refine ⟨fun d => ?_, ⟨htrue, fun d hd => ⟨_, Refuted.persist rules s _ htrue ?_ ?_, hd⟩⟩,
          Or.inl ⟨rfl, by rw [hstate, if_pos rfl]⟩⟩
        · rw [hstate]
          split_ifs
          · exact Or.inl rfl
          · exact htv2 d
        · intro d hd
          have hdc : d ≠ c := by
            intro hdc; subst hdc; rw [hip] at hd; simp at hd
          rw [inProgress_set, if_neg hdc, hip2 d hdc]; exact hd
        · intro d hd
          have hdc : d ≠ c := by
            intro hdc; subst hdc; exact hnotc hd
          rw [hstate, if_neg hdc]
          exact Refuted.not_TRUE (hext.2 d hd)
      | false =>
        have hnone : ∀ rule ∈ rules, concerns_symbol rule c = true →
            rule.antecedent.holds (isTrue s2) = false := by
          intro rule hr hcon
          by_contra hh
          have : (false = true) := hp.mpr ⟨rule, hr, hcon, by simpa using hh⟩
          simp at this
        rw [settle_currentState_unproven]
        have hstate : ∀ d, stateOf (s2.set c (settle (s2.get c) false false)) d = stateOf s2 d := by
          intro d
          rw [stateOf_set, settle_currentState_unproven]
          split_ifs with hd
          · subst hd; exact hc2.symm
          · rfl
        have hval : isTrue (s2.set c (settle (s2.get c) false false)) = isTrue s2 := by
          funext d; simp [isTrue, hstate]
        have hclosed : Closed rules (s2.set c (settle (s2.get c) false false))
            (fun d => Refuted rules s2 d ∨ d = c) := by
          intro d hd
          by_cases hdc : d = c
          · subst hdc
            refine ⟨by rw [hstate, hc2]; decide, Or.inr ?_⟩
            intro rule hr hcon
            refine ⟨fun e he => ?_, by rw [hval]; exact hnone rule hr hcon⟩
            rcases hfacts rule hr hcon e he with h | h
            · exact Or.inl (by rw [hstate]; exact h)
            · exact Or.inr (Or.inl h)
          · have hd2 : Refuted rules s2 d := by
              rcases hd with h | h
              · exact h
              · exact absurd h hdc
            refine ⟨by rw [hstate]; exact Refuted.not_TRUE hd2, ?_⟩
            rcases (Refuted.closed rules s2 d hd2).2 with h | h
            · left; rw [inProgress_set, if_neg hdc]; exact h
            · right
              intro rule hr hcon
              obtain ⟨h3, h4⟩ := h rule hr hcon
              refine ⟨fun e he => ?_, by rw [hval]; exact h4⟩
              rcases h3 e he with h | h
              · exact Or.inl (by rw [hstate]; exact h)
              · exact Or.inr (Or.inl h)
        refine ⟨fun d => by rw [hstate]; exact htv2 d,
          ⟨fun d hd => by rw [hstate]; exact hext.1 d hd,
            fun d hd => ⟨_, hclosed, Or.inl (hext.2 d hd)⟩⟩,
          Or.inr ⟨rfl, _, hclosed, Or.inr rfl⟩⟩

/-- The function `evaluate` on a two-valued store: the value is the two-valued reading of the
expression in the store reached. -/
theorem evaluate_sound (rules : List Rule) (n : Nat) (e : Expression) (s : FactMap)
    (v : FactState) (s1 : FactMap) (htv : TwoValued s) (h : evaluate rules n e s = some (v, s1)) :
    TwoValued s1 ∧ Extends rules s s1 ∧
    (∀ d ∈ e.getFacts, stateOf s1 d = FactState.TRUE ∨ Refuted rules s1 d) ∧
    v = FactState.ofBool (e.holds (isTrue s1)) :=
  Expression.evaluate_sound_of rules (isFactTrue rules n) (isFactTrue_sound rules n) e s v s1 htv h

/-! ## C2 -/

/-- C2, counterexample: with the single rule `B => A`, in the store where A is
FALSE and B is TRUE, evaluating the leaf `A` changes the entry of A: its state
becomes TRUE and its proof list receives the derivation note. -/
theorem evaluate_changes_store :
    storeAFalseBTrue 'A' = some (factIn 'A' FactState.FALSE) ∧
    (evaluate [factRule 'B' 'A'] (fuelBound [factRule 'B' 'A']) (leaf 'A') storeAFalseBTrue).map
        (fun p => p.2 'A') =
      some (some { symbol := 'A', currentState := FactState.TRUE,
                   true_reasons := [derivedNote (factRule 'B' 'A')] }) ∧
    (evaluate [factRule 'B' 'A'] (fuelBound [factRule 'B' 'A']) (leaf 'A') storeAFalseBTrue).map
        (fun p => decide (p.2 'A' = storeAFalseBTrue 'A')) = some false := by
  decide

/-- C2, amended: `evaluate` returns, and it leaves in place every in-progress
flag (a fact that is not in the store counting as not in progress) and every
entry whose state is TRUE, with its state, flag, proof list and reason.  Entries
that are not TRUE may be created or recomputed. -/
theorem evaluate_frame_effect (rules : List Rule) (k : Nat) (e : Expression) (facts : FactMap) :
    ∃ v facts1, evaluate rules (fuelBound rules + k) e facts = some (v, facts1) ∧
      (∀ c, inProgress facts1 c = inProgress facts c) ∧
      (∀ c f, facts c = some f → f.currentState = FactState.TRUE → facts1 c = some f) := by
  obtain ⟨v, facts1, h⟩ := evaluate_total rules k e facts
  have hf := evaluate_frame rules _ e facts v facts1 h
  exact ⟨v, facts1, h, hf.1, hf.2.1⟩

/-! ## C3 -/

/-- C3: in a store where every fact is TRUE or FALSE and none is in progress,
evaluating an expression twice in succession returns the same value both times. -/
theorem reevaluation_stable (rules : List Rule) (k : Nat) (e : Expression) (facts : FactMap)
    (htv : ∀ c f, facts c = some f →
      f.currentState = FactState.TRUE ∨ f.currentState = FactState.FALSE)
    (_hidle : ∀ c f, facts c = some f → f.isProcessing = false) :
    ∃ v facts1 facts2,
      evaluate rules (fuelBound rules + k) e facts = some (v, facts1) ∧
      evaluate rules (fuelBound rules + k) e facts1 = some (v, facts2) := by
  have htv0 : TwoValued facts := by
    intro c
    cases hc : facts c with
    | none => right; simp [stateOf, FactMap.get, hc]
    | some f => rw [stateOf_of_some facts c f hc]; exact htv c f hc
  obtain ⟨v, facts1, h1⟩ := evaluate_total rules k e facts
  obtain ⟨v2, facts2, h2⟩ := evaluate_total rules k e facts1
  obtain ⟨htv1, _, hf1, hv1⟩ := evaluate_sound rules _ e facts v facts1 htv0 h1
  obtain ⟨_, hext2, _, hv2⟩ := evaluate_sound rules _ e facts1 v2 facts2 htv1 h2
  have : v2 = v := by rw [hv2, hv1, (hext2.holds e hf1).1]
  subst this
  exact ⟨v2, facts1, facts2, h1, h2⟩

/-- Witness for C3: the rules `!B => A` and `A => B`, the expression `A ^ B`, and
the empty store. -/
theorem reevaluation_stable_witness :
    ∃ v facts1 facts2,
      evaluate rulesNotBA (fuelBound rulesNotBA + 0)
        (Expression.BinaryOperation Operator.XOR (leaf 'A') (leaf 'B')) FactMap.empty
          = some (v, facts1) ∧
      evaluate rulesNotBA (fuelBound rulesNotBA + 0)
        (Expression.BinaryOperation Operator.XOR (leaf 'A') (leaf 'B')) facts1
          = some (v, facts2) :=
  reevaluation_stable rulesNotBA 0 _ FactMap.empty
    (fun c f h => by simp [FactMap.empty] at h) (fun c f h => by simp [FactMap.empty] at h)

/-! ## C4 -/

/-- C4, the code at the failing input: for every character `c`, and so for every
fact letter, `parseExpression` rejects the text `!!c` at position 1, where
`parse_NOT` has consumed the first `!` and `parse_Factor` meets the second. -/
theorem parseExpression_double_negation_rejected (c : Char) :
    parseExpression ['!', '!', c] = Parsed.error ⟨1, ['!', '!', c], msgExpectedFact⟩ := by
  rfl

/-! ## C5 -/

/-- Every fact of the store is FALSE or UNDETERMINED. -/
theorem stateOf_start_cases (s : FactMap) (c d : Char)
    (h : stateOf s d = FactState.FALSE ∨ stateOf s d = FactState.UNDETERMINED) :
    stateOf ((s.create c).start c) d = FactState.FALSE ∨
      stateOf ((s.create c).start c) d = FactState.UNDETERMINED := by
  by_cases hd : d = c
  · subst hd; exact Or.inl (stateOf_start_self _ _)
  · rw [stateOf_start _ _ _ hd, stateOf_create]; exact h

/-- With a resolver that answers FALSE, an expression without negated leaf evaluates FALSE. -/
theorem Expression.evaluate_positive (resolve : Char → FactMap → Resolved) (I : FactMap → Prop)
    (hres : ∀ c t r t1, I t → resolve c t = some (r, t1) → r = FactState.FALSE ∧ I t1) :
    ∀ (e : Expression) (s : FactMap) (v : FactState) (s1 : FactMap),
      e.isPositive = true → I s → e.evaluate resolve s = some (v, s1) →
      v = FactState.FALSE ∧ I s1 := by
  intro e
  induction e with
  | FactExpression c neg =>
    intro s v s1 hpos hI h
    simp only [Expression.isPositive, Bool.not_eq_true'] at hpos
    subst hpos
    simp only [Expression.evaluate] at h
    cases hr : resolve c s with
    | none => simp [hr] at h
    | some q =>
      obtain ⟨r, t⟩ := q
      simp only [hr, Option.some.injEq, Prod.mk.injEq] at h
      obtain ⟨hv, rfl⟩ := h
      obtain ⟨h1, h2⟩ := hres c s r t hI hr
      subst h1
      exact ⟨by rw [← hv]; rfl, h2⟩
  | BinaryOperation op l r ihl ihr =>
    intro s v s1 hpos hI h
    simp only [Expression.isPositive, Bool.and_eq_true] at hpos
    simp only [Expression.evaluate] at h
    cases hl : l.evaluate resolve s with
    | none => simp [hl] at h
    | some q =>
      obtain ⟨lv, t⟩ := q
      cases hr : r.evaluate resolve t with
      | none => simp [hl, hr] at h
      | some q2 =>
        obtain ⟨rv, t2⟩ := q2
        simp only [hl, hr, Option.some.injEq, Prod.mk.injEq] at h
        obtain ⟨hv, rfl⟩ := h
        obtain ⟨hl1, hl2⟩ := ihl s lv t hpos.1 hI hl
        obtain ⟨hr1, hr2⟩ := ihr t rv t2 hpos.2 hl2 hr
        subst hl1 hr1
        refine ⟨?_, hr2⟩
        rw [← hv]
        cases op <;> decide

/-- With a resolver that answers FALSE and antecedents without negated leaf, the
rule loop proves nothing. -/
theorem ruleLoop_positive (resolve : Char → FactMap → Resolved) (symbol : Char)
    (I : FactMap → Prop)
    (hres : ∀ c t r t1, I t → resolve c t = some (r, t1) → r = FactState.FALSE ∧ I t1) :
    ∀ (rs : List Rule) (p u : Bool) (s : FactMap) (p1 u1 : Bool) (s1 : FactMap),
      (∀ rule ∈ rs, rule.antecedent.isPositive = true) → I s →
      ruleLoop resolve symbol rs p u s = some (p1, u1, s1) → p1 = p ∧ u1 = u ∧ I s1 := by
  intro rs
  induction rs with
  | nil =>
    intro p u s p1 u1 s1 _ hI h
    simp only [ruleLoop, Option.some.injEq, Prod.mk.injEq] at h
    obtain ⟨rfl, rfl, rfl⟩ := h
    exact ⟨rfl, rfl, hI⟩
  | cons rule rest ih =>
    intro p u s p1 u1 s1 hpos hI h
    have hpos' : ∀ rule ∈ rest, rule.antecedent.isPositive = true :=
      fun r hr => hpos r (List.mem_cons_of_mem _ hr)
    simp only [ruleLoop] at h
    by_cases hc : concerns_symbol rule symbol = true
    · simp only [hc, if_true] at h
      cases he : rule.antecedent.evaluate resolve s with
      | none => simp [he] at h
      | some q =>
        obtain ⟨v, t⟩ := q
        simp only [he] at h
        obtain ⟨hv, hIt⟩ := Expression.evaluate_positive resolve I hres rule.antecedent s v t
          (hpos rule (List.mem_cons_self _ _)) hI he
        subst hv
        simp only [reduceCtorEq, if_false] at h
        exact ih _ _ _ _ _ _ hpos' hIt h
    · simp only [hc] at h
      exact ih _ _ _ _ _ _ hpos' hI h

/-- With antecedents without negated leaf and no fact TRUE or PROCESSING, every
call of `isFactTrue` that returns answers FALSE and leaves no fact TRUE. -/
theorem isFactTrue_positive (rules : List Rule)
    (hpos : ∀ rule ∈ rules, rule.antecedent.isPositive = true) :
    ∀ (n : Nat) (c : Char) (s : FactMap) (r : FactState) (s1 : FactMap),
      (∀ d, stateOf s d = FactState.FALSE ∨ stateOf s d = FactState.UNDETERMINED) →
      isFactTrue rules n c s = some (r, s1) →
      r = FactState.FALSE ∧
      (∀ d, stateOf s1 d = FactState.FALSE ∨ stateOf s1 d = FactState.UNDETERMINED) := by
  intro n
  induction n with
  | zero => intro c s r s1 _ h; simp [isFactTrue] at h
  | succ n ih =>
    intro c s r s1 hI h
    rcases isFactTrue_cases h with ⟨h1, h2, rfl, rfl⟩ | ⟨h1, h2, rfl, rfl⟩ |
      ⟨hst, hip, p, u, s2, hl, rfl, rfl⟩
    · rcases hI c with h | h
      · exact absurd h h1
      · exact absurd h h2
    · exact ⟨rfl, fun d => by rw [stateOf_create]; exact hI d⟩
    · obtain ⟨hp, hu, hI2⟩ := ruleLoop_positive (isFactTrue rules n) c
        (fun t => ∀ d, stateOf t d = FactState.FALSE ∨ stateOf t d = FactState.UNDETERMINED)
        ih rules false false _ p u s2 hpos (fun d => stateOf_start_cases s c d (hI d)) hl
      subst hp hu
      rw [settle_currentState_unproven]
      refine ⟨rfl, fun d => ?_⟩
      rw [stateOf_set, settle_currentState_unproven]
      split_ifs
      · exact Or.inl rfl
      · exact hI2 d

/-- C5: with rules whose antecedents contain no negated leaf, from a store with
no TRUE fact (every state FALSE or UNDETERMINED) and no fact in progress,
`isFactTrue` returns, and it returns FALSE, for every fact. -/
theorem unsupported_facts_resolve_FALSE (rules : List Rule) (k : Nat) (c : Char)
    (facts : FactMap)
    (hpos : ∀ rule ∈ rules, rule.antecedent.isPositive = true)
    (hnotrue : ∀ d f, facts d = some f →
      f.currentState = FactState.FALSE ∨ f.currentState = FactState.UNDETERMINED)
    (_hidle : ∀ d f, facts d = some f → f.isProcessing = false) :
    ∃ facts1, isFactTrue rules (fuelBound rules + k) c facts = some (FactState.FALSE, facts1) := by
  obtain ⟨r, facts1, h⟩ := isFactTrue_total rules k c facts
  have hI : ∀ d, stateOf facts d = FactState.FALSE ∨ stateOf facts d = FactState.UNDETERMINED := by
    intro d
    cases hd : facts d with
    | none => left; simp [stateOf, FactMap.get, hd]
    | some f => rw [stateOf_of_some facts d f hd]; exact hnotrue d f hd
  obtain ⟨hr, _⟩ := isFactTrue_positive rules hpos _ c facts r facts1 hI h
  subst hr
  exact ⟨facts1, h⟩

/-- Witness for C5: the cycle `A => B`, `B => A` with no initial fact; resolving A
returns FALSE. -/
theorem unsupported_facts_resolve_FALSE_witness :
    ∃ facts1, isFactTrue [factRule 'A' 'B', factRule 'B' 'A']
      (fuelBound [factRule 'A' 'B', factRule 'B' 'A'] + 0) 'A' FactMap.empty
        = some (FactState.FALSE, facts1) :=
  unsupported_facts_resolve_FALSE [factRule 'A' 'B', factRule 'B' 'A'] 0 'A' FactMap.empty
    (by decide) (fun d f h => by simp [FactMap.empty] at h)
    (fun d f h => by simp [FactMap.empty] at h)

/-! ## C6 -/

/-- C6, counterexample: in the knowledge base loaded from `X=>A|B`, `=X`, `?AB`,
whose only rule is `X => A|B` and whose only initial fact is X, `runQueries`
reports A as TRUE, not FALSE. -/
theorem elimination_scenario_A_is_TRUE :
    eliminationKB.rules = [ruleXAorB] ∧
    (runQueries eliminationKB (fuelBound eliminationKB.rules)).map (fun p => p.1) =
      some [('A', FactState.TRUE), ('B', FactState.TRUE)] := by
  decide

/-- C6, amended: in that knowledge base the reset and the forward-elimination
pass of `runQueries` already leave A and B TRUE, each with the single derivation
note of backward chaining through the rule `X => A|B`, whose consequent concerns
every fact it lists; the elimination step adds no note; and the queries report A
and B as TRUE. -/
theorem elimination_scenario_backward_chaining :
    ((propagate_Undetermined eliminationKB.rules (fuelBound eliminationKB.rules)
        (resetFacts eliminationKB).facts).map
      (fun facts => (facts 'A', facts 'B'))) =
      some (some { symbol := 'A', currentState := FactState.TRUE,
                   true_reasons := [derivedNote ruleXAorB] },
            some { symbol := 'B', currentState := FactState.TRUE,
                   true_reasons := [derivedNote ruleXAorB] }) ∧
    (runQueries eliminationKB (fuelBound eliminationKB.rules)).map
        (fun p => (p.1, (p.2.facts 'B').map (fun f => f.true_reasons))) =
      some ([('A', FactState.TRUE), ('B', FactState.TRUE)], some [derivedNote ruleXAorB]) := by
  decide

/-! ## Locating the separators of a rule -/

theorem findSub_cons_none {pat : List Char} {c : Char} {s : List Char}
    (h : findSub pat (c :: s) = none) : startsWith pat (c :: s) = false ∧ findSub pat s = none := by
  simp only [findSub] at h
  by_cases hs : startsWith pat (c :: s) = true
  · simp [hs] at h
  · simp only [hs] at h
    exact ⟨by simpa using hs, by simpa using h⟩

theorem findSub_cons_of_not_startsWith {pat : List Char} {c : Char} {s : List Char}
    (h : startsWith pat (c :: s) = false) :
    findSub pat (c :: s) = (findSub pat s).map (fun i => i + 1) := by
  simp [findSub, h]

/-- The biconditional separator appended to a text that has none is found at its end. -/
theorem findSub_iff_append (l r : List Char) (h : findSub iffText l = none) :
    findSub iffText (l ++ iffText ++ r) = some l.length := by
  induction l with
  | nil => simp [findSub, startsWith, iffText]
  | cons c l ih =>
    obtain ⟨h1, h2⟩ := findSub_cons_none h
    have hs : startsWith iffText (c :: l ++ iffText ++ r) = false := by
      rcases l with _ | ⟨d, _ | ⟨e, l⟩⟩
      · simp [startsWith, iffText]
      · simp [startsWith, iffText]
      · simpa [startsWith, iffText] using h1
    have hcons : c :: l ++ iffText ++ r = c :: (l ++ iffText ++ r) := by simp
    rw [hcons] at hs ⊢
    rw [findSub_cons_of_not_startsWith hs, ih h2]
    simp

/-- The implication separator appended to a text that has none is found at its end. -/
theorem findSub_implies_append (l r : List Char) (h : findSub impliesText l = none) :
    findSub impliesText (l ++ impliesText ++ r) = some l.length := by
  induction l with
  | nil => simp [findSub, startsWith, impliesText]
  | cons c l ih =>
    obtain ⟨h1, h2⟩ := findSub_cons_none h
    have hs : startsWith impliesText (c :: l ++ impliesText ++ r) = false := by
      rcases l with _ | ⟨d, l⟩
      · simp [startsWith, impliesText]
      · simpa [startsWith, impliesText] using h1
    have hcons : c :: l ++ impliesText ++ r = c :: (l ++ impliesText ++ r) := by simp
    rw [hcons] at hs ⊢
    rw [findSub_cons_of_not_startsWith hs, ih h2]
    simp

theorem findSub_iff_tail (r : List Char) (h : findSub iffText r = none) :
    findSub iffText (impliesText ++ r) = none := by
  have h1 : startsWith iffText ('=' :: '>' :: r) = false := by simp [startsWith, iffText]
  have h2 : startsWith iffText ('>' :: r) = false := by simp [startsWith, iffText]
  show findSub iffText ('=' :: '>' :: r) = none
  rw [findSub_cons_of_not_startsWith h1, findSub_cons_of_not_startsWith h2, h]
  rfl

/-- No biconditional separator arises when the implication separator is appended
to a text that has none and does not end with `<`. -/
theorem findSub_iff_implies_append (l r : List Char) (hl : findSub iffText l = none)
    (hr : findSub iffText r = none) (hlast : l.getLast? ≠ some '<') :
    findSub iffText (l ++ impliesText ++ r) = none := by
  induction l with
  | nil => simpa using findSub_iff_tail r hr
  | cons c l ih =>
    obtain ⟨h1, h2⟩ := findSub_cons_none hl
    have hs : startsWith iffText (c :: l ++ impliesText ++ r) = false := by
      rcases l with _ | ⟨d, _ | ⟨e, l⟩⟩
      · have : c ≠ '<' := by simpa using hlast
        simp [startsWith, iffText, impliesText, Ne.symm this]
      · simp [startsWith, iffText, impliesText]
      · simpa [startsWith, iffText] using h1
    have hlast' : l.getLast? ≠ some '<' := by
      rcases l with _ | ⟨d, l⟩
      · simp
      · simpa [List.getLast?_cons_cons] using hlast
    have hcons : c :: l ++ impliesText ++ r = c :: (l ++ impliesText ++ r) := by simp
    rw [hcons] at hs ⊢
    rw [findSub_cons_of_not_startsWith hs, ih h2 hlast']
    rfl

theorem iffText_eq : "<=>".toList = iffText := rfl

theorem impliesText_eq : "=>".toList = impliesText := rfl

/-- The function `parseRule` on `l <=> r`, for `l` without biconditional separator. -/
theorem parseRule_iff (kb : KnowledgeBase) (l r : List Char) (hl : findSub iffText l = none) :
    parseRule kb (l ++ iffText ++ r) =
      (addImpliesRule kb l r).andThen (fun kb1 => addImpliesRule kb1 r l) := by
  unfold parseRule
  rw [iffText_eq, findSub_iff_append l r hl]
  simp [iffText]

/-- The function `parseRule` on `l => r`, for `l` and `r` without separator, `l` not ending with `<`. -/
theorem parseRule_implies (kb : KnowledgeBase) (l r : List Char)
    (hl : findSub impliesText l = none) (hl2 : findSub iffText l = none)
    (hr2 : findSub iffText r = none) (hlast : l.getLast? ≠ some '<') :
    parseRule kb (l ++ impliesText ++ r) = addImpliesRule kb l r := by
  unfold parseRule
  rw [iffText_eq, impliesText_eq, findSub_iff_implies_append l r hl2 hr2 hlast,
    findSub_implies_append l r hl]
  simp [impliesText]

/-! ## C8 -/

/-- C8, counterexample: the texts `A<` and `B` contain neither separator, yet
`parseRule` on `A<` + `<=>` + `B` throws at once and appends no rule, while
`parseRule` on `A<` + `=>` + `B`, which reads `A<=>B`, appends `A => B` and
`B => A`. -/
theorem biconditional_expansion_fails_after_less_than :
    findSub "=>".toList "A<".toList = none ∧ findSub "<=>".toList "A<".toList = none ∧
    findSub "=>".toList "B".toList = none ∧ findSub "<=>".toList "B".toList = none ∧
    (parseRule {} ("A<".toList ++ "<=>".toList ++ "B".toList)).rules = some [] ∧
    ((parseRule {} ("A<".toList ++ "=>".toList ++ "B".toList)).andThen
        (fun kb => parseRule kb ("B".toList ++ "=>".toList ++ "A<".toList))).rules =
      some [factRule 'A' 'B', factRule 'B' 'A'] := by
  decide

/-- C8, amended: for all texts `l` and `r` that contain neither `=>` nor `<=>`
and do not end with `<`, `parseRule` on `l <=> r` does exactly what `parseRule`
on `l => r` followed by `parseRule` on `r => l` does: the same rules are
appended in the same order, and the same exception, if any, ends the load. -/
theorem biconditional_expansion (kb : KnowledgeBase) (l r : List Char)
    (hl1 : findSub "=>".toList l = none) (hl2 : findSub "<=>".toList l = none)
    (hr1 : findSub "=>".toList r = none) (hr2 : findSub "<=>".toList r = none)
    (hl3 : l.getLast? ≠ some '<') (hr3 : r.getLast? ≠ some '<') :
    parseRule kb (l ++ "<=>".toList ++ r) =
      (parseRule kb (l ++ "=>".toList ++ r)).andThen
        (fun kb1 => parseRule kb1 (r ++ "=>".toList ++ l)) := by
  rw [iffText_eq] at hl2 hr2 ⊢
  rw [impliesText_eq] at hl1 hr1 ⊢
  rw [parseRule_iff kb l r hl2, parseRule_implies kb l r hl1 hl2 hr2 hl3]
  congr 1
  funext kb1
  rw [parseRule_implies kb1 r l hr1 hr2 hl2 hr3]

/-- Witness for C8: `A <=> B` against `A => B` and `B => A`. -/
theorem biconditional_expansion_witness :
    parseRule {} ("A".toList ++ "<=>".toList ++ "B".toList) =
      (parseRule {} ("A".toList ++ "=>".toList ++ "B".toList)).andThen
        (fun kb1 => parseRule kb1 ("B".toList ++ "=>".toList ++ "A".toList)) ∧
    (parseRule {} ("A".toList ++ "<=>".toList ++ "B".toList)).rules =
      some [factRule 'A' 'B', factRule 'B' 'A'] :=
  ⟨biconditional_expansion {} "A".toList "B".toList (by decide) (by decide) (by decide)
    (by decide) (by decide) (by decide), by decide⟩

/-! ## C7 -/

theorem getlineLoop_intersperse :
    ∀ (fs : List Char), fs ≠ [] → (∀ f ∈ fs, f ≠ '+') →
      getlineLoop '+' (fs.intersperse '+') [] = fs.map (fun f => [f]) := by
  intro fs
  induction fs with
  | nil => intro h; exact absurd rfl h
  | cons f rest ih =>
    intro _ hne
    have hf : f ≠ '+' := hne f (List.mem_cons_self _ _)
    rcases rest with _ | ⟨g, rest⟩
    · simp [List.intersperse, getlineLoop, hf]
    · have ih' := ih (by simp) (fun x hx => hne x (List.mem_cons_of_mem _ hx))
      simp only [List.intersperse, List.map_cons] at ih' ⊢
      simp only [getlineLoop, hf, if_false, if_true, List.reverse_cons, List.reverse_nil,
        List.nil_append]
      rw [ih']

theorem addImpliesRule_single (kb : KnowledgeBase) (a : List Char) (f : Char) (hf : f ≠ '+') :
    addImpliesRule kb a [f] = emplaceRule kb a [f] := by
  unfold addImpliesRule
  by_cases hsp : f = ' '
  · subst hsp; simp
  · simp [hsp, Ne.symm hf]

theorem segmentLoop_singletons (a : List Char) :
    ∀ (fs : List Char), (∀ f ∈ fs, f ≠ '+') → ∀ kb,
      segmentLoop a (fs.map (fun f => [f])) kb = registerEach a (fs.map (fun f => [f])) kb := by
  intro fs
  induction fs with
  | nil => intro _ kb; rfl
  | cons f rest ih =>
    intro hne kb
    have hf : f ≠ '+' := hne f (List.mem_cons_self _ _)
    have ih' := ih (fun x hx => hne x (List.mem_cons_of_mem _ hx))
    simp only [List.map_cons, segmentLoop, registerEach]
    rw [if_neg (by simp), addImpliesRule_single kb a f hf]
    congr 1
    funext kb1
    exact ih' kb1

theorem mem_intersperse_of_two (f g : Char) (rest : List Char) :
    '+' ∈ (f :: g :: rest).intersperse '+' := by
  simp [List.intersperse]

theorem mem_of_mem_intersperse (sep : Char) :
    ∀ (fs : List Char) (x : Char), x ∈ fs.intersperse sep → x = sep ∨ x ∈ fs := by
  intro fs
  induction fs with
  | nil => intro x hx; simp [List.intersperse] at hx
  | cons f rest ih =>
    intro x hx
    rcases rest with _ | ⟨g, rest⟩
    · simp [List.intersperse] at hx; simp [hx]
    · simp only [List.intersperse, List.mem_cons] at hx
      rcases hx with h | h | h
      · exact Or.inr (by simp [h])
      · exact Or.inl h
      · rcases ih x (by simpa [List.intersperse] using h) with h1 | h1
        · exact Or.inl h1
        · exact Or.inr (List.mem_cons_of_mem _ h1)

/-- The function `addImpliesRule` on the consequent `f1+...+fn`, for letters and `n ≥ 2`. -/
theorem addImpliesRule_conjunction (kb : KnowledgeBase) (a : List Char) (fs : List Char)
    (hn : 2 ≤ fs.length) (hletters : ∀ f ∈ fs, 'A' ≤ f ∧ f ≤ 'Z') :
    addImpliesRule kb a (fs.intersperse '+') = registerEach a (fs.map (fun f => [f])) kb := by
  have hplus : ∀ f ∈ fs, f ≠ '+' := by
    intro f hf hp
    subst hp
    exact absurd (hletters _ hf).1 (by decide)
  have hspace : ∀ f ∈ fs, f ≠ ' ' := by
    intro f hf hp
    subst hp
    exact absurd (hletters _ hf).1 (by decide)
  have hfilter : (fs.intersperse '+').filter (fun c => decide (c ≠ ' ')) = fs.intersperse '+' := by
    rw [List.filter_eq_self]
    intro x hx
    rcases mem_of_mem_intersperse '+' fs x hx with h | h
    · subst h; decide
    · simpa using hspace x h
  have hmem : '+' ∈ fs.intersperse '+' := by
    rcases fs with _ | ⟨f, _ | ⟨g, rest⟩⟩
    · simp at hn
    · simp at hn
    · exact mem_intersperse_of_two f g rest
  have hne : fs ≠ [] := by
    intro h; subst h; simp at hn
  unfold addImpliesRule
  simp only [hfilter]
  rw [if_pos ⟨hmem, List.ne_nil_of_mem hmem⟩, getlineLoop_intersperse fs hne hplus]
  exact segmentLoop_singletons a fs hplus kb

theorem startsWith_iff_head (c : Char) (s : List Char) (h : startsWith iffText (c :: s) = true) :
    c = '<' := by
  simp [startsWith, iffText] at h
  exact h.1.symm

theorem findSub_iff_none_of_not_mem :
    ∀ (s : List Char), '<' ∉ s → findSub iffText s = none := by
  intro s
  induction s with
  | nil => intro _; simp [findSub, startsWith, iffText]
  | cons c s ih =>
    intro h
    have hc : c ≠ '<' := fun hc => h (by simp [hc])
    have hs : startsWith iffText (c :: s) = false := by
      by_contra hcon
      exact hc (startsWith_iff_head c s (by simpa using hcon))
    rw [findSub_cons_of_not_startsWith hs, ih (fun hm => h (List.mem_cons_of_mem _ hm))]
    rfl

theorem parseRules_map_implies (a : List Char) (ha1 : findSub impliesText a = none)
    (ha2 : findSub iffText a = none) (ha3 : a.getLast? ≠ some '<') :
    ∀ (fs : List Char), (∀ f ∈ fs, f ≠ '<') → ∀ kb,
      parseRules (fs.map (fun f => a ++ impliesText ++ [f])) kb =
        registerEach a (fs.map (fun f => [f])) kb := by
  intro fs
  induction fs with
  | nil => intro _ kb; rfl
  | cons f rest ih =>
    intro hne kb
    have hf : f ≠ '<' := hne f (List.mem_cons_self _ _)
    simp only [List.map_cons, parseRules, registerEach]
    rw [parseRule_implies kb a [f] ha1 ha2
      (findSub_iff_none_of_not_mem [f] (by simpa using Ne.symm hf)) ha3]
    congr 1
    funext kb1
    exact ih (fun x hx => hne x (List.mem_cons_of_mem _ hx)) kb1

/-- C7: for every antecedent text `a` and letters `f1..fn`, `n ≥ 2`,
`addImpliesRule` on `a` and `f1+...+fn` does exactly what registering the rules
`a => f1`, ..., `a => fn` in that order does, so the rule stores are equal; and
when `a` contains no separator and does not end with `<`, `parseRule` on the
line `a=>f1+...+fn` does exactly what `parseRule` on the lines `a=>f1`, ...,
`a=>fn` does. -/
theorem conjunctive_consequent_split (kb : KnowledgeBase) (a : List Char) (fs : List Char)
    (hn : 2 ≤ fs.length) (hletters : ∀ f ∈ fs, 'A' ≤ f ∧ f ≤ 'Z') :
    addImpliesRule kb a (fs.intersperse '+') = registerEach a (fs.map (fun f => [f])) kb ∧
    (addImpliesRule kb a (fs.intersperse '+')).rules =
      (registerEach a (fs.map (fun f => [f])) kb).rules ∧
    (findSub "=>".toList a = none → findSub "<=>".toList a = none → a.getLast? ≠ some '<' →
      parseRule kb (a ++ "=>".toList ++ fs.intersperse '+') =
        parseRules (fs.map (fun f => a ++ "=>".toList ++ [f])) kb) := by
  have h1 := addImpliesRule_conjunction kb a fs hn hletters
  refine ⟨h1, by rw [h1], ?_⟩
  intro ha1 ha2 ha3
  rw [impliesText_eq] at ha1 ⊢
  rw [iffText_eq] at ha2
  have hlt : ∀ f ∈ fs, f ≠ '<' := by
    intro f hf hp
    subst hp
    exact absurd (hletters _ hf).1 (by decide)
  have hnomem : '<' ∉ fs.intersperse '+' := by
    intro hm
    rcases mem_of_mem_intersperse '+' fs '<' hm with h | h
    · exact absurd h (by decide)
    · exact hlt _ h rfl
  rw [parseRule_implies kb a _ ha1 ha2 (findSub_iff_none_of_not_mem _ hnomem) ha3, h1,
    parseRules_map_implies a ha1 ha2 ha3 fs hlt kb]

/-- Witness for C7: `A => B+C` against `A => B` and `A => C`. -/
theorem conjunctive_consequent_split_witness :
    (addImpliesRule {} "A".toList "B+C".toList).rules = some [factRule 'A' 'B', factRule 'A' 'C'] ∧
    (registerEach "A".toList ["B".toList, "C".toList] {}).rules =
      some [factRule 'A' 'B', factRule 'A' 'C'] ∧
    (addImpliesRule {} "A".toList "B+C".toList).rules =
      (registerEach "A".toList ["B".toList, "C".toList] {}).rules :=
  ⟨by decide, by decide,
    (conjunctive_consequent_split {} "A".toList ['B', 'C'] (by decide) (by decide)).2.1⟩

/-! ## The parser on a text followed by a suffix -/

theorem skipWhitespace_append (s : List Char) (h : Char) (suffix : List Char)
    (hws : ¬ (h = ' ' ∨ h = TAB)) :
    skipWhitespace (s ++ h :: suffix) = skipWhitespace s ++ h :: suffix := by
  induction s with
  | nil => simp [skipWhitespace, hws]
  | cons c s ih =>
    by_cases hc : c = ' ' ∨ c = TAB
    · simp only [List.cons_append, skipWhitespace, hc, if_true]; exact ih
    · simp only [List.cons_append, skipWhitespace, hc, if_false]
      rfl

theorem NUL_ne_open : ¬ (NUL = '(') := by decide

theorem NUL_not_letter : ¬ ('A' ≤ NUL ∧ NUL ≤ 'Z') := by decide

theorem NUL_ne_close : ¬ (NUL = ')') := by decide

theorem NUL_ne_bang : ¬ (NUL = '!') := by decide

theorem parse_Factor_stable (h : Char) (suffix : List Char) (hws : ¬ (h = ' ' ∨ h = TAB))
    (pxor pxor1 : List Char → ParseResult) (hst : Stable (h :: suffix) pxor pxor1) :
    Stable (h :: suffix) (parse_Factor pxor) (parse_Factor pxor1) := by
  intro s e rest hok
  unfold parse_Factor at hok ⊢
  rw [skipWhitespace_append s h suffix hws]
  cases hs1 : skipWhitespace s with
  | nil =>
    simp [hs1, peek, NUL_ne_open, NUL_not_letter] at hok
  | cons c t =>
    simp only [hs1, peek, consume] at hok
    simp only [List.cons_append, peek, consume]
    by_cases hc : c = '('
    · simp only [hc, if_true] at hok ⊢
      cases hp : pxor t with
      | outOfFuel => simp [hp] at hok
      | syntaxError r m => simp [hp] at hok
      | ok expr s2 =>
        simp only [hp] at hok
        rw [hst t expr s2 hp]
        simp only
        rw [skipWhitespace_append s2 h suffix hws]
        cases hs3 : skipWhitespace s2 with
        | nil => simp [hs3, peek, NUL_ne_close] at hok
        | cons c3 t3 =>
          simp only [hs3, peek, consume] at hok
          simp only [List.cons_append, peek, consume]
          by_cases hc3 : c3 = ')'
          · simp only [hc3, ne_eq, not_true_eq_false, if_false, ParseResult.ok.injEq] at hok ⊢
            exact ⟨hok.1, by rw [hok.2]⟩
          · simp [hc3] at hok
    · simp only [hc, if_false] at hok ⊢
      by_cases hl : 'A' ≤ c ∧ c ≤ 'Z'
      · simp only [hl, and_self, if_true, ParseResult.ok.injEq] at hok ⊢
        exact ⟨hok.1, by rw [hok.2]⟩
      · simp [hl] at hok

theorem parse_NOT_stable (h : Char) (suffix : List Char) (hws : ¬ (h = ' ' ∨ h = TAB))
    (pxor pxor1 : List Char → ParseResult) (hst : Stable (h :: suffix) pxor pxor1) :
    Stable (h :: suffix) (parse_NOT pxor) (parse_NOT pxor1) := by
  intro s e rest hok
  have hF := parse_Factor_stable h suffix hws pxor pxor1 hst
  unfold parse_NOT at hok ⊢
  rw [skipWhitespace_append s h suffix hws]
  cases hs1 : skipWhitespace s with
  | nil =>
    simp only [hs1, peek, NUL_ne_bang, if_false] at hok
    simp [parse_Factor, skipWhitespace, peek, NUL_ne_open, NUL_not_letter] at hok
  | cons c t =>
    simp only [hs1, peek, consume] at hok
    simp only [List.cons_append, peek, consume]
    by_cases hc : c = '!'
    · simp only [hc, if_true] at hok ⊢
      cases hp : parse_Factor pxor t with
      | outOfFuel => simp [hp] at hok
      | syntaxError r m => simp [hp] at hok
      | ok expr s2 =>
        rw [hF t expr s2 hp]
        cases expr with
        | FactExpression f neg =>
          simp only [hp, ParseResult.ok.injEq] at hok ⊢
          exact ⟨hok.1, by rw [hok.2]⟩
        | BinaryOperation op l r => simp [hp] at hok
    · simp only [hc, if_false] at hok ⊢
      have := hF (c :: t) e rest hok
      simpa using this

theorem binaryLoop_stable (op : Operator) (tok : Char) (h : Char) (suffix : List Char)
    (hws : ¬ (h = ' ' ∨ h = TAB)) (htok : h ≠ tok) (hnul : NUL ≠ tok)
    (sub sub1 : List Char → ParseResult) (hst : Stable (h :: suffix) sub sub1) :
    ∀ (n : Nat) (left : Expression) (s : List Char) (e : Expression) (rest : List Char),
      binaryLoop op tok sub n left s = ParseResult.ok e rest →
      ∀ m, n ≤ m →
        binaryLoop op tok sub1 m left (s ++ h :: suffix) = ParseResult.ok e (rest ++ h :: suffix) := by
  intro n
  induction n with
  | zero => intro left s e rest hok; simp [binaryLoop] at hok
  | succ n ih =>
    intro left s e rest hok m hm
    obtain ⟨m1, rfl⟩ : ∃ m1, m = m1 + 1 := ⟨m - 1, by omega⟩
    simp only [binaryLoop] at hok ⊢
    rw [skipWhitespace_append s h suffix hws]
    cases hs1 : skipWhitespace s with
    | nil =>
      simp only [hs1, peek, hnul, if_false, ParseResult.ok.injEq] at hok
      simp only [List.nil_append, peek, htok, if_false, ParseResult.ok.injEq]
      exact ⟨hok.1, by rw [← hok.2]; rfl⟩
    | cons c t =>
      simp only [hs1, peek, consume] at hok
      simp only [List.cons_append, peek, consume]
      by_cases hc : c = tok
      · simp only [hc, if_true] at hok ⊢
        cases hp : sub t with
        | outOfFuel => simp [hp] at hok
        | syntaxError r m => simp [hp] at hok
        | ok right s2 =>
          simp only [hp] at hok
          rw [hst t right s2 hp]
          exact ih _ s2 e rest hok m1 (by omega)
      · simp only [hc, if_false, ParseResult.ok.injEq] at hok ⊢
        exact ⟨hok.1, by rw [← hok.2]; rfl⟩

theorem binaryLevel_stable (op : Operator) (tok : Char) (h : Char) (suffix : List Char)
    (hws : ¬ (h = ' ' ∨ h = TAB)) (htok : h ≠ tok) (hnul : NUL ≠ tok)
    (sub sub1 : List Char → ParseResult) (hst : Stable (h :: suffix) sub sub1)
    (n m : Nat) (hnm : n ≤ m) :
    Stable (h :: suffix) (binaryLevel op tok sub n) (binaryLevel op tok sub1 m) := by
  intro s e rest hok
  unfold binaryLevel at hok ⊢
  cases hp : sub s with
  | outOfFuel => simp [hp] at hok
  | syntaxError r m => simp [hp] at hok
  | ok left s1 =>
    simp only [hp] at hok
    rw [hst s left s1 hp]
    exact binaryLoop_stable op tok h suffix hws htok hnul sub sub1 hst n left s1 e rest hok m hnm

/-- A success of `parse_XOR` is repeated, with any larger fuel, on the text
followed by a suffix that starts with a character which is neither whitespace
nor an operator. -/
theorem parse_XOR_stable (h : Char) (suffix : List Char) (hws : ¬ (h = ' ' ∨ h = TAB))
    (h1 : h ≠ '+') (h2 : h ≠ '|') (h3 : h ≠ '^') :
    ∀ (n m : Nat), n ≤ m → Stable (h :: suffix) (parse_XOR n) (parse_XOR m) := by
  intro n
  induction n with
  | zero => intro m _ s e rest hok; simp [parse_XOR] at hok
  | succ n ih =>
    intro m hm
    obtain ⟨m1, rfl⟩ : ∃ m1, m = m1 + 1 := ⟨m - 1, by omega⟩
    have hnm : n ≤ m1 := by omega
    have hN := parse_NOT_stable h suffix hws _ _ (ih m1 hnm)
    have hA : Stable (h :: suffix) (parse_AND (parse_XOR n) n) (parse_AND (parse_XOR m1) m1) :=
      binaryLevel_stable Operator.AND '+' h suffix hws h1 (by decide) _ _ hN n m1 hnm
    have hO : Stable (h :: suffix) (parse_OR (parse_XOR n) n) (parse_OR (parse_XOR m1) m1) :=
      binaryLevel_stable Operator.OR '|' h suffix hws h2 (by decide) _ _ hA n m1 hnm
    exact binaryLevel_stable Operator.XOR '^' h suffix hws h3 (by decide) _ _ hO n m1 hnm

/-! ## The parser never runs out of fuel -/

theorem skipWhitespace_length_le (s : List Char) : (skipWhitespace s).length ≤ s.length := by
  induction s with
  | nil => simp [skipWhitespace]
  | cons c s ih =>
    simp only [skipWhitespace]
    split_ifs
    · simp only [List.length_cons]; omega
    · exact le_refl _

theorem consume_length_le (s : List Char) : (consume s).length ≤ s.length := by
  cases s <;> simp [consume]

theorem parse_Factor_adequate (pxor : List Char → ParseResult) (bound : Nat)
    (hp : Adequate pxor bound) : Adequate (parse_Factor pxor) (bound + 1) := by
  intro s hs
  have hlen := skipWhitespace_length_le s
  unfold parse_Factor
  cases hs1 : skipWhitespace s with
  | nil => simp [peek, NUL_ne_open, NUL_not_letter]
  | cons c t =>
    rw [hs1] at hlen
    simp only [List.length_cons] at hlen
    simp only [peek, consume]
    by_cases hc : c = '('
    · simp only [hc, if_true]
      obtain ⟨hne, hlt⟩ := hp t (by omega)
      cases hx : pxor t with
      | outOfFuel => exact absurd hx hne
      | syntaxError r m => simp
      | ok expr s2 =>
        have h2 := hlt expr s2 hx
        have h3 := skipWhitespace_length_le s2
        have h4 := consume_length_le (skipWhitespace s2)
        unfold consume at h4
        simp only
        split_ifs
        · simp
        · refine ⟨by simp, ?_⟩
          intro e rest he
          simp only [ParseResult.ok.injEq] at he
          rw [← he.2]; omega
    · simp only [hc, if_false]
      split_ifs
      · refine ⟨by simp, ?_⟩
        intro e rest he
        simp only [ParseResult.ok.injEq] at he
        rw [← he.2]; omega
      · simp

theorem parse_NOT_adequate (pxor : List Char → ParseResult) (bound : Nat)
    (hp : Adequate pxor bound) : Adequate (parse_NOT pxor) (bound + 1) := by
  intro s hs
  have hF := parse_Factor_adequate pxor bound hp
  have hlen := skipWhitespace_length_le s
  unfold parse_NOT
  cases hs1 : skipWhitespace s with
  | nil =>
    simp only [peek, NUL_ne_bang, if_false]
    simp [parse_Factor, skipWhitespace, peek, NUL_ne_open, NUL_not_letter]
  | cons c t =>
    rw [hs1] at hlen
    simp only [List.length_cons] at hlen
    simp only [peek, consume]
    by_cases hc : c = '!'
    · simp only [hc, if_true]
      obtain ⟨hne, hlt⟩ := hF t (by omega)
      cases hx : parse_Factor pxor t with
      | outOfFuel => exact absurd hx hne
      | syntaxError r m => simp
      | ok expr s2 =>
        have h2 := hlt expr s2 hx
        cases expr with
        | FactExpression f neg =>
          refine ⟨by simp, ?_⟩
          intro e rest he
          simp only [ParseResult.ok.injEq] at he
          rw [← he.2]; omega
        | BinaryOperation op l r => simp
    · simp only [hc, if_false]
      obtain ⟨hne, hlt⟩ := hF (c :: t) (by simp only [List.length_cons]; omega)
      refine ⟨hne, ?_⟩
      intro e rest he
      have := hlt e rest he
      simp only [List.length_cons] at this
      omega

theorem binaryLoop_adequate (op : Operator) (tok : Char) (hnul : NUL ≠ tok)
    (sub : List Char → ParseResult) (bound : Nat) (hp : Adequate sub bound) :
    ∀ (n : Nat) (left : Expression) (s : List Char), s.length < n → s.length ≤ bound →
      binaryLoop op tok sub n left s ≠ ParseResult.outOfFuel ∧
      ∀ e rest, binaryLoop op tok sub n left s = ParseResult.ok e rest →
        rest.length ≤ s.length := by
  intro n
  induction n with
  | zero => intro left s hs; omega
  | succ n ih =>
    intro left s hs hb
    have hlen := skipWhitespace_length_le s
    simp only [binaryLoop]
    cases hs1 : skipWhitespace s with
    | nil =>
      simp only [peek, hnul, if_false]
      refine ⟨by simp, ?_⟩
      intro e rest he
      simp only [ParseResult.ok.injEq] at he
      rw [← he.2]; simp
    | cons c t =>
      rw [hs1] at hlen
      simp only [List.length_cons] at hlen
      simp only [peek, consume]
      by_cases hc : c = tok
      · simp only [hc, if_true]
        obtain ⟨hne, hlt⟩ := hp t (by omega)
        cases hx : sub t with
        | outOfFuel => exact absurd hx hne
        | syntaxError r m => simp
        | ok right s2 =>
          have h2 := hlt right s2 hx
          obtain ⟨i1, i2⟩ := ih (Expression.BinaryOperation op left right) s2 (by omega) (by omega)
          refine ⟨i1, ?_⟩
          intro e rest he
          have := i2 e rest he
          omega
      · simp only [hc, if_false]
        refine ⟨by simp, ?_⟩
        intro e rest he
        simp only [ParseResult.ok.injEq] at he
        rw [← he.2]; simp only [List.length_cons]; omega

theorem binaryLevel_adequate (op : Operator) (tok : Char) (hnul : NUL ≠ tok)
    (sub : List Char → ParseResult) (n : Nat) (hp : Adequate sub (n + 1)) : Adequate (binaryLevel op tok sub n) (n + 1) := by
  intro s hs
  unfold binaryLevel
  obtain ⟨hne, hlt⟩ := hp s hs
  cases hx : sub s with
  | outOfFuel => exact absurd hx hne
  | syntaxError r m => simp
  | ok left s1 =>
    have h2 := hlt left s1 hx
    obtain ⟨i1, i2⟩ := binaryLoop_adequate op tok hnul sub (n + 1) hp n left s1 (by omega) (by omega)
    refine ⟨i1, ?_⟩
    intro e rest he
    have := i2 e rest he
    omega

/-- The function `parse_XOR` with fuel `n` has fuel for every text shorter than `n`. -/
theorem parse_XOR_adequate : ∀ n : Nat, Adequate (parse_XOR n) n := by
  intro n
  induction n with
  | zero => intro s hs; omega
  | succ n ih =>
    have hN := parse_NOT_adequate (parse_XOR n) n ih
    have hA : Adequate (parse_AND (parse_XOR n) n) (n + 1) :=
      binaryLevel_adequate Operator.AND '+' (by decide) _ n hN
    have hO : Adequate (parse_OR (parse_XOR n) n) (n + 1) :=
      binaryLevel_adequate Operator.OR '|' (by decide) _ n hA
    exact binaryLevel_adequate Operator.XOR '^' (by decide) _ n hO

/-- The function `parseExpression` returns an AST or throws a syntax error that carries the text. -/
theorem parseExpression_total (str : List Char) :
    (∃ e, parseExpression str = Parsed.ast e) ∨
    (∃ err, parseExpression str = Parsed.error err ∧ err.input_str = str) := by
  obtain ⟨hne, _⟩ := parse_XOR_adequate (str.length + 1) str (by omega)
  unfold parseExpression parseText
  cases hx : parse_XOR (str.length + 1) str with
  | outOfFuel => exact absurd hx hne
  | syntaxError r m => exact Or.inr ⟨_, rfl, rfl⟩
  | ok e rest =>
    simp only
    split_ifs
    · exact Or.inr ⟨_, rfl, rfl⟩
    · exact Or.inl ⟨_, rfl⟩

/-! ## What the parser reads is balanced -/

theorem Consumed.nothing (s : List Char) : Consumed s s :=
  ⟨List.suffix_refl s, by omega⟩

theorem Consumed.seq {a b c : List Char} (h1 : Consumed a b) (h2 : Consumed b c) :
    Consumed a c :=
  ⟨h2.1.trans h1.1, by have := h1.2; have := h2.2; omega⟩

theorem Consumed.cons (c : Char) (t : List Char) (h1 : c ≠ '(') (h2 : c ≠ ')') :
    Consumed (c :: t) t := by
  refine ⟨List.suffix_cons c t, ?_⟩
  rw [List.count_cons_of_ne (Ne.symm h1), List.count_cons_of_ne (Ne.symm h2)]
  omega

theorem Consumed.skip (s : List Char) : Consumed s (skipWhitespace s) := by
  induction s with
  | nil => exact Consumed.nothing _
  | cons c s ih =>
    simp only [ExpertSystem.skipWhitespace]
    split_ifs with hc
    · refine (Consumed.cons c s ?_ ?_).seq ih
      · rintro rfl; revert hc; decide
      · rintro rfl; revert hc; decide
    · exact Consumed.nothing _

theorem parse_Factor_tracks (pxor : List Char → ParseResult) (hp : Tracks pxor) :
    Tracks (parse_Factor pxor) := by
  intro s e rest hok
  have hskip := Consumed.skip s
  unfold parse_Factor at hok
  cases hs1 : skipWhitespace s with
  | nil => simp [hs1, peek, NUL_ne_open, NUL_not_letter] at hok
  | cons c t =>
    rw [hs1] at hskip
    simp only [hs1, peek, consume] at hok
    by_cases hc : c = '('
    · simp only [hc, if_true] at hok
      subst hc
      cases hx : pxor t with
      | outOfFuel => simp [hx] at hok
      | syntaxError r m => simp [hx] at hok
      | ok expr s2 =>
        simp only [hx] at hok
        have h2 := hp t expr s2 hx
        have h3 := Consumed.skip s2
        cases hs3 : skipWhitespace s2 with
        | nil => simp [hs3, peek, NUL_ne_close] at hok
        | cons c3 t3 =>
          rw [hs3] at h3
          simp only [hs3, peek, consume] at hok
          by_cases hc3 : c3 = ')'
          · subst hc3
            simp only [ne_eq, not_true_eq_false, if_false, ParseResult.ok.injEq] at hok
            obtain ⟨_, rfl⟩ := hok
            refine ⟨(List.suffix_cons _ _).trans (h3.1.trans (h2.1.trans
              ((List.suffix_cons _ _).trans hskip.1))), ?_⟩
            have e1 := hskip.2
            have e2 := h2.2
            have e3 := h3.2
            rw [List.count_cons_self, List.count_cons_of_ne (by decide)] at e1
            rw [List.count_cons_self, List.count_cons_of_ne (by decide)] at e3
            omega
          · simp [hc3] at hok
    · simp only [hc, if_false] at hok
      by_cases hl : 'A' ≤ c ∧ c ≤ 'Z'
      · simp only [hl, and_self, if_true, ParseResult.ok.injEq] at hok
        obtain ⟨_, rfl⟩ := hok
        refine hskip.seq (Consumed.cons c t hc ?_)
        rintro rfl; revert hl; decide
      · simp [hl] at hok

theorem parse_NOT_tracks (pxor : List Char → ParseResult) (hp : Tracks pxor) :
    Tracks (parse_NOT pxor) := by
  intro s e rest hok
  have hF := parse_Factor_tracks pxor hp
  have hskip := Consumed.skip s
  unfold parse_NOT at hok
  cases hs1 : skipWhitespace s with
  | nil =>
    simp only [hs1, peek, NUL_ne_bang, if_false] at hok
    simp [parse_Factor, skipWhitespace, peek, NUL_ne_open, NUL_not_letter] at hok
  | cons c t =>
    rw [hs1] at hskip
    simp only [hs1, peek, consume] at hok
    by_cases hc : c = '!'
    · simp only [hc, if_true] at hok
      subst hc
      cases hx : parse_Factor pxor t with
      | outOfFuel => simp [hx] at hok
      | syntaxError r m => simp [hx] at hok
      | ok expr s2 =>
        have h2 := hF t expr s2 hx
        cases expr with
        | FactExpression f neg =>
          simp only [hx, ParseResult.ok.injEq] at hok
          obtain ⟨_, rfl⟩ := hok
          exact hskip.seq ((Consumed.cons '!' t (by decide) (by decide)).seq h2)
        | BinaryOperation op l r => simp [hx] at hok
    · simp only [hc, if_false] at hok
      exact hskip.seq (hF (c :: t) e rest hok)

theorem binaryLoop_tracks (op : Operator) (tok : Char) (h1 : tok ≠ '(') (h2 : tok ≠ ')')
    (sub : List Char → ParseResult) (hp : Tracks sub) :
    ∀ (n : Nat) (left : Expression) (s : List Char) (e : Expression) (rest : List Char),
      binaryLoop op tok sub n left s = ParseResult.ok e rest → Consumed s rest := by
  intro n
  induction n with
  | zero => intro left s e rest hok; simp [binaryLoop] at hok
  | succ n ih =>
    intro left s e rest hok
    have hskip := Consumed.skip s
    simp only [binaryLoop] at hok
    by_cases hc : peek (skipWhitespace s) = tok
    · simp only [hc, if_true] at hok
      cases hs1 : skipWhitespace s with
      | nil =>
        simp only [hs1, consume] at hok
        rw [hs1] at hskip
        cases hx : sub [] with
        | outOfFuel => simp [hx] at hok
        | syntaxError r m => simp [hx] at hok
        | ok right s2 =>
          simp only [hx] at hok
          exact hskip.seq ((hp [] right s2 hx).seq (ih _ s2 e rest hok))
      | cons c t =>
        rw [hs1] at hskip hc
        simp only [peek] at hc
        subst hc
        simp only [hs1, consume] at hok
        cases hx : sub t with
        | outOfFuel => simp [hx] at hok
        | syntaxError r m => simp [hx] at hok
        | ok right s2 =>
          simp only [hx] at hok
          exact hskip.seq ((Consumed.cons c t h1 h2).seq
            ((hp t right s2 hx).seq (ih _ s2 e rest hok)))
    · simp only [hc, if_false, ParseResult.ok.injEq] at hok
      obtain ⟨_, rfl⟩ := hok
      exact hskip

theorem binaryLevel_tracks (op : Operator) (tok : Char) (h1 : tok ≠ '(') (h2 : tok ≠ ')')
    (sub : List Char → ParseResult) (hp : Tracks sub) (n : Nat) :
    Tracks (binaryLevel op tok sub n) := by
  intro s e rest hok
  unfold binaryLevel at hok
  cases hx : sub s with
  | outOfFuel => simp [hx] at hok
  | syntaxError r m => simp [hx] at hok
  | ok left s1 =>
    simp only [hx] at hok
    exact (hp s left s1 hx).seq (binaryLoop_tracks op tok h1 h2 sub hp n left s1 e rest hok)

/-- What `parse_XOR` leaves unread is a suffix of the text, and what it has read
has as many opening as closing parentheses. -/
theorem parse_XOR_tracks : ∀ n : Nat, Tracks (parse_XOR n) := by
  intro n
  induction n with
  | zero => intro s e rest hok; simp [parse_XOR] at hok
  | succ n ih =>
    have hN := parse_NOT_tracks (parse_XOR n) ih
    have hA : Tracks (parse_AND (parse_XOR n) n) :=
      binaryLevel_tracks Operator.AND '+' (by decide) (by decide) _ hN n
    have hO : Tracks (parse_OR (parse_XOR n) n) :=
      binaryLevel_tracks Operator.OR '|' (by decide) (by decide) _ hA n
    exact binaryLevel_tracks Operator.XOR '^' (by decide) (by decide) _ hO n

/-- On success `parseText` has read a balanced text up to its end, or up to a
NUL character. -/
theorem parseText_ok {str : List Char} {e : Expression} {rest : List Char}
    (h : parseText str = ParseResult.ok e rest) :
    Consumed str rest ∧ peek rest = NUL ∧
    ∃ rest0, parse_XOR (str.length + 1) str = ParseResult.ok e rest0 ∧
      rest = skipWhitespace rest0 := by
  unfold parseText at h
  cases hx : parse_XOR (str.length + 1) str with
  | outOfFuel => simp [hx] at h
  | syntaxError r m => simp [hx] at h
  | ok e0 rest0 =>
    simp only [hx] at h
    by_cases hp : peek (skipWhitespace rest0) = NUL
    · simp only [hp, ne_eq, not_true_eq_false, if_false, ParseResult.ok.injEq] at h
      obtain ⟨rfl, rfl⟩ := h
      exact ⟨(parse_XOR_tracks _ str e0 rest0 hx).seq (Consumed.skip rest0), hp,
        rest0, rfl, rfl⟩
    · simp [hp] at h

theorem parseExpression_ast {str : List Char} {e : Expression}
    (h : parseExpression str = Parsed.ast e) : ∃ rest, parseText str = ParseResult.ok e rest := by
  unfold parseExpression at h
  cases hx : parseText str with
  | outOfFuel => simp [hx] at h
  | syntaxError r m => simp [hx] at h
  | ok e0 rest =>
    simp only [hx, Parsed.ast.injEq] at h
    subst h
    exact ⟨rest, rfl⟩

theorem peek_NUL_of_not_mem {rest : List Char} (h : peek rest = NUL) (hn : NUL ∉ rest) :
    rest = [] := by
  cases rest with
  | nil => rfl
  | cons c t =>
    simp only [peek] at h
    subst h
    exact absurd (List.mem_cons_self _ _) hn

/-! ## C9 -/

theorem parse_XOR_of_NOT_syntaxError (n : Nat) (s r m : List Char)
    (h : parse_NOT (parse_XOR n) s = ParseResult.syntaxError r m) :
    parse_XOR (n + 1) s = ParseResult.syntaxError r m := by
  simp [parse_XOR, parse_OR, parse_AND, binaryLevel, h]

theorem parseExpression_of_syntaxError (str r m : List Char)
    (h : parse_XOR (str.length + 1) str = ParseResult.syntaxError r m) :
    parseExpression str = Parsed.error ⟨str.length - r.length, str, m⟩ := by
  simp [parseExpression, parseText, h]

theorem skipWhitespace_cons_of_not (c : Char) (s : List Char) (h : ¬ (c = ' ' ∨ c = TAB)) :
    skipWhitespace (c :: s) = c :: s := by
  rw [skipWhitespace, if_neg h]

/-- The function `parse_NOT` on `!(` followed by a text on which `parse_XOR` succeeds with a
binary node and stops before `)`. -/
theorem parse_NOT_compound (pxor : List Char → ParseResult) (s : List Char)
    (op : Operator) (l r : Expression) (rest1 : List Char)
    (hx : ∃ rest0, pxor s = ParseResult.ok (Expression.BinaryOperation op l r) rest0 ∧
      skipWhitespace rest0 = rest1) :
    (∀ t, rest1 = ')' :: t →
      parse_NOT pxor ('!' :: '(' :: s) = ParseResult.syntaxError t msgComplexNegation) ∧
    (peek rest1 ≠ ')' →
      parse_NOT pxor ('!' :: '(' :: s) = ParseResult.syntaxError rest1 msgExpectedClose) := by
  obtain ⟨rest0, hp, hs⟩ := hx
  have h1 : skipWhitespace ('!' :: '(' :: s) = '!' :: '(' :: s :=
    skipWhitespace_cons_of_not '!' _ (by decide)
  have h2 : skipWhitespace ('(' :: s) = '(' :: s :=
    skipWhitespace_cons_of_not '(' _ (by decide)
  have hF : ∀ t, rest1 = ')' :: t →
      parse_Factor pxor ('(' :: s) = ParseResult.ok (Expression.BinaryOperation op l r) t := by
    intro t ht
    subst ht
    unfold parse_Factor
    rw [h2]
    simp only [peek, consume, if_true, hp, hs, ne_eq, not_true_eq_false, if_false]
  have hG : peek rest1 ≠ ')' →
      parse_Factor pxor ('(' :: s) = ParseResult.syntaxError rest1 msgExpectedClose := by
    intro hne
    unfold parse_Factor
    rw [h2]
    simp only [consume, if_true, hp, hs]
    rw [if_pos (show peek ('(' :: s) = '(' from rfl), if_pos hne]
  constructor
  · intro t ht
    unfold parse_NOT
    rw [h1]
    simp only [peek, consume, if_true, hF t ht]
  · intro hne
    unfold parse_NOT
    rw [h1]
    simp only [peek, consume, if_true, hG hne]

/-- C9: when `parseExpression` accepts the text `e` with a binary node as its
AST, it rejects `!(` + `e` + `)` with a syntax error carrying that text.  The
message is the one for compound negation, at the end of the text, when `e` has
no NUL character; with a NUL character, at which the parse of `e` stopped, it is
the one for the missing `)`. -/
theorem compound_negation_rejected (e : List Char) (op : Operator) (l r : Expression)
    (h : parseExpression e = Parsed.ast (Expression.BinaryOperation op l r)) :
    ∃ err, parseExpression ("!(".toList ++ e ++ ")".toList) = Parsed.error err ∧
      err.input_str = "!(".toList ++ e ++ ")".toList ∧
      (err.message = msgComplexNegation ∨ err.message = msgExpectedClose) ∧
      (NUL ∉ e → err.message = msgComplexNegation ∧ err.current_pos = e.length + 3) := by
  obtain ⟨rest1, hpt⟩ := parseExpression_ast h
  obtain ⟨hcons, hpeek, rest0, hx, hrest⟩ := parseText_ok hpt
  have htext : "!(".toList ++ e ++ ")".toList = '!' :: '(' :: (e ++ [')']) := rfl
  rw [htext]
  have hlen : ('!' :: '(' :: (e ++ [')'])).length = e.length + 3 := by simp
  have hstable := parse_XOR_stable ')' [] (by decide) (by decide) (by decide) (by decide)
    (e.length + 1) (e.length + 3) (by omega) e _ rest0 hx
  have hskip : skipWhitespace (rest0 ++ [')']) = rest1 ++ [')'] := by
    rw [skipWhitespace_append rest0 ')' [] (by decide), hrest]
  obtain ⟨hA, hB⟩ := parse_NOT_compound (parse_XOR (e.length + 3)) (e ++ [')']) op l r
    (rest1 ++ [')']) ⟨_, hstable, hskip⟩
  cases hr : rest1 with
  | nil =>
    have h1 := hA [] (by rw [hr]; rfl)
    have h2 := parse_XOR_of_NOT_syntaxError _ _ _ _ h1
    have h3 := parseExpression_of_syntaxError ('!' :: '(' :: (e ++ [')'])) [] msgComplexNegation
      (by rw [hlen]; exact h2)
    refine ⟨_, h3, rfl, Or.inl rfl, fun _ => ⟨rfl, ?_⟩⟩
    simp
  | cons c t =>
    have hc : c = NUL := by rw [hr] at hpeek; exact hpeek
    have h1 := hB (by rw [hr, hc]; exact NUL_ne_close)
    have h2 := parse_XOR_of_NOT_syntaxError _ _ _ _ h1
    have h3 := parseExpression_of_syntaxError ('!' :: '(' :: (e ++ [')'])) _ msgExpectedClose
      (by rw [hlen]; exact h2)
    refine ⟨_, h3, rfl, Or.inr rfl, fun hnul => ?_⟩
    have : NUL ∈ e := hcons.1.subset (by rw [hr, hc]; exact List.mem_cons_self _ _)
    exact absurd this hnul

/-- Witness for C9: `A+B` is accepted with an AND node, and `!(A+B)` is rejected
at position 6 with the message for compound negation. -/
theorem compound_negation_rejected_witness :
    parseExpression "A+B".toList =
      Parsed.ast (Expression.BinaryOperation Operator.AND (leaf 'A') (leaf 'B')) ∧
    parseExpression "!(A+B)".toList =
      Parsed.error ⟨6, "!(A+B)".toList, msgComplexNegation⟩ ∧
    ∃ err, parseExpression ("!(".toList ++ "A+B".toList ++ ")".toList) = Parsed.error err ∧
      err.input_str = "!(".toList ++ "A+B".toList ++ ")".toList ∧
      (err.message = msgComplexNegation ∨ err.message = msgExpectedClose) ∧
      (NUL ∉ "A+B".toList → err.message = msgComplexNegation ∧
        err.current_pos = "A+B".toList.length + 3) :=
  ⟨by decide, by decide,
    compound_negation_rejected "A+B".toList Operator.AND (leaf 'A') (leaf 'B') (by decide)⟩

/-! ## C10 -/

/-- C10, counterexample: the text made of `A`, a NUL character and `(` is
accepted, with the AST of `A`, although it has one `(` and no `)`: `peek` returns
NUL at the NUL character as it does at the end of the text. -/
theorem unbalanced_text_accepted_after_NUL :
    parseExpression ['A', NUL, '('] = Parsed.ast (leaf 'A') ∧
    ['A', NUL, '('].count '(' = 1 ∧ ['A', NUL, '('].count ')' = 0 := by
  decide

/-- C10, amended: for texts without NUL character, `parseExpression` returns an
AST only if the text has as many `(` as `)`, so a text with an unclosed `(` is
rejected with a syntax error carrying the text. -/
theorem unbalanced_parentheses_rejected (str : List Char) (hnul : NUL ∉ str) :
    (∀ e, parseExpression str = Parsed.ast e → str.count '(' = str.count ')') ∧
    (str.count '(' ≠ str.count ')' →
      ∃ err, parseExpression str = Parsed.error err ∧ err.input_str = str) := by
  have hbal : ∀ e, parseExpression str = Parsed.ast e → str.count '(' = str.count ')' := by
    intro e he
    obtain ⟨rest, hpt⟩ := parseExpression_ast he
    obtain ⟨hcons, hpeek, _⟩ := parseText_ok hpt
    have hrest : rest = [] :=
      peek_NUL_of_not_mem hpeek (fun hm => hnul (hcons.1.subset hm))
    have := hcons.2
    rw [hrest] at this
    simpa using this
  refine ⟨hbal, fun hne => ?_⟩
  rcases parseExpression_total str with ⟨e, he⟩ | herr
  · exact absurd (hbal e he) hne
  · exact herr

/-- Witness for C10: `(A+B` is rejected at position 4 with the message for the
missing `)`. -/
theorem unbalanced_parentheses_rejected_witness :
    parseExpression "(A+B".toList = Parsed.error ⟨4, "(A+B".toList, msgExpectedClose⟩ ∧
    ∃ err, parseExpression "(A+B".toList = Parsed.error err ∧ err.input_str = "(A+B".toList :=
  ⟨by decide,
    (unbalanced_parentheses_rejected "(A+B".toList (by decide)).2 (by decide)⟩

/-! ## C12 -/

theorem distinctFacts_eq (rules : List Rule) (c : Char) :
    distinctFacts rules c =
      if c ∈ antecedentSymbols rules then (antecedentSymbols rules).length
      else (antecedentSymbols rules).length + 1 := by
  unfold distinctFacts antecedentSymbols
  by_cases h : c ∈ rules.flatMap (fun rule => rule.antecedent.getFacts)
  · rw [List.dedup_cons_of_mem h, if_pos (List.mem_dedup.mpr h)]
  · rw [List.dedup_cons_of_not_mem h, if_neg (fun hm => h (List.mem_dedup.mp hm))]
    simp

/-- C12: `isFactTrue` returns for every rule list, store and fact, with a fuel,
that is a bound on the nesting depth of the calls, of the number of distinct
fact identifiers (the fact asked and the facts of the antecedents) plus one for
the innermost call, which returns at once.  The recursion is well-founded
because a call on an antecedent fact that does not return at once puts that
fact in progress, which strictly decreases the number of antecedent facts that
are not in progress; that number is at most the number of antecedent facts, and
a nested call returns as soon as the fuel exceeds it. -/
theorem isFactTrue_terminates (rules : List Rule) (c : Char) (facts : FactMap) (k : Nat) :
    (∃ r facts1, isFactTrue rules (distinctFacts rules c + 1 + k) c facts = some (r, facts1)) ∧
    (c ∈ antecedentSymbols rules → inProgress facts c = false →
      idleCount rules ((facts.create c).start c) < idleCount rules facts) ∧
    idleCount rules facts ≤ (antecedentSymbols rules).length ∧
    (∀ n, c ∈ antecedentSymbols rules → idleCount rules facts < n →
      ∃ r facts1, isFactTrue rules n c facts = some (r, facts1)) := by
  refine ⟨?_, idleCount_start rules facts c, idleCount_le rules facts,
    fun n hc hn => isFactTrue_nested_total rules n c facts hc hn⟩
  rw [distinctFacts_eq]
  by_cases h : c ∈ antecedentSymbols rules
  · rw [if_pos h]
    exact isFactTrue_nested_total rules _ c facts h (by
      have := idleCount_le rules facts; omega)
  · rw [if_neg h]
    have : (antecedentSymbols rules).length + 1 + 1 + k = fuelBound rules + k := by
      unfold fuelBound; omega
    rw [this]
    exact isFactTrue_total rules k c facts

/-- Witness for C12: on the cycle `A => B`, `B => A` there are two distinct facts,
and resolving A from the empty store returns with fuel 3. -/
theorem isFactTrue_terminates_witness :
    distinctFacts [factRule 'A' 'B', factRule 'B' 'A'] 'A' = 2 ∧
    ∃ r facts1, isFactTrue [factRule 'A' 'B', factRule 'B' 'A']
      (distinctFacts [factRule 'A' 'B', factRule 'B' 'A'] 'A' + 1 + 0) 'A' FactMap.empty
        = some (r, facts1) :=
  ⟨by decide, (isFactTrue_terminates [factRule 'A' 'B', factRule 'B' 'A'] 'A' FactMap.empty 0).1⟩

/-! ## C17 -/

/-- C17: after `resetFacts`, whatever the store held before, every fact of the
store has its in-progress flag cleared, an empty proof list and an empty reason,
and its state is TRUE if the snapshot maps it to TRUE and FALSE otherwise. -/
theorem resetFacts_reinitialises (kb : KnowledgeBase) (c : Char) (f : Fact)
    (h : (resetFacts kb).facts c = some f) :
    f.isProcessing = false ∧ f.true_reasons = [] ∧ f.final_state_reason = [] ∧
    f.currentState =
      (if kb.initial_fact_states c = some FactState.TRUE then FactState.TRUE
       else FactState.FALSE) := by
  simp only [resetFacts, resetStore] at h
  by_cases hi : kb.initial_fact_states c = some FactState.TRUE
  · simp only [hi, if_true, Option.some.injEq] at h ⊢
    subst h
    cases hc : kb.facts c with
    | none => simp [FactMap.get, hc]
    | some g => simp [FactMap.get, hc]
  · simp only [hi, if_false] at h ⊢
    cases hc : kb.facts c with
    | none => simp [hc] at h
    | some g =>
      simp only [hc, Option.map_some', Option.some.injEq] at h
      subst h
      exact ⟨rfl, rfl, rfl, rfl⟩

/-- Witness for C17: in the stale knowledge base, the entry of A, in progress and
UNDETERMINED with a note and a reason, is reset to FALSE with everything cleared. -/
theorem resetFacts_reinitialises_witness :
    (resetFacts staleKB).facts 'A' = some { symbol := 'A' } ∧
    ((({ symbol := 'A' } : Fact).isProcessing = false ∧
      ({ symbol := 'A' } : Fact).true_reasons = [] ∧
      ({ symbol := 'A' } : Fact).final_state_reason = [] ∧
      ({ symbol := 'A' } : Fact).currentState =
        (if staleKB.initial_fact_states 'A' = some FactState.TRUE then FactState.TRUE
         else FactState.FALSE))) :=
  ⟨by decide, resetFacts_reinitialises staleKB 'A' { symbol := 'A' } (by decide)⟩

/-! ## C18 -/

/-- C18: `isFactTrue` returns, and after it every fact has the in-progress flag
it had before the call, a fact created by the call having it cleared; so a call
started with no fact in progress ends with no fact in progress. -/
theorem isFactTrue_restores_inProgress (rules : List Rule) (k : Nat) (c : Char)
    (facts : FactMap) :
    ∃ r facts1, isFactTrue rules (fuelBound rules + k) c facts = some (r, facts1) ∧
      (∀ d f1, facts1 d = some f1 →
        f1.isProcessing = (match facts d with
          | some f => f.isProcessing
          | none => false)) ∧
      ((∀ d f, facts d = some f → f.isProcessing = false) →
        ∀ d f1, facts1 d = some f1 → f1.isProcessing = false) := by
  obtain ⟨r, facts1, h⟩ := isFactTrue_total rules k c facts
  have hf := (isFactTrue_frame rules _ c facts r facts1 h).1
  have hentry : ∀ d f1, facts1 d = some f1 →
      f1.isProcessing = (match facts d with
        | some f => f.isProcessing
        | none => false) := by
    intro d f1 hd
    have := hf d
    simp only [inProgress, FactMap.get, hd, Option.getD_some] at this
    rw [this]
    cases facts d <;> rfl
  refine ⟨r, facts1, h, hentry, ?_⟩
  intro hidle d f1 hd
  rw [hentry d f1 hd]
  cases hfd : facts d with
  | none => rfl
  | some f => exact hidle d f hfd

/-! ## C15 -/

theorem parseExpression_member_ast (kb : KnowledgeBase) (str : List Char)
    (e : Expression) (h : parseExpression str = Parsed.ast e) :
    ∃ kb1, kb.parseExpression str = (kb1, Parsed.ast e) ∧ kb1.rules = kb.rules := by
  obtain ⟨rest, hpt⟩ := parseExpression_ast h
  exact ⟨{ kb with input_str := str, current_pos := str.length - rest.length },
    by simp [KnowledgeBase.parseExpression, hpt], rfl⟩

theorem emplaceRule_of_ast (kb : KnowledgeBase) (a c : List Char) (ea ec : Expression)
    (ha : parseExpression a = Parsed.ast ea) (hc : parseExpression c = Parsed.ast ec) :
    ∃ kb1, emplaceRule kb a c = Outcome.done kb1 ∧ kb1.rules = kb.rules ++ [⟨ea, ec⟩] := by
  obtain ⟨k1, h1, hr1⟩ := parseExpression_member_ast kb a ea ha
  obtain ⟨k2, h2, hr2⟩ := parseExpression_member_ast k1 c ec hc
  refine ⟨{ k2 with rules := k2.rules ++ [⟨ea, ec⟩] }, by simp [emplaceRule, h1, h2], ?_⟩
  simp [hr1, hr2]

/-- C15, the code at the failing inputs: the texts `A|B+C` and `(A+B)|C` are
accepted by `parseExpression` with an OR node as their AST, so both are
disjunctive consequents.  Yet `addImpliesRule` on `X` and `A|B+C` appends two
rules, `X => A|B` and `X => C`, and on `X` and `(A+B)|C` it appends no rule and
throws the syntax error of the segment `(A` (a closing parenthesis expected at
position 2): the consequent text is cut at every `+` before it is parsed,
whatever the place of that `+` in the expression. -/
theorem disjunctive_consequent_split_at_plus :
    parseExpression "X".toList = Parsed.ast (leaf 'X') ∧
    parseExpression "A|B+C".toList =
      Parsed.ast (Expression.BinaryOperation Operator.OR (leaf 'A')
        (Expression.BinaryOperation Operator.AND (leaf 'B') (leaf 'C'))) ∧
    (Expression.BinaryOperation Operator.OR (leaf 'A')
        (Expression.BinaryOperation Operator.AND (leaf 'B') (leaf 'C'))).isOrXor = true ∧
    (∃ kb1, addImpliesRule {} "X".toList "A|B+C".toList = Outcome.done kb1 ∧
      kb1.rules =
        [⟨leaf 'X', Expression.BinaryOperation Operator.OR (leaf 'A') (leaf 'B')⟩,
          factRule 'X' 'C']) ∧
    parseExpression "(A+B)|C".toList =
      Parsed.ast (Expression.BinaryOperation Operator.OR
        (Expression.BinaryOperation Operator.AND (leaf 'A') (leaf 'B')) (leaf 'C')) ∧
    (∃ kb1, addImpliesRule {} "X".toList "(A+B)|C".toList =
        Outcome.thrown kb1 ⟨2, "(A".toList, msgExpectedClose⟩ ∧
      kb1.rules = []) :=
  ⟨by decide, by decide, by decide, ⟨_, rfl, rfl⟩, by decide, ⟨_, rfl, rfl⟩⟩

/-- The branch of `addImpliesRule` for a consequent text without `+`: for texts
`a` and `c` that `parseExpression` accepts, `c` containing no `+`, if the AST of
`c` is an OR or XOR node then `addImpliesRule` returns and appends exactly one
rule, whose antecedent is the AST of `a` and whose consequent is the AST of `c`. -/
theorem disjunctive_consequent_kept_whole (kb : KnowledgeBase) (a c : List Char)
    (ea ec : Expression) (ha : parseExpression a = Parsed.ast ea)
    (hc : parseExpression c = Parsed.ast ec) (_hor : ec.isOrXor = true) (hplus : '+' ∉ c) :
    ∃ kb1, addImpliesRule kb a c = Outcome.done kb1 ∧ kb1.rules = kb.rules ++ [⟨ea, ec⟩] := by
  have hf : '+' ∉ c.filter (fun x => decide (x ≠ ' ')) :=
    fun hm => hplus (List.mem_filter.mp hm).1
  unfold addImpliesRule
  simp only [hf, false_and, if_false]
  exact emplaceRule_of_ast kb a c ea ec ha hc

/-- An instance of the branch without `+`: `X` and `A | B ^ C`, which has an OR
node under an XOR node. -/
theorem disjunctive_consequent_kept_whole_witness :
    ∃ kb1, addImpliesRule {} "X".toList "A | B ^ C".toList = Outcome.done kb1 ∧
      kb1.rules = ({} : KnowledgeBase).rules ++
        [⟨leaf 'X', Expression.BinaryOperation Operator.XOR
          (Expression.BinaryOperation Operator.OR (leaf 'A') (leaf 'B')) (leaf 'C')⟩] :=
  disjunctive_consequent_kept_whole {} "X".toList "A | B ^ C".toList _ _
    (by decide) (by decide) (by decide) (by decide)

/-! ## C16 -/

/-- C16, the code at the failing input: the rule line `X=>!A|B` is loaded as the
rule `X => !A|B`, whose consequent mentions A only negated; with X TRUE and A not
in the store, `isFactTrue` on A returns TRUE, with the derivation note of that
rule.  The test `concerns_symbol` looks for the fact in `getFacts` of a binary
consequent, which drops the negation flags, while its branch for a single-fact
consequent requires a non-negated leaf. -/
theorem negated_occurrence_proves_fact :
    (parseRule {} "X=>!A|B".toList).rules = some [ruleXNotAorB] ∧
    ruleXNotAorB.consequent.hasPositive 'A' = false ∧
    storeXTrue 'A' = none ∧
    (isFactTrue [ruleXNotAorB] (fuelBound [ruleXNotAorB]) 'A' storeXTrue).map
        (fun p => (p.1, (p.2 'A').map (fun f => f.true_reasons))) =
      some (FactState.TRUE, some [derivedNote ruleXNotAorB]) ∧
    concerns_symbol ruleXNotAorB 'A' = true ∧
    concerns_symbol ⟨leaf 'X', Expression.FactExpression 'A' true⟩ 'A' = false := by
  decide

/-! ## The forward elimination pass and the query loop -/

/-- The ways `propagateRule` returns. -/
theorem propagateRule_cases {resolve : Char → FactMap → Resolved} {rule : Rule}
    {changed : Bool} {s : FactMap} {ch : Bool} {s1 : FactMap}
    (h : propagateRule resolve rule changed s = some (ch, s1)) :
    (s1 = s ∧ ch = changed) ∨
    (∃ v, rule.antecedent.evaluate resolve s = some (v, s1) ∧ ch = changed) ∨
    (∃ t count last t2, rule.antecedent.evaluate resolve s = some (FactState.TRUE, t) ∧
      conclusionLoop resolve rule.consequent.getFacts 0 NUL t = some (count, last, t2) ∧
      ((s1 = t2 ∧ ch = changed) ∨
       (stateOf t2 last ≠ FactState.TRUE ∧ s1 = t2.eliminate last rule ∧ ch = true))) := by
  unfold propagateRule at h
  by_cases hor : rule.consequent.isOrXor = true
  · simp only [hor, if_true] at h
    cases he : rule.antecedent.evaluate resolve s with
    | none => simp [he] at h
    | some q =>
      obtain ⟨v, t⟩ := q
      simp only [he] at h
      by_cases hv : v = FactState.TRUE
      · subst hv
        simp only [if_true] at h
        cases hl : conclusionLoop resolve rule.consequent.getFacts 0 NUL t with
        | none => simp [hl] at h
        | some q2 =>
          obtain ⟨count, last, t2⟩ := q2
          simp only [hl] at h
          right; right
          refine ⟨t, count, last, t2, rfl, hl, ?_⟩
          by_cases hc : count = 1 ∧ (t2.get last).currentState ≠ FactState.TRUE
          · rw [if_pos hc] at h
            simp only [Option.some.injEq, Prod.mk.injEq] at h
            exact Or.inr ⟨hc.2, h.2.symm, h.1.symm⟩
          · rw [if_neg hc] at h
            simp only [Option.some.injEq, Prod.mk.injEq] at h
            exact Or.inl ⟨h.2.symm, h.1.symm⟩
      · simp only [hv, if_false, Option.some.injEq, Prod.mk.injEq] at h
        right; left
        exact ⟨v, by rw [h.2], h.1.symm⟩
  · simp only [hor, Bool.false_eq_true, if_false, Option.some.injEq, Prod.mk.injEq] at h
    exact Or.inl ⟨h.2.symm, h.1.symm⟩

theorem conclusionLoop_inv (resolve : Char → FactMap → Resolved) (I : FactMap → Prop)
    (hres : ∀ c t r t1, I t → resolve c t = some (r, t1) → I t1) :
    ∀ (cs : List Char) (count : Nat) (last : Char) (s : FactMap) (count1 : Nat) (last1 : Char)
      (s1 : FactMap), I s →
      conclusionLoop resolve cs count last s = some (count1, last1, s1) → I s1 := by
  intro cs
  induction cs with
  | nil =>
    intro count last s count1 last1 s1 hI h
    simp only [conclusionLoop, Option.some.injEq, Prod.mk.injEq] at h
    obtain ⟨_, _, rfl⟩ := h
    exact hI
  | cons c rest ih =>
    intro count last s count1 last1 s1 hI h
    simp only [conclusionLoop] at h
    cases hr : resolve c s with
    | none => simp [hr] at h
    | some q =>
      obtain ⟨r, t⟩ := q
      simp only [hr] at h
      have hIt := hres c s r t hI hr
      split_ifs at h
      · exact ih _ _ _ _ _ _ hIt h
      · exact ih _ _ _ _ _ _ hIt h

/-- An invariant kept by the resolver and by the elimination step on a fact that
is not TRUE is kept by `propagateRule`. -/
theorem propagateRule_inv (resolve : Char → FactMap → Resolved) (I : FactMap → Prop)
    (hres : ∀ c t r t1, I t → resolve c t = some (r, t1) → I t1)
    (helim : ∀ t c rule, I t → stateOf t c ≠ FactState.TRUE → I (t.eliminate c rule))
    (rule : Rule) (changed : Bool) (s : FactMap) (ch : Bool) (s1 : FactMap) (hI : I s)
    (h : propagateRule resolve rule changed s = some (ch, s1)) : I s1 := by
  rcases propagateRule_cases h with ⟨rfl, _⟩ | ⟨v, he, _⟩ | ⟨t, count, last, t2, he, hl, hfin⟩
  · exact hI
  · exact Expression.evaluate_inv resolve I hres _ s v s1 hI he
  · have hIt := Expression.evaluate_inv resolve I hres _ s _ t hI he
    have hI2 := conclusionLoop_inv resolve I hres _ _ _ _ _ _ _ hIt hl
    rcases hfin with ⟨rfl, _⟩ | ⟨hne, rfl, _⟩
    · exact hI2
    · exact helim t2 last rule hI2 hne

theorem propagateScan_inv (resolve : Char → FactMap → Resolved) (I : FactMap → Prop)
    (hres : ∀ c t r t1, I t → resolve c t = some (r, t1) → I t1)
    (helim : ∀ t c rule, I t → stateOf t c ≠ FactState.TRUE → I (t.eliminate c rule)) :
    ∀ (rs : List Rule) (changed : Bool) (s : FactMap) (ch : Bool) (s1 : FactMap), I s →
      propagateScan resolve rs changed s = some (ch, s1) → I s1 := by
  intro rs
  induction rs with
  | nil =>
    intro changed s ch s1 hI h
    simp only [propagateScan, Option.some.injEq, Prod.mk.injEq] at h
    obtain ⟨_, rfl⟩ := h
    exact hI
  | cons rule rest ih =>
    intro changed s ch s1 hI h
    simp only [propagateScan] at h
    cases hp : propagateRule resolve rule changed s with
    | none => simp [hp] at h
    | some q =>
      obtain ⟨c1, t⟩ := q
      simp only [hp] at h
      exact ih _ _ _ _ (propagateRule_inv resolve I hres helim rule changed s c1 t hI hp) h

theorem propagateLoop_inv (rules : List Rule) (fuel : Nat) (I : FactMap → Prop)
    (hres : ∀ c t r t1, I t → isFactTrue rules fuel c t = some (r, t1) → I t1)
    (helim : ∀ t c rule, I t → stateOf t c ≠ FactState.TRUE → I (t.eliminate c rule)) :
    ∀ (n : Nat) (s s1 : FactMap), I s → propagateLoop rules fuel n s = some s1 → I s1 := by
  intro n
  induction n with
  | zero =>
    intro s s1 hI h
    simp only [propagateLoop] at h
    cases hp : propagateScan (isFactTrue rules fuel) rules false s with
    | none => simp [hp] at h
    | some q =>
      obtain ⟨ch, t⟩ := q
      simp only [hp, Option.map_some', Option.some.injEq] at h
      subst h
      exact propagateScan_inv _ I hres helim rules false s ch t hI hp
  | succ n ih =>
    intro s s1 hI h
    simp only [propagateLoop] at h
    cases hp : propagateScan (isFactTrue rules fuel) rules false s with
    | none => simp [hp] at h
    | some q =>
      obtain ⟨ch, t⟩ := q
      simp only [hp] at h
      have hIt := propagateScan_inv _ I hres helim rules false s ch t hI hp
      split_ifs at h
      · exact ih t s1 hIt h
      · simp only [Option.some.injEq] at h
        subst h
        exact hIt

/-- The query loop keeps an invariant of the resolver, and every reported result
is an answer of the resolver on a store meeting the invariant. -/
theorem queryLoop_inv (resolve : Char → FactMap → Resolved) (I : FactMap → Prop)
    (Q : FactState → Prop)
    (hres : ∀ c t r t1, I t → resolve c t = some (r, t1) → I t1 ∧ Q r) :
    ∀ (qs : List Char) (s : FactMap) (results : List (Char × FactState)) (s1 : FactMap),
      I s → queryLoop resolve qs s = some (results, s1) →
      I s1 ∧ results.map (fun p => p.1) = qs ∧ ∀ p ∈ results, Q p.2 := by
  intro qs
  induction qs with
  | nil =>
    intro s results s1 hI h
    simp only [queryLoop, Option.some.injEq, Prod.mk.injEq] at h
    obtain ⟨rfl, rfl⟩ := h
    exact ⟨hI, rfl, by simp⟩
  | cons q rest ih =>
    intro s results s1 hI h
    simp only [queryLoop] at h
    cases hr : resolve q s with
    | none => simp [hr] at h
    | some x =>
      obtain ⟨r, t⟩ := x
      simp only [hr] at h
      cases hq : queryLoop resolve rest t with
      | none => simp [hq] at h
      | some y =>
        obtain ⟨rs, t2⟩ := y
        simp only [hq, Option.some.injEq, Prod.mk.injEq] at h
        obtain ⟨rfl, rfl⟩ := h
        obtain ⟨hIt, hQ⟩ := hres q s r t hI hr
        obtain ⟨h1, h2, h3⟩ := ih t rs t2 hIt hq
        refine ⟨h1, by simp [h2], ?_⟩
        intro p hp
        rcases List.mem_cons.mp hp with rfl | hp
        · exact hQ
        · exact h3 p hp

/-! ## Totality of the forward elimination pass and of `runQueries` -/

theorem conclusionLoop_total (resolve : Char → FactMap → Resolved)
    (htot : ∀ c t, ∃ r t1, resolve c t = some (r, t1)) :
    ∀ (cs : List Char) (count : Nat) (last : Char) (s : FactMap),
      ∃ count1 last1 s1, conclusionLoop resolve cs count last s = some (count1, last1, s1) := by
  intro cs
  induction cs with
  | nil => intro count last s; exact ⟨_, _, _, rfl⟩
  | cons c rest ih =>
    intro count last s
    obtain ⟨r, t, hr⟩ := htot c s
    simp only [conclusionLoop, hr]
    split_ifs
    · exact ih _ _ _
    · exact ih _ _ _

theorem propagateRule_total (resolve : Char → FactMap → Resolved)
    (htot : ∀ c t, ∃ r t1, resolve c t = some (r, t1)) (rule : Rule) (changed : Bool)
    (s : FactMap) : ∃ ch s1, propagateRule resolve rule changed s = some (ch, s1) := by
  unfold propagateRule
  split_ifs
  · obtain ⟨v, t, he⟩ := Expression.evaluate_total_of resolve (fun _ => True)
      (fun _ _ _ _ _ _ => trivial) rule.antecedent (fun c _ t _ => htot c t) s trivial
    simp only [he]
    split_ifs
    · obtain ⟨count, last, t2, hl⟩ := conclusionLoop_total resolve htot
        rule.consequent.getFacts 0 NUL t
      simp only [hl]
      split_ifs
      · exact ⟨_, _, rfl⟩
      · exact ⟨_, _, rfl⟩
    · exact ⟨_, _, rfl⟩
  · exact ⟨_, _, rfl⟩

theorem propagateScan_total (resolve : Char → FactMap → Resolved)
    (htot : ∀ c t, ∃ r t1, resolve c t = some (r, t1)) :
    ∀ (rs : List Rule) (changed : Bool) (s : FactMap),
      ∃ ch s1, propagateScan resolve rs changed s = some (ch, s1) := by
  intro rs
  induction rs with
  | nil => intro changed s; exact ⟨_, _, rfl⟩
  | cons rule rest ih =>
    intro changed s
    obtain ⟨c1, t, hp⟩ := propagateRule_total resolve htot rule changed s
    simp only [propagateScan, hp]
    exact ih _ _

theorem propagateLoop_total (rules : List Rule) (k : Nat) :
    ∀ (n : Nat) (s : FactMap), ∃ s1, propagateLoop rules (fuelBound rules + k) n s = some s1 := by
  intro n
  induction n with
  | zero =>
    intro s
    obtain ⟨ch, t, hp⟩ := propagateScan_total _ (isFactTrue_total rules k) rules false s
    exact ⟨t, by simp [propagateLoop, hp]⟩
  | succ n ih =>
    intro s
    obtain ⟨ch, t, hp⟩ := propagateScan_total _ (isFactTrue_total rules k) rules false s
    simp only [propagateLoop, hp]
    split_ifs
    · exact ih t
    · exact ⟨_, rfl⟩

theorem queryLoop_total (resolve : Char → FactMap → Resolved)
    (htot : ∀ c t, ∃ r t1, resolve c t = some (r, t1)) :
    ∀ (qs : List Char) (s : FactMap), ∃ results s1, queryLoop resolve qs s = some (results, s1) := by
  intro qs
  induction qs with
  | nil => intro s; exact ⟨_, _, rfl⟩
  | cons q rest ih =>
    intro s
    obtain ⟨r, t, hr⟩ := htot q s
    obtain ⟨rs, t2, hq⟩ := ih t
    exact ⟨(q, r) :: rs, t2, by simp [queryLoop, hr, hq]⟩

/-- The function `runQueries` returns when given `fuelBound` of the rules or more. -/
theorem runQueries_total (kb : KnowledgeBase) (k : Nat) :
    ∃ results kb1, runQueries kb (fuelBound kb.rules + k) = some (results, kb1) := by
  unfold runQueries
  obtain ⟨facts1, hp⟩ := propagateLoop_total (resetFacts kb).rules k 100 (resetFacts kb).facts
  obtain ⟨results, facts2, hq⟩ := queryLoop_total _ (isFactTrue_total (resetFacts kb).rules k)
    (resetFacts kb).queries facts1
  have hr : (resetFacts kb).rules = kb.rules := rfl
  rw [hr] at hp hq
  simp only [propagate_Undetermined, hr, hp, hq]
  exact ⟨_, _, rfl⟩

/-! ## C19 -/

theorem KeepsTrue.of_frame {s t t1 : FactMap} (h : KeepsTrue s t) (hf : Frame t t1) :
    KeepsTrue s t1 :=
  fun c f hc ht => hf.2.1 c f (h c f hc ht) ht

theorem KeepsTrue.after_eliminate {s t : FactMap} (h : KeepsTrue s t) (c : Char) (rule : Rule)
    (hne : stateOf t c ≠ FactState.TRUE) : KeepsTrue s (t.eliminate c rule) := by
  intro d f hd ht
  have htd := h d f hd ht
  have hdc : d ≠ c := by
    rintro rfl
    exact hne (by rw [stateOf_of_some t d f htd]; exact ht)
  simp [FactMap.eliminate, hdc, htd]

/-- A fact that is TRUE is answered at once, with any fuel, the store unchanged. -/
theorem isFactTrue_of_TRUE (rules : List Rule) (n : Nat) (c : Char) (facts : FactMap) (f : Fact)
    (hc : facts c = some f) (ht : f.currentState = FactState.TRUE) :
    isFactTrue rules (n + 1) c facts = some (FactState.TRUE, facts) := by
  simp only [isFactTrue]
  rw [FactMap.create_some facts c f hc, FactMap.get_of_some facts c f hc, ht]
  simp

/-- C19: a fact that is TRUE before a call of `isFactTrue`, of `evaluate` or of
`propagate_Undetermined` is TRUE after it, its entry being untouched, and each
of these calls returns; `isFactTrue` on such a fact returns TRUE at once, with
the store unchanged, for every fuel from 1 on, that is, without any nested call
and so without the evaluation of any antecedent. -/
theorem TRUE_never_retracted (rules : List Rule) (k : Nat) (facts : FactMap) (c : Char)
    (f : Fact) (hc : facts c = some f) (ht : f.currentState = FactState.TRUE) :
    (∀ d, ∃ r facts1, isFactTrue rules (fuelBound rules + k) d facts = some (r, facts1) ∧
      facts1 c = some f) ∧
    (∀ e, ∃ v facts1, evaluate rules (fuelBound rules + k) e facts = some (v, facts1) ∧
      facts1 c = some f) ∧
    (∃ facts1, propagate_Undetermined rules (fuelBound rules + k) facts = some facts1 ∧
      facts1 c = some f) ∧
    (∀ n, isFactTrue rules (n + 1) c facts = some (FactState.TRUE, facts)) := by
  refine ⟨fun d => ?_, fun e => ?_, ?_, fun n => isFactTrue_of_TRUE rules n c facts f hc ht⟩
  · obtain ⟨r, facts1, h⟩ := isFactTrue_total rules k d facts
    exact ⟨r, facts1, h, (isFactTrue_frame rules _ d facts r facts1 h).2.1 c f hc ht⟩
  · obtain ⟨v, facts1, h⟩ := evaluate_total rules k e facts
    exact ⟨v, facts1, h, (evaluate_frame rules _ e facts v facts1 h).2.1 c f hc ht⟩
  · obtain ⟨facts1, h⟩ := propagateLoop_total rules k 100 facts
    have hk : KeepsTrue facts facts1 :=
      propagateLoop_inv rules _ (fun t => KeepsTrue facts t)
        (fun d t r t1 hI hr => hI.of_frame (isFactTrue_frame rules _ d t r t1 hr))
        (fun t d rule hI hne => hI.after_eliminate d rule hne) 100 facts facts1
        (fun _ _ h _ => h) h
    exact ⟨facts1, h, hk c f hc ht⟩

/-- Witness for C19: with the rule `!B => A` and `A => B`, in the store where A is
FALSE and B is TRUE, B stays TRUE through the three calls and is answered at once. -/
theorem TRUE_never_retracted_witness :
    (∀ d, ∃ r facts1, isFactTrue rulesNotBA (fuelBound rulesNotBA + 0) d storeAFalseBTrue
        = some (r, facts1) ∧ facts1 'B' = some (factIn 'B' FactState.TRUE)) ∧
    (∀ e, ∃ v facts1, evaluate rulesNotBA (fuelBound rulesNotBA + 0) e storeAFalseBTrue
        = some (v, facts1) ∧ facts1 'B' = some (factIn 'B' FactState.TRUE)) ∧
    (∃ facts1, propagate_Undetermined rulesNotBA (fuelBound rulesNotBA + 0) storeAFalseBTrue
        = some facts1 ∧ facts1 'B' = some (factIn 'B' FactState.TRUE)) ∧
    (∀ n, isFactTrue rulesNotBA (n + 1) 'B' storeAFalseBTrue
        = some (FactState.TRUE, storeAFalseBTrue)) :=
  TRUE_never_retracted rulesNotBA 0 storeAFalseBTrue 'B' (factIn 'B' FactState.TRUE)
    (by decide) (by decide)

/-! ## C20 -/

theorem stateOf_eliminate (t : FactMap) (c : Char) (rule : Rule) (d : Char) :
    stateOf (t.eliminate c rule) d = if d = c then FactState.TRUE else stateOf t d := by
  unfold FactMap.eliminate
  rw [stateOf_set]

theorem inProgress_eliminate (t : FactMap) (c : Char) (rule : Rule) (d : Char) :
    inProgress (t.eliminate c rule) d = inProgress t d := by
  unfold FactMap.eliminate
  rw [inProgress_set]
  split_ifs with h
  · subst h; rfl
  · rfl

theorem TwoValued.of_eliminate {t : FactMap} (h : TwoValued t) (c : Char) (rule : Rule) :
    TwoValued (t.eliminate c rule) := by
  intro d
  rw [stateOf_eliminate]
  split_ifs
  · exact Or.inl rfl
  · exact h d

theorem stateOf_resetStore (init : Char → Option FactState) (facts : FactMap) (c : Char) :
    stateOf (resetStore init facts) c =
      if init c = some FactState.TRUE then FactState.TRUE else FactState.FALSE := by
  unfold stateOf FactMap.get resetStore
  by_cases hi : init c = some FactState.TRUE
  · simp [hi]
  · cases hc : facts c <;> simp [hi, hc]

theorem inProgress_resetStore (init : Char → Option FactState) (facts : FactMap) (c : Char) :
    inProgress (resetStore init facts) c = false := by
  unfold inProgress FactMap.get resetStore
  by_cases hi : init c = some FactState.TRUE
  · cases hc : facts c <;> simp [hi, hc, FactMap.get]
  · cases hc : facts c <;> simp [hi, hc]

theorem TwoValued.resetStore (init : Char → Option FactState) (facts : FactMap) :
    TwoValued (resetStore init facts) := by
  intro c
  rw [stateOf_resetStore]
  split_ifs
  · exact Or.inl rfl
  · exact Or.inr rfl

theorem TwoValued.of_entries (facts : FactMap)
    (h : ∀ c f, facts c = some f →
      f.currentState = FactState.TRUE ∨ f.currentState = FactState.FALSE) :
    TwoValued facts := by
  intro c
  cases hc : facts c with
  | none => right; simp [stateOf, FactMap.get, hc]
  | some f => rw [stateOf_of_some facts c f hc]; exact h c f hc

theorem TwoValued.entries {facts : FactMap} (h : TwoValued facts) (c : Char) (f : Fact)
    (hc : facts c = some f) :
    f.currentState = FactState.TRUE ∨ f.currentState = FactState.FALSE := by
  have := h c
  rwa [stateOf_of_some facts c f hc] at this

theorem isFactTrue_twoValued (rules : List Rule) (n : Nat) (c : Char) (s : FactMap)
    (r : FactState) (s1 : FactMap) (htv : TwoValued s)
    (h : isFactTrue rules n c s = some (r, s1)) :
    TwoValued s1 ∧ (r = FactState.TRUE ∨ r = FactState.FALSE) := by
  obtain ⟨h1, _, h3⟩ := isFactTrue_sound rules n c s r s1 htv h
  refine ⟨h1, ?_⟩
  rcases h3 with ⟨hr, _⟩ | ⟨hr, _⟩
  · exact Or.inl hr
  · exact Or.inr hr

/-- C20: from a store in which every state is TRUE or FALSE, `isFactTrue` and
`evaluate` return, they return TRUE or FALSE, and every state is still TRUE or
FALSE afterwards; and `runQueries`, which starts with `resetFacts`, returns and
reports every query as TRUE or FALSE, whatever the store held before. -/
theorem UNDETERMINED_unreachable (kb : KnowledgeBase) (k : Nat) :
    (∀ facts : FactMap,
      (∀ c f, facts c = some f →
        f.currentState = FactState.TRUE ∨ f.currentState = FactState.FALSE) →
      (∀ c, ∃ r facts1, isFactTrue kb.rules (fuelBound kb.rules + k) c facts = some (r, facts1) ∧
        (r = FactState.TRUE ∨ r = FactState.FALSE) ∧
        ∀ d g, facts1 d = some g →
          g.currentState = FactState.TRUE ∨ g.currentState = FactState.FALSE) ∧
      (∀ e, ∃ v facts1, evaluate kb.rules (fuelBound kb.rules + k) e facts = some (v, facts1) ∧
        (v = FactState.TRUE ∨ v = FactState.FALSE) ∧
        ∀ d g, facts1 d = some g →
          g.currentState = FactState.TRUE ∨ g.currentState = FactState.FALSE)) ∧
    (∃ results kb1, runQueries kb (fuelBound kb.rules + k) = some (results, kb1) ∧
      results.map (fun p => p.1) = kb.queries ∧
      ∀ p ∈ results, p.2 = FactState.TRUE ∨ p.2 = FactState.FALSE) := by
  constructor
  · intro facts hent
    have htv := TwoValued.of_entries facts hent
    constructor
    · intro c
      obtain ⟨r, facts1, h⟩ := isFactTrue_total kb.rules k c facts
      obtain ⟨h1, h2⟩ := isFactTrue_twoValued kb.rules _ c facts r facts1 htv h
      exact ⟨r, facts1, h, h2, fun d g hd => h1.entries d g hd⟩
    · intro e
      obtain ⟨v, facts1, h⟩ := evaluate_total kb.rules k e facts
      obtain ⟨h1, _, _, h4⟩ := evaluate_sound kb.rules _ e facts v facts1 htv h
      refine ⟨v, facts1, h, ?_, fun d g hd => h1.entries d g hd⟩
      rw [h4]
      cases e.holds (isTrue facts1)
      · exact Or.inr rfl
      · exact Or.inl rfl
  · obtain ⟨results, kb1, h⟩ := runQueries_total kb k
    refine ⟨results, kb1, h, ?_⟩
    unfold runQueries at h
    cases hp : propagate_Undetermined (resetFacts kb).rules (fuelBound kb.rules + k)
        (resetFacts kb).facts with
    | none => simp [hp] at h
    | some facts1 =>
      simp only [hp] at h
      cases hq : queryLoop (isFactTrue (resetFacts kb).rules (fuelBound kb.rules + k))
          (resetFacts kb).queries facts1 with
      | none => simp [hq] at h
      | some x =>
        obtain ⟨rs, facts2⟩ := x
        simp only [hq, Option.some.injEq, Prod.mk.injEq] at h
        obtain ⟨rfl, _⟩ := h
        have htv1 : TwoValued facts1 :=
          propagateLoop_inv (resetFacts kb).rules _ TwoValued
            (fun c t r t1 hI hr => (isFactTrue_twoValued _ _ c t r t1 hI hr).1)
            (fun t c rule hI _ => hI.of_eliminate c rule) 100 _ facts1
            (TwoValued.resetStore _ _) hp
        obtain ⟨_, h2, h3⟩ := queryLoop_inv _ TwoValued
          (fun r => r = FactState.TRUE ∨ r = FactState.FALSE)
          (fun c t r t1 hI hr => isFactTrue_twoValued _ _ c t r t1 hI hr)
          _ facts1 rs facts2 htv1 hq
        exact ⟨h2, h3⟩

/-- Witness for C20: the knowledge base loaded from `X=>A|B`, `=X`, `?AB` and the
store in which A is FALSE and B is TRUE. -/
theorem UNDETERMINED_unreachable_witness :
    (∀ c, ∃ r facts1, isFactTrue eliminationKB.rules (fuelBound eliminationKB.rules + 0) c
        storeAFalseBTrue = some (r, facts1) ∧
      (r = FactState.TRUE ∨ r = FactState.FALSE) ∧
      ∀ d g, facts1 d = some g →
        g.currentState = FactState.TRUE ∨ g.currentState = FactState.FALSE) ∧
    (∃ results kb1, runQueries eliminationKB (fuelBound eliminationKB.rules + 0)
        = some (results, kb1) ∧
      results.map (fun p => p.1) = eliminationKB.queries ∧
      ∀ p ∈ results, p.2 = FactState.TRUE ∨ p.2 = FactState.FALSE) :=
  ⟨((UNDETERMINED_unreachable eliminationKB 0).1 storeAFalseBTrue (by
      intro c f h
      unfold storeAFalseBTrue at h
      by_cases hb : c = 'B'
      · subst hb
        simp only [FactMap.set_same, Option.some.injEq] at h
        subst h; exact Or.inl rfl
      · rw [FactMap.set_other _ _ _ _ hb] at h
        by_cases ha : c = 'A'
        · subst ha
          simp only [FactMap.set_same, Option.some.injEq] at h
          subst h; exact Or.inr rfl
        · rw [FactMap.set_other _ _ _ _ ha] at h
          simp [FactMap.empty] at h)).1,
    (UNDETERMINED_unreachable eliminationKB 0).2⟩

/-! ## The answers depend on the states and the in-progress flags only -/

theorem isFactTrue_of_state (rules : List Rule) (n : Nat) (c : Char) (s : FactMap)
    (h1 : stateOf s c ≠ FactState.FALSE) (h2 : stateOf s c ≠ FactState.UNDETERMINED) :
    isFactTrue rules (n + 1) c s = some (stateOf s c, s.create c) := by
  have h1' := h1
  have h2' := h2
  rw [← stateOf_create s c c] at h1' h2' ⊢
  unfold stateOf at h1' h2'
  simp only [isFactTrue]
  rw [if_pos ⟨h1', h2'⟩]
  rfl

theorem isFactTrue_of_inProgress (rules : List Rule) (n : Nat) (c : Char) (s : FactMap)
    (h1 : stateOf s c = FactState.FALSE ∨ stateOf s c = FactState.UNDETERMINED)
    (h2 : inProgress s c = true) :
    isFactTrue rules (n + 1) c s = some (FactState.FALSE, s.create c) := by
  rw [← stateOf_create s c c] at h1
  rw [← inProgress_create s c c] at h2
  unfold stateOf at h1
  unfold inProgress at h2
  simp only [isFactTrue]
  rw [if_neg (by rcases h1 with h | h <;> simp [h]), if_pos h2]

theorem isFactTrue_of_loop (rules : List Rule) (n : Nat) (c : Char) (s : FactMap)
    (h1 : stateOf s c = FactState.FALSE ∨ stateOf s c = FactState.UNDETERMINED)
    (h2 : inProgress s c = false) (p u : Bool) (s2 : FactMap)
    (hl : ruleLoop (isFactTrue rules n) c rules false false ((s.create c).start c)
      = some (p, u, s2)) :
    isFactTrue rules (n + 1) c s =
      some ((settle (s2.get c) p u).currentState, s2.set c (settle (s2.get c) p u)) := by
  rw [← stateOf_create s c c] at h1
  rw [← inProgress_create s c c] at h2
  unfold stateOf at h1
  unfold inProgress at h2
  simp only [isFactTrue]
  rw [if_neg (by rcases h1 with h | h <;> simp [h]), if_neg (by simp [h2])]
  simp only [hl]

theorem SameViews.self (s : FactMap) : SameViews s s := fun _ => ⟨rfl, rfl⟩

theorem SameViews.both_create {s t : FactMap} (h : SameViews s t) (c : Char) :
    SameViews (s.create c) (t.create c) := by
  intro d
  rw [stateOf_create, stateOf_create, inProgress_create, inProgress_create]
  exact h d

theorem SameViews.set {s t : FactMap} (h : SameViews s t) (c : Char) (f g : Fact)
    (h1 : f.currentState = g.currentState) (h2 : f.isProcessing = g.isProcessing) :
    SameViews (s.set c f) (t.set c g) := by
  intro d
  rw [stateOf_set, stateOf_set, inProgress_set, inProgress_set]
  split_ifs
  · exact ⟨h1, h2⟩
  · exact h d

theorem SameViews.start {s t : FactMap} (h : SameViews s t) (c : Char) :
    SameViews (s.start c) (t.start c) :=
  h.set c _ _ rfl rfl

theorem SameViews.both_pushReason {s t : FactMap} (h : SameViews s t) (c : Char) (note : List Char) :
    SameViews (s.pushReason c note) (t.pushReason c note) :=
  h.set c _ _ (h c).1 (h c).2

theorem SameViews.both_eliminate {s t : FactMap} (h : SameViews s t) (c : Char) (rule : Rule) :
    SameViews (s.eliminate c rule) (t.eliminate c rule) :=
  h.set c _ _ rfl (h c).2

theorem settle_views (f g : Fact) (p u : Bool) :
    (settle f p u).currentState = (settle g p u).currentState ∧
    (settle f p u).isProcessing = (settle g p u).isProcessing := by
  unfold settle
  split_ifs <;> exact ⟨rfl, rfl⟩

theorem Expression.evaluate_same (resolve : Char → FactMap → Resolved)
    (hres : ∀ c s t r s1, SameViews s t → resolve c s = some (r, s1) →
      ∃ t1, resolve c t = some (r, t1) ∧ SameViews s1 t1) :
    ∀ (e : Expression) (s t : FactMap) (v : FactState) (s1 : FactMap),
      SameViews s t → e.evaluate resolve s = some (v, s1) →
      ∃ t1, e.evaluate resolve t = some (v, t1) ∧ SameViews s1 t1 := by
  intro e
  induction e with
  | FactExpression c neg =>
    intro s t v s1 hst h
    simp only [Expression.evaluate] at h ⊢
    cases hr : resolve c s with
    | none => simp [hr] at h
    | some q =>
      obtain ⟨r, s2⟩ := q
      simp only [hr, Option.some.injEq, Prod.mk.injEq] at h
      obtain ⟨rfl, rfl⟩ := h
      obtain ⟨t1, ht1, hs1⟩ := hres c s t r s2 hst hr
      exact ⟨t1, by simp [ht1], hs1⟩
  | BinaryOperation op l r ihl ihr =>
    intro s t v s1 hst h
    simp only [Expression.evaluate] at h ⊢
    cases hl : l.evaluate resolve s with
    | none => simp [hl] at h
    | some q =>
      obtain ⟨lv, s2⟩ := q
      cases hr : r.evaluate resolve s2 with
      | none => simp [hl, hr] at h
      | some q2 =>
        obtain ⟨rv, s3⟩ := q2
        simp only [hl, hr, Option.some.injEq, Prod.mk.injEq] at h
        obtain ⟨rfl, rfl⟩ := h
        obtain ⟨t2, ht2, hs2⟩ := ihl s t lv s2 hst hl
        obtain ⟨t3, ht3, hs3⟩ := ihr s2 t2 rv s3 hs2 hr
        exact ⟨t3, by simp [ht2, ht3], hs3⟩

theorem ruleLoop_same (resolve : Char → FactMap → Resolved) (symbol : Char)
    (hres : ∀ c s t r s1, SameViews s t → resolve c s = some (r, s1) →
      ∃ t1, resolve c t = some (r, t1) ∧ SameViews s1 t1) :
    ∀ (rs : List Rule) (p u : Bool) (s t : FactMap) (p1 u1 : Bool) (s1 : FactMap),
      SameViews s t → ruleLoop resolve symbol rs p u s = some (p1, u1, s1) →
      ∃ t1, ruleLoop resolve symbol rs p u t = some (p1, u1, t1) ∧ SameViews s1 t1 := by
  intro rs
  induction rs with
  | nil =>
    intro p u s t p1 u1 s1 hst h
    simp only [ruleLoop, Option.some.injEq, Prod.mk.injEq] at h
    obtain ⟨rfl, rfl, rfl⟩ := h
    exact ⟨t, rfl, hst⟩
  | cons rule rest ih =>
    intro p u s t p1 u1 s1 hst h
    simp only [ruleLoop] at h ⊢
    by_cases hc : concerns_symbol rule symbol = true
    · simp only [hc, if_true] at h ⊢
      cases he : rule.antecedent.evaluate resolve s with
      | none => simp [he] at h
      | some q =>
        obtain ⟨v, s2⟩ := q
        simp only [he] at h
        obtain ⟨t2, ht2, hs2⟩ := Expression.evaluate_same resolve hres _ s t v s2 hst he
        simp only [ht2]
        by_cases hv : v = FactState.TRUE
        · simp only [hv, if_true] at h ⊢
          exact ih _ _ _ _ _ _ _ (hs2.both_pushReason symbol _) h
        · simp only [hv, if_false] at h ⊢
          exact ih _ _ _ _ _ _ _ hs2 h
    · simp only [hc] at h ⊢
      exact ih _ _ _ _ _ _ _ hst h

/-- On two stores with the same states and in-progress flags, `isFactTrue`
returns the same answer and leaves stores with the same states and flags. -/
theorem isFactTrue_same (rules : List Rule) :
    ∀ (n : Nat) (c : Char) (s t : FactMap) (r : FactState) (s1 : FactMap),
      SameViews s t → isFactTrue rules n c s = some (r, s1) →
      ∃ t1, isFactTrue rules n c t = some (r, t1) ∧ SameViews s1 t1 := by
  intro n
  induction n with
  | zero => intro c s t r s1 _ h; simp [isFactTrue] at h
  | succ n ih =>
    intro c s t r s1 hst h
    have hc := hst c
    rcases isFactTrue_cases h with ⟨h1, h2, rfl, rfl⟩ | ⟨h1, h2, rfl, rfl⟩ |
      ⟨h1, h2, p, u, s2, hl, rfl, rfl⟩
    · refine ⟨t.create c, ?_, hst.both_create c⟩
      rw [hc.1] at h1 h2 ⊢
      exact isFactTrue_of_state rules n c t h1 h2
    · refine ⟨t.create c, ?_, hst.both_create c⟩
      rw [hc.1] at h1
      rw [hc.2] at h2
      exact isFactTrue_of_inProgress rules n c t h1 h2
    · obtain ⟨t2, ht2, hs2⟩ := ruleLoop_same (isFactTrue rules n) c ih rules false false
        _ ((t.create c).start c) p u s2 ((hst.both_create c).start c) hl
      rw [hc.1] at h1
      rw [hc.2] at h2
      refine ⟨t2.set c (settle (t2.get c) p u), ?_,
        hs2.set c _ _ (settle_views (s2.get c) (t2.get c) p u).1
          (settle_views (s2.get c) (t2.get c) p u).2⟩
      rw [isFactTrue_of_loop rules n c t h1 h2 p u t2 ht2,
        (settle_views (s2.get c) (t2.get c) p u).1]

theorem conclusionLoop_same (resolve : Char → FactMap → Resolved)
    (hres : ∀ c s t r s1, SameViews s t → resolve c s = some (r, s1) →
      ∃ t1, resolve c t = some (r, t1) ∧ SameViews s1 t1) :
    ∀ (cs : List Char) (count : Nat) (last : Char) (s t : FactMap) (count1 : Nat) (last1 : Char)
      (s1 : FactMap), SameViews s t →
      conclusionLoop resolve cs count last s = some (count1, last1, s1) →
      ∃ t1, conclusionLoop resolve cs count last t = some (count1, last1, t1) ∧
        SameViews s1 t1 := by
  intro cs
  induction cs with
  | nil =>
    intro count last s t count1 last1 s1 hst h
    simp only [conclusionLoop, Option.some.injEq, Prod.mk.injEq] at h
    obtain ⟨rfl, rfl, rfl⟩ := h
    exact ⟨t, rfl, hst⟩
  | cons c rest ih =>
    intro count last s t count1 last1 s1 hst h
    simp only [conclusionLoop] at h ⊢
    cases hr : resolve c s with
    | none => simp [hr] at h
    | some q =>
      obtain ⟨r, s2⟩ := q
      simp only [hr] at h
      obtain ⟨t2, ht2, hs2⟩ := hres c s t r s2 hst hr
      simp only [ht2]
      split_ifs at h ⊢
      · exact ih _ _ _ _ _ _ _ hs2 h
      · exact ih _ _ _ _ _ _ _ hs2 h

theorem propagateRule_same (resolve : Char → FactMap → Resolved)
    (hres : ∀ c s t r s1, SameViews s t → resolve c s = some (r, s1) →
      ∃ t1, resolve c t = some (r, t1) ∧ SameViews s1 t1)
    (rule : Rule) (changed : Bool) (s t : FactMap) (ch : Bool) (s1 : FactMap)
    (hst : SameViews s t) (h : propagateRule resolve rule changed s = some (ch, s1)) :
    ∃ t1, propagateRule resolve rule changed t = some (ch, t1) ∧ SameViews s1 t1 := by
  unfold propagateRule at h ⊢
  by_cases hor : rule.consequent.isOrXor = true
  · simp only [hor, if_true] at h ⊢
    cases he : rule.antecedent.evaluate resolve s with
    | none => simp [he] at h
    | some q =>
      obtain ⟨v, s2⟩ := q
      simp only [he] at h
      obtain ⟨t2, ht2, hs2⟩ := Expression.evaluate_same resolve hres _ s t v s2 hst he
      simp only [ht2]
      by_cases hv : v = FactState.TRUE
      · simp only [hv, if_true] at h ⊢
        cases hl : conclusionLoop resolve rule.consequent.getFacts 0 NUL s2 with
        | none => simp [hl] at h
        | some q2 =>
          obtain ⟨count, last, s3⟩ := q2
          simp only [hl] at h
          obtain ⟨t3, ht3, hs3⟩ := conclusionLoop_same resolve hres _ _ _ s2 t2 _ _ s3 hs2 hl
          simp only [ht3]
          have hstate : (s3.get last).currentState = (t3.get last).currentState := (hs3 last).1
          rw [← hstate]
          by_cases hc : count = 1 ∧ (s3.get last).currentState ≠ FactState.TRUE
          · rw [if_pos hc] at h ⊢
            simp only [Option.some.injEq, Prod.mk.injEq] at h
            obtain ⟨rfl, rfl⟩ := h
            exact ⟨_, rfl, hs3.both_eliminate last rule⟩
          · rw [if_neg hc] at h ⊢
            simp only [Option.some.injEq, Prod.mk.injEq] at h
            obtain ⟨rfl, rfl⟩ := h
            exact ⟨_, rfl, hs3⟩
      · simp only [hv, if_false, Option.some.injEq, Prod.mk.injEq] at h ⊢
        obtain ⟨rfl, rfl⟩ := h
        exact ⟨_, ⟨rfl, rfl⟩, hs2⟩
  · simp only [hor, Bool.false_eq_true, if_false, Option.some.injEq, Prod.mk.injEq] at h ⊢
    obtain ⟨rfl, rfl⟩ := h
    exact ⟨_, ⟨rfl, rfl⟩, hst⟩

theorem propagateScan_same (resolve : Char → FactMap → Resolved)
    (hres : ∀ c s t r s1, SameViews s t → resolve c s = some (r, s1) →
      ∃ t1, resolve c t = some (r, t1) ∧ SameViews s1 t1) :
    ∀ (rs : List Rule) (changed : Bool) (s t : FactMap) (ch : Bool) (s1 : FactMap),
      SameViews s t → propagateScan resolve rs changed s = some (ch, s1) →
      ∃ t1, propagateScan resolve rs changed t = some (ch, t1) ∧ SameViews s1 t1 := by
  intro rs
  induction rs with
  | nil =>
    intro changed s t ch s1 hst h
    simp only [propagateScan, Option.some.injEq, Prod.mk.injEq] at h
    obtain ⟨rfl, rfl⟩ := h
    exact ⟨t, rfl, hst⟩
  | cons rule rest ih =>
    intro changed s t ch s1 hst h
    simp only [propagateScan] at h ⊢
    cases hp : propagateRule resolve rule changed s with
    | none => simp [hp] at h
    | some q =>
      obtain ⟨c1, s2⟩ := q
      simp only [hp] at h
      obtain ⟨t2, ht2, hs2⟩ := propagateRule_same resolve hres rule changed s t c1 s2 hst hp
      simp only [ht2]
      exact ih _ _ _ _ _ hs2 h

theorem propagateLoop_same (rules : List Rule) (fuel : Nat) :
    ∀ (n : Nat) (s t s1 : FactMap), SameViews s t →
      propagateLoop rules fuel n s = some s1 →
      ∃ t1, propagateLoop rules fuel n t = some t1 ∧ SameViews s1 t1 := by
  intro n
  induction n with
  | zero =>
    intro s t s1 hst h
    simp only [propagateLoop] at h ⊢
    cases hp : propagateScan (isFactTrue rules fuel) rules false s with
    | none => simp [hp] at h
    | some q =>
      obtain ⟨ch, s2⟩ := q
      simp only [hp, Option.map_some', Option.some.injEq] at h
      subst h
      obtain ⟨t2, ht2, hs2⟩ := propagateScan_same _ (isFactTrue_same rules fuel) rules false
        s t ch s2 hst hp
      exact ⟨t2, by simp [ht2], hs2⟩
  | succ n ih =>
    intro s t s1 hst h
    simp only [propagateLoop] at h ⊢
    cases hp : propagateScan (isFactTrue rules fuel) rules false s with
    | none => simp [hp] at h
    | some q =>
      obtain ⟨ch, s2⟩ := q
      simp only [hp] at h
      obtain ⟨t2, ht2, hs2⟩ := propagateScan_same _ (isFactTrue_same rules fuel) rules false
        s t ch s2 hst hp
      simp only [ht2]
      split_ifs at h ⊢
      · exact ih s2 t2 s1 hs2 h
      · simp only [Option.some.injEq] at h
        subst h
        exact ⟨t2, rfl, hs2⟩

theorem queryLoop_same (resolve : Char → FactMap → Resolved)
    (hres : ∀ c s t r s1, SameViews s t → resolve c s = some (r, s1) →
      ∃ t1, resolve c t = some (r, t1) ∧ SameViews s1 t1) :
    ∀ (qs : List Char) (s t : FactMap) (results : List (Char × FactState)) (s1 : FactMap),
      SameViews s t → queryLoop resolve qs s = some (results, s1) →
      ∃ t1, queryLoop resolve qs t = some (results, t1) ∧ SameViews s1 t1 := by
  intro qs
  induction qs with
  | nil =>
    intro s t results s1 hst h
    simp only [queryLoop, Option.some.injEq, Prod.mk.injEq] at h
    obtain ⟨rfl, rfl⟩ := h
    exact ⟨t, rfl, hst⟩
  | cons q rest ih =>
    intro s t results s1 hst h
    simp only [queryLoop] at h ⊢
    cases hr : resolve q s with
    | none => simp [hr] at h
    | some x =>
      obtain ⟨r, s2⟩ := x
      simp only [hr] at h
      cases hq : queryLoop resolve rest s2 with
      | none => simp [hq] at h
      | some y =>
        obtain ⟨rs, s3⟩ := y
        simp only [hq, Option.some.injEq, Prod.mk.injEq] at h
        obtain ⟨rfl, rfl⟩ := h
        obtain ⟨t2, ht2, hs2⟩ := hres q s t r s2 hst hr
        obtain ⟨t3, ht3, hs3⟩ := ih s2 t2 rs s3 hs2 hq
        exact ⟨t3, by simp [ht2, ht3], hs3⟩

/-- After `resetFacts` the states and in-progress flags depend on the snapshot only. -/
theorem SameViews.of_resetStore (init : Char → Option FactState) (facts facts1 : FactMap) :
    SameViews (resetStore init facts) (resetStore init facts1) := by
  intro c
  rw [stateOf_resetStore, stateOf_resetStore, inProgress_resetStore, inProgress_resetStore]
  exact ⟨rfl, rfl⟩

/-- The steps of `runQueries`, on the fields of the knowledge base. -/
theorem runQueries_eq (kb : KnowledgeBase) (fuel : Nat) :
    runQueries kb fuel =
      match propagateLoop kb.rules fuel 100 (resetStore kb.initial_fact_states kb.facts) with
      | none => none
      | some facts1 =>
          match queryLoop (isFactTrue kb.rules fuel) kb.queries facts1 with
          | none => none
          | some (results, facts2) => some (results, { resetFacts kb with facts := facts2 }) :=
  rfl

/-! ## C11 -/

/-- C11: for every knowledge base (rule list, snapshot, query list and store),
`runQueries` returns, and a second `runQueries` right after it returns the same
ordered list of (fact, result) pairs, although it starts from the store left by
the first run, with its lazily created facts and cached TRUE results. -/
theorem runQueries_idempotent (kb : KnowledgeBase) (k : Nat) :
    ∃ results kb1 kb2,
      runQueries kb (fuelBound kb.rules + k) = some (results, kb1) ∧
      runQueries kb1 (fuelBound kb1.rules + k) = some (results, kb2) ∧
      results.map (fun p => p.1) = kb.queries := by
  obtain ⟨results, kb1, h⟩ := runQueries_total kb k
  have h0 := h
  rw [runQueries_eq] at h
  cases hp : propagateLoop kb.rules (fuelBound kb.rules + k) 100
      (resetStore kb.initial_fact_states kb.facts) with
  | none => simp [hp] at h
  | some facts1 =>
    simp only [hp] at h
    cases hq : queryLoop (isFactTrue kb.rules (fuelBound kb.rules + k)) kb.queries facts1 with
    | none => simp [hq] at h
    | some x =>
      obtain ⟨rs, facts2⟩ := x
      simp only [hq, Option.some.injEq, Prod.mk.injEq] at h
      obtain ⟨rfl, rfl⟩ := h
      have hnames := (queryLoop_inv _ (fun _ => True) (fun _ => True)
        (fun _ _ _ _ _ _ => ⟨trivial, trivial⟩) _ facts1 rs facts2 trivial hq).2.1
      obtain ⟨g1, hg1, hs1⟩ := propagateLoop_same kb.rules _ 100
        (resetStore kb.initial_fact_states kb.facts)
        (resetStore kb.initial_fact_states facts2) facts1
        (SameViews.of_resetStore _ _ _) hp
      obtain ⟨g2, hg2, _⟩ := queryLoop_same _ (isFactTrue_same kb.rules _)
        kb.queries facts1 g1 rs facts2 hs1 hq
      refine ⟨rs, _, { resetFacts { resetFacts kb with facts := facts2 } with facts := g2 },
        h0, ?_, hnames⟩
      rw [runQueries_eq]
      show (match propagateLoop kb.rules (fuelBound kb.rules + k) 100
          (resetStore kb.initial_fact_states facts2) with
        | none => none
        | some facts1 =>
            match queryLoop (isFactTrue kb.rules (fuelBound kb.rules + k)) kb.queries facts1 with
            | none => none
            | some (results, facts3) =>
                some (results,
                  { resetFacts { resetFacts kb with facts := facts2 } with facts := facts3 })) = _
      simp only [hg1, hg2]

/-! ## C13 -/

theorem letter_not_space (c : Char) (h : 'A' ≤ c ∧ c ≤ 'Z') : ¬ (c = ' ' ∨ c = TAB) := by
  rintro (rfl | rfl) <;> revert h <;> decide

theorem letter_ne_open (c : Char) (h : 'A' ≤ c ∧ c ≤ 'Z') : ¬ (c = '(') := by
  rintro rfl; revert h; decide

theorem letter_ne_bang (c : Char) (h : 'A' ≤ c ∧ c ≤ 'Z') : ¬ (c = '!') := by
  rintro rfl; revert h; decide

/-- The function `parse_NOT` on a text that starts with a fact letter. -/
theorem parse_NOT_letter (pxor : List Char → ParseResult) (c : Char) (rest : List Char)
    (h : 'A' ≤ c ∧ c ≤ 'Z') :
    parse_NOT pxor (c :: rest) = ParseResult.ok (Expression.FactExpression c false) rest := by
  unfold parse_NOT
  rw [skipWhitespace_cons_of_not c rest (letter_not_space c h)]
  simp only [peek]
  rw [if_neg (letter_ne_bang c h)]
  unfold parse_Factor
  rw [skipWhitespace_cons_of_not c rest (letter_not_space c h)]
  simp only [peek, consume]
  rw [if_neg (letter_ne_open c h), if_pos h]

/-- One turn of the loop of a level on a text that starts with an operator character. -/
theorem binaryLoop_operator (op : Operator) (tok : Char) (sub : List Char → ParseResult)
    (n : Nat) (left : Expression) (c : Char) (rest : List Char)
    (hc : c = '+' ∨ c = '|' ∨ c = '^') :
    binaryLoop op tok sub (n + 1) left (c :: rest) =
      if c = tok then
        match sub rest with
        | ParseResult.ok right s2 =>
            binaryLoop op tok sub n (Expression.BinaryOperation op left right) s2
        | other => other
      else ParseResult.ok left (c :: rest) := by
  have hws : ¬ (c = ' ' ∨ c = TAB) := by
    rcases hc with rfl | rfl | rfl <;> decide
  simp only [binaryLoop]
  rw [skipWhitespace_cons_of_not c rest hws]
  rfl

/-- The loop of a level at the end of the text. -/
theorem binaryLoop_end (op : Operator) (tok : Char) (sub : List Char → ParseResult)
    (n : Nat) (left : Expression) (htok : tok = '+' ∨ tok = '|' ∨ tok = '^') :
    binaryLoop op tok sub (n + 1) left [] = ParseResult.ok left [] := by
  have hnul : ¬ (NUL = tok) := by
    rcases htok with rfl | rfl | rfl <;> decide
  simp only [binaryLoop, skipWhitespace, peek]
  rw [if_neg hnul]

/-- C13: AND binds tighter than OR and OR tighter than XOR: for all fact letters
`a`, `b`, `c`, `d`, the text `a^b|c+d` is parsed as XOR(a, OR(b, AND(c, d))) and
the text `a+b|c^d` as XOR(OR(AND(a, b), c), d). -/
theorem operator_precedence (a b c d : Char) (ha : 'A' ≤ a ∧ a ≤ 'Z') (hb : 'A' ≤ b ∧ b ≤ 'Z')
    (hc : 'A' ≤ c ∧ c ≤ 'Z') (hd : 'A' ≤ d ∧ d ≤ 'Z') :
    parseExpression [a, '^', b, '|', c, '+', d] =
      Parsed.ast (Expression.BinaryOperation Operator.XOR (leaf a)
        (Expression.BinaryOperation Operator.OR (leaf b)
          (Expression.BinaryOperation Operator.AND (leaf c) (leaf d)))) ∧
    parseExpression [a, '+', b, '|', c, '^', d] =
      Parsed.ast (Expression.BinaryOperation Operator.XOR
        (Expression.BinaryOperation Operator.OR
          (Expression.BinaryOperation Operator.AND (leaf a) (leaf b)) (leaf c)) (leaf d)) := by
  have e1 : ('^' : Char) = '+' ↔ False := by decide
  have e2 : ('^' : Char) = '|' ↔ False := by decide
  have e3 : ('|' : Char) = '+' ↔ False := by decide
  have e4 : ('|' : Char) = '^' ↔ False := by decide
  have e5 : ('+' : Char) = '|' ↔ False := by decide
  have e6 : ('+' : Char) = '^' ↔ False := by decide
  constructor
  · simp only [parseExpression, parseText, List.length_cons, List.length_nil, parse_XOR,
      parse_OR, parse_AND, binaryLevel, parse_NOT_letter _ _ _ ha, parse_NOT_letter _ _ _ hb,
      parse_NOT_letter _ _ _ hc, parse_NOT_letter _ _ _ hd,
      binaryLoop_operator _ _ _ _ _ '+' _ (Or.inl rfl),
      binaryLoop_operator _ _ _ _ _ '|' _ (Or.inr (Or.inl rfl)),
      binaryLoop_operator _ _ _ _ _ '^' _ (Or.inr (Or.inr rfl)),
      binaryLoop_end _ '+' _ _ _ (Or.inl rfl), binaryLoop_end _ '|' _ _ _ (Or.inr (Or.inl rfl)),
      binaryLoop_end _ '^' _ _ _ (Or.inr (Or.inr rfl)),
      e1, e2, e3, e4, e5, e6, if_true, if_false, skipWhitespace, peek, leaf]
    simp
  · simp only [parseExpression, parseText, List.length_cons, List.length_nil, parse_XOR,
      parse_OR, parse_AND, binaryLevel, parse_NOT_letter _ _ _ ha, parse_NOT_letter _ _ _ hb,
      parse_NOT_letter _ _ _ hc, parse_NOT_letter _ _ _ hd,
      binaryLoop_operator _ _ _ _ _ '+' _ (Or.inl rfl),
      binaryLoop_operator _ _ _ _ _ '|' _ (Or.inr (Or.inl rfl)),
      binaryLoop_operator _ _ _ _ _ '^' _ (Or.inr (Or.inr rfl)),
      binaryLoop_end _ '+' _ _ _ (Or.inl rfl), binaryLoop_end _ '|' _ _ _ (Or.inr (Or.inl rfl)),
      binaryLoop_end _ '^' _ _ _ (Or.inr (Or.inr rfl)),
      e1, e2, e3, e4, e5, e6, if_true, if_false, skipWhitespace, peek, leaf]
    simp

/-- Witness for C13: `A^B|C+D` and `A+B|C^D`. -/
theorem operator_precedence_witness :
    parseExpression "A^B|C+D".toList =
      Parsed.ast (Expression.BinaryOperation Operator.XOR (leaf 'A')
        (Expression.BinaryOperation Operator.OR (leaf 'B')
          (Expression.BinaryOperation Operator.AND (leaf 'C') (leaf 'D')))) ∧
    parseExpression "A+B|C^D".toList =
      Parsed.ast (Expression.BinaryOperation Operator.XOR
        (Expression.BinaryOperation Operator.OR
          (Expression.BinaryOperation Operator.AND (leaf 'A') (leaf 'B')) (leaf 'C')) (leaf 'D')) :=
  operator_precedence 'A' 'B' 'C' 'D' (by decide) (by decide) (by decide) (by decide)

/-! ## C14 -/

theorem removeWhitespace_cons_of_not (c : Char) (r : List Char) (h : ¬ (c = ' ' ∨ c = TAB)) :
    removeWhitespace (c :: r) = c :: removeWhitespace r := by
  unfold removeWhitespace
  rw [List.filter_cons_of_pos]
  rw [Bool.not_eq_true', decide_eq_false_iff_not]
  exact h

theorem removeWhitespace_cons_of (c : Char) (r : List Char) (h : c = ' ' ∨ c = TAB) :
    removeWhitespace (c :: r) = removeWhitespace r := by
  unfold removeWhitespace
  rw [List.filter_cons_of_neg]
  rw [Bool.not_eq_true', decide_eq_false_iff_not, not_not]
  exact h

theorem removeWhitespace_cases (s : List Char) :
    (skipWhitespace s = [] ∧ removeWhitespace s = []) ∨
    ∃ c r, ¬ (c = ' ' ∨ c = TAB) ∧ skipWhitespace s = c :: r ∧
      removeWhitespace s = c :: removeWhitespace r := by
  induction s with
  | nil => exact Or.inl ⟨rfl, rfl⟩
  | cons c s ih =>
    by_cases h : c = ' ' ∨ c = TAB
    · rw [removeWhitespace_cons_of c s h]
      simp only [skipWhitespace]
      rw [if_pos h]
      exact ih
    · exact Or.inr ⟨c, s, h, skipWhitespace_cons_of_not c s h, removeWhitespace_cons_of_not c s h⟩

theorem skipWhitespace_removeWhitespace (s : List Char) :
    skipWhitespace (removeWhitespace s) = removeWhitespace s := by
  rcases removeWhitespace_cases s with ⟨_, h2⟩ | ⟨c, r, hc, _, h2⟩
  · rw [h2]; rfl
  · rw [h2]; exact skipWhitespace_cons_of_not c _ hc

theorem removeWhitespace_skipWhitespace (s : List Char) :
    removeWhitespace (skipWhitespace s) = removeWhitespace s := by
  rcases removeWhitespace_cases s with ⟨h1, h2⟩ | ⟨c, r, hc, h1, h2⟩
  · rw [h1, h2]; rfl
  · rw [h1, h2]; exact removeWhitespace_cons_of_not c r hc

theorem peek_removeWhitespace (s : List Char) :
    peek (removeWhitespace s) = peek (skipWhitespace s) := by
  rcases removeWhitespace_cases s with ⟨h1, h2⟩ | ⟨c, r, hc, h1, h2⟩
  · rw [h1, h2]
  · rw [h1, h2]; rfl

theorem consume_removeWhitespace (s : List Char) :
    consume (removeWhitespace s) = removeWhitespace (consume (skipWhitespace s)) := by
  rcases removeWhitespace_cases s with ⟨h1, h2⟩ | ⟨c, r, hc, h1, h2⟩
  · rw [h1, h2]; rfl
  · rw [h1, h2]; rfl

theorem parse_Factor_blind (pxor : List Char → ParseResult) (hp : WhitespaceBlind pxor) :
    WhitespaceBlind (parse_Factor pxor) := by
  intro s
  have hpn : peek [] = NUL := rfl
  have hpk : ∀ (x : Char) (t : List Char), peek (x :: t) = x := fun _ _ => rfl
  have hcs : ∀ (x : Char) (t : List Char), consume (x :: t) = t := fun _ _ => rfl
  unfold parse_Factor
  simp only [skipWhitespace_removeWhitespace]
  rcases removeWhitespace_cases s with ⟨h1, h2⟩ | ⟨c, r, hc, h1, h2⟩
  · rw [h1, h2]
    simp only [hpn]
    rw [if_neg NUL_ne_open, if_neg NUL_not_letter]
    rfl
  · rw [h1, h2]
    simp only [hpk, hcs]
    by_cases ho : c = '('
    · rw [if_pos ho, if_pos ho, hp r]
      cases pxor r with
      | outOfFuel => rfl
      | syntaxError r1 m => rfl
      | ok e s2 =>
        simp only [ParseResult.onRest, skipWhitespace_removeWhitespace, peek_removeWhitespace]
        by_cases hcl : peek (skipWhitespace s2) = ')'
        · simp only [hcl, ne_eq, not_true_eq_false, if_false, consume_removeWhitespace]
        · simp only [hcl, ne_eq, not_false_eq_true, if_true, removeWhitespace_skipWhitespace]
    · rw [if_neg ho, if_neg ho]
      by_cases hl : 'A' ≤ c ∧ c ≤ 'Z'
      · rw [if_pos hl, if_pos hl]; rfl
      · rw [if_neg hl, if_neg hl]
        simp only [ParseResult.onRest, removeWhitespace_cons_of_not c r hc]

theorem parse_NOT_blind (pxor : List Char → ParseResult) (hp : WhitespaceBlind pxor) :
    WhitespaceBlind (parse_NOT pxor) := by
  intro s
  have hF := parse_Factor_blind pxor hp
  unfold parse_NOT
  simp only [skipWhitespace_removeWhitespace, peek_removeWhitespace, consume_removeWhitespace]
  by_cases hb : peek (skipWhitespace s) = '!'
  · rw [if_pos hb, if_pos hb, hF]
    cases parse_Factor pxor (consume (skipWhitespace s)) with
    | outOfFuel => rfl
    | syntaxError r1 m => rfl
    | ok e s2 =>
      cases e with
      | FactExpression f neg => rfl
      | BinaryOperation op l r => rfl
  · rw [if_neg hb, if_neg hb]
    rw [← hF (skipWhitespace s), removeWhitespace_skipWhitespace]

theorem binaryLoop_blind (op : Operator) (tok : Char) (sub : List Char → ParseResult)
    (hp : WhitespaceBlind sub) :
    ∀ (n : Nat) (left : Expression) (s : List Char),
      binaryLoop op tok sub n left (removeWhitespace s) =
        (binaryLoop op tok sub n left s).onRest removeWhitespace := by
  intro n
  induction n with
  | zero => intro left s; rfl
  | succ n ih =>
    intro left s
    simp only [binaryLoop, skipWhitespace_removeWhitespace, peek_removeWhitespace,
      consume_removeWhitespace]
    by_cases ht : peek (skipWhitespace s) = tok
    · rw [if_pos ht, if_pos ht, hp]
      cases sub (consume (skipWhitespace s)) with
      | outOfFuel => rfl
      | syntaxError r1 m => rfl
      | ok right s2 => exact ih _ s2
    · rw [if_neg ht, if_neg ht]
      simp only [ParseResult.onRest, removeWhitespace_skipWhitespace]

theorem binaryLevel_blind (op : Operator) (tok : Char) (sub : List Char → ParseResult)
    (hp : WhitespaceBlind sub) (n : Nat) : WhitespaceBlind (binaryLevel op tok sub n) := by
  intro s
  unfold binaryLevel
  rw [hp]
  cases sub s with
  | outOfFuel => rfl
  | syntaxError r1 m => rfl
  | ok left s1 => exact binaryLoop_blind op tok sub hp n left s1

/-- The function `parse_XOR` reads the text without whitespace as it reads the text. -/
theorem parse_XOR_blind : ∀ n : Nat, WhitespaceBlind (parse_XOR n) := by
  intro n
  induction n with
  | zero => intro s; rfl
  | succ n ih =>
    have hN := parse_NOT_blind (parse_XOR n) ih
    have hA : WhitespaceBlind (parse_AND (parse_XOR n) n) :=
      binaryLevel_blind Operator.AND '+' _ hN n
    have hO : WhitespaceBlind (parse_OR (parse_XOR n) n) :=
      binaryLevel_blind Operator.OR '|' _ hA n
    exact binaryLevel_blind Operator.XOR '^' _ hO n

theorem parse_Factor_repeats (pxor pxor1 : List Char → ParseResult) (hp : Repeats pxor pxor1) :
    Repeats (parse_Factor pxor) (parse_Factor pxor1) := by
  intro s
  unfold parse_Factor
  simp only
  by_cases ho : peek (skipWhitespace s) = '('
  · rw [if_pos ho, if_pos ho]
    cases hx : pxor (consume (skipWhitespace s)) with
    | outOfFuel => intro h; exact absurd rfl h
    | syntaxError r1 m => intro _; rw [hp _ (by rw [hx]; simp), hx]
    | ok e s2 => intro _; rw [hp _ (by rw [hx]; simp), hx]
  · rw [if_neg ho, if_neg ho]
    intro _; rfl

theorem parse_NOT_repeats (pxor pxor1 : List Char → ParseResult) (hp : Repeats pxor pxor1) :
    Repeats (parse_NOT pxor) (parse_NOT pxor1) := by
  intro s
  have hF := parse_Factor_repeats pxor pxor1 hp
  unfold parse_NOT
  simp only
  by_cases hb : peek (skipWhitespace s) = '!'
  · rw [if_pos hb, if_pos hb]
    cases hx : parse_Factor pxor (consume (skipWhitespace s)) with
    | outOfFuel => intro h; exact absurd rfl h
    | syntaxError r1 m => intro _; rw [hF _ (by rw [hx]; simp), hx]
    | ok e s2 => intro _; rw [hF _ (by rw [hx]; simp), hx]
  · rw [if_neg hb, if_neg hb]
    exact hF _

theorem binaryLoop_repeats (op : Operator) (tok : Char) (sub sub1 : List Char → ParseResult)
    (hp : Repeats sub sub1) :
    ∀ (n m : Nat), n ≤ m → ∀ (left : Expression) (s : List Char),
      binaryLoop op tok sub n left s ≠ ParseResult.outOfFuel →
      binaryLoop op tok sub1 m left s = binaryLoop op tok sub n left s := by
  intro n
  induction n with
  | zero => intro m _ left s h; exact absurd rfl h
  | succ n ih =>
    intro m hm left s
    obtain ⟨m1, rfl⟩ : ∃ m1, m = m1 + 1 := ⟨m - 1, by omega⟩
    simp only [binaryLoop]
    by_cases ht : peek (skipWhitespace s) = tok
    · rw [if_pos ht, if_pos ht]
      cases hx : sub (consume (skipWhitespace s)) with
      | outOfFuel => intro h; exact absurd rfl h
      | syntaxError r1 m => intro _; rw [hp _ (by rw [hx]; simp), hx]
      | ok right s2 =>
        intro h
        rw [hp _ (by rw [hx]; simp), hx]
        exact ih m1 (by omega) _ s2 h
    · rw [if_neg ht, if_neg ht]
      intro _; rfl

theorem binaryLevel_repeats (op : Operator) (tok : Char) (sub sub1 : List Char → ParseResult)
    (hp : Repeats sub sub1) (n m : Nat) (hnm : n ≤ m) :
    Repeats (binaryLevel op tok sub n) (binaryLevel op tok sub1 m) := by
  intro s
  unfold binaryLevel
  cases hx : sub s with
  | outOfFuel => intro h; exact absurd rfl h
  | syntaxError r1 m => intro _; rw [hp _ (by rw [hx]; simp), hx]
  | ok left s1 =>
    intro h
    rw [hp _ (by rw [hx]; simp), hx]
    exact binaryLoop_repeats op tok sub sub1 hp n m hnm left s1 h

/-- More fuel does not change a result of `parse_XOR` that is not a lack of fuel. -/
theorem parse_XOR_repeats : ∀ n m : Nat, n ≤ m → Repeats (parse_XOR n) (parse_XOR m) := by
  intro n
  induction n with
  | zero => intro m _ s h; exact absurd rfl h
  | succ n ih =>
    intro m hm
    obtain ⟨m1, rfl⟩ : ∃ m1, m = m1 + 1 := ⟨m - 1, by omega⟩
    have hnm : n ≤ m1 := by omega
    have hN := parse_NOT_repeats (parse_XOR n) (parse_XOR m1) (ih m1 hnm)
    have hA : Repeats (parse_AND (parse_XOR n) n) (parse_AND (parse_XOR m1) m1) :=
      binaryLevel_repeats Operator.AND '+' _ _ hN n m1 hnm
    have hO : Repeats (parse_OR (parse_XOR n) n) (parse_OR (parse_XOR m1) m1) :=
      binaryLevel_repeats Operator.OR '|' _ _ hA n m1 hnm
    exact binaryLevel_repeats Operator.XOR '^' _ _ hO n m1 hnm

theorem removeWhitespace_length_le (s : List Char) : (removeWhitespace s).length ≤ s.length :=
  List.length_filter_le _ s

/-- The parser part of `parseExpression` on the text without whitespace. -/
theorem parseText_removeWhitespace (s : List Char) :
    parseText (removeWhitespace s) = (parseText s).onRest removeWhitespace := by
  have hlen := removeWhitespace_length_le s
  obtain ⟨hne, _⟩ := parse_XOR_adequate ((removeWhitespace s).length + 1) (removeWhitespace s)
    (by omega)
  have h1 := parse_XOR_repeats ((removeWhitespace s).length + 1) (s.length + 1) (by omega)
    (removeWhitespace s) hne
  unfold parseText
  rw [← h1, parse_XOR_blind (s.length + 1) s]
  cases parse_XOR (s.length + 1) s with
  | outOfFuel => rfl
  | syntaxError r1 m => rfl
  | ok e rest =>
    simp only [ParseResult.onRest, skipWhitespace_removeWhitespace, peek_removeWhitespace]
    by_cases hn : peek (skipWhitespace rest) = NUL
    · simp only [hn, ne_eq, not_true_eq_false, if_false, removeWhitespace_skipWhitespace]
    · simp only [hn, ne_eq, not_false_eq_true, if_true, removeWhitespace_skipWhitespace]

/-- C14: whitespace is insignificant: for every text `s`, `parseExpression` on `s` and on
`s` with every space and tab removed either both succeed with the same AST or both
fail with a syntax error (and then with the same message). -/
theorem whitespace_insignificant (s : List Char) :
    (∃ e, parseExpression s = Parsed.ast e ∧
      parseExpression (removeWhitespace s) = Parsed.ast e) ∨
    (∃ err1 err2, parseExpression s = Parsed.error err1 ∧
      parseExpression (removeWhitespace s) = Parsed.error err2 ∧
      err1.message = err2.message) := by
  obtain ⟨hne, _⟩ := parse_XOR_adequate (s.length + 1) s (by omega)
  have hne2 : parseText s ≠ ParseResult.outOfFuel := by
    unfold parseText
    cases hx : parse_XOR (s.length + 1) s with
    | outOfFuel => exact absurd hx hne
    | syntaxError r1 m => simp
    | ok e rest => simp only; split_ifs <;> simp
  unfold parseExpression
  rw [parseText_removeWhitespace s]
  cases hx : parseText s with
  | outOfFuel => exact absurd hx hne2
  | syntaxError r1 m => exact Or.inr ⟨_, _, rfl, rfl, rfl⟩
  | ok e rest => exact Or.inl ⟨e, rfl, rfl⟩

/-! ## C22 -/

theorem concerns_symbol_of_isOrXor (rule : Rule) (c : Char)
    (hor : rule.consequent.isOrXor = true) (hc : c ∈ rule.consequent.getFacts) :
    concerns_symbol rule c = true := by
  unfold concerns_symbol
  cases hq : rule.consequent with
  | FactExpression f neg => rw [hq] at hor; simp [Expression.isOrXor] at hor
  | BinaryOperation op l r =>
    rw [hq] at hc
    simp only [List.any_eq_true, decide_eq_true_eq]
    exact ⟨c, hc, rfl⟩

/-- The loop over the rules ends with `isProvenByAnyRule` set when it starts with
it set, or when a rule that concerns the fact has for antecedent a non-negated
fact that the resolver answers TRUE in every store met. -/
theorem ruleLoop_proves (resolve : Char → FactMap → Resolved) (c x : Char) (I : FactMap → Prop)
    (hx : ∀ t, I t → ∃ t1, resolve x t = some (FactState.TRUE, t1))
    (heval : ∀ (e : Expression) t v t1, I t → e.evaluate resolve t = some (v, t1) → I t1)
    (hpush : ∀ t note, I t → I (t.pushReason c note)) :
    ∀ (rs : List Rule) (p u : Bool) (s : FactMap) (p1 u1 : Bool) (s1 : FactMap),
      I s → ruleLoop resolve c rs p u s = some (p1, u1, s1) →
      (p = true ∨ ∃ rule ∈ rs, concerns_symbol rule c = true ∧ rule.antecedent = leaf x) →
      p1 = true := by
  intro rs
  induction rs with
  | nil =>
    intro p u s p1 u1 s1 _ h hp
    simp only [ruleLoop, Option.some.injEq, Prod.mk.injEq] at h
    rcases hp with hp | ⟨rule, hm, _⟩
    · rw [← h.1]; exact hp
    · simp at hm
  | cons rule rest ih =>
    intro p u s p1 u1 s1 hI h hp
    simp only [ruleLoop] at h
    by_cases hcs : concerns_symbol rule c = true
    · rw [if_pos hcs] at h
      cases he : rule.antecedent.evaluate resolve s with
      | none => rw [he] at h; simp at h
      | some x1 =>
        obtain ⟨v, t1⟩ := x1
        rw [he] at h
        simp only at h
        have hI1 : I t1 := heval _ s v t1 hI he
        have hI2 : I (if v = FactState.TRUE then t1.pushReason c (derivedNote rule) else t1) := by
          split_ifs
          · exact hpush t1 _ hI1
          · exact hI1
        refine ih _ _ _ p1 u1 s1 hI2 h ?_
        rcases hp with hp | ⟨r0, hm, hc0, ha0⟩
        · left; rw [hp]; simp
        · rcases List.mem_cons.mp hm with rfl | hm
          · left
            rw [ha0] at he
            obtain ⟨t2, ht2⟩ := hx s hI
            simp only [leaf, Expression.evaluate, ht2, Option.some.injEq, Prod.mk.injEq] at he
            have hv : v = FactState.TRUE := by rw [← he.1]; rfl
            rw [if_pos hv]
          · right; exact ⟨r0, hm, hc0, ha0⟩
    · rw [if_neg hcs] at h
      refine ih _ _ _ p1 u1 s1 hI h ?_
      rcases hp with hp | ⟨r0, hm, hc0, ha0⟩
      · exact Or.inl hp
      · rcases List.mem_cons.mp hm with rfl | hm
        · exact absurd hc0 hcs
        · exact Or.inr ⟨r0, hm, hc0, ha0⟩

/-- C22: for every rule list that contains a rule whose antecedent is the single
non-negated fact `x` and whose consequent is an OR or XOR node, from a store in
which `x` is TRUE and no fact is in progress (no entry has its in-progress flag
set or the state PROCESSING), `isFactTrue` returns, and it returns TRUE, for
every fact `c` that occurs in that consequent. -/
theorem disjunctive_conclusion_proves_each_fact (rules : List Rule) (k : Nat) (rule : Rule)
    (x c : Char) (facts : FactMap) (fx : Fact)
    (hrule : rule ∈ rules) (hant : rule.antecedent = Expression.FactExpression x false)
    (hor : rule.consequent.isOrXor = true)
    (hx : facts x = some fx) (hxt : fx.currentState = FactState.TRUE)
    (hidle : ∀ d f, facts d = some f →
      f.isProcessing = false ∧ f.currentState ≠ FactState.PROCESSING)
    (hc : c ∈ rule.consequent.getFacts) :
    ∃ facts1, isFactTrue rules (fuelBound rules + k) c facts = some (FactState.TRUE, facts1) := by
  obtain ⟨r, facts1, h⟩ := isFactTrue_total rules k c facts
  refine ⟨facts1, ?_⟩
  rw [h]
  have hfuel : fuelBound rules + k = ((antecedentSymbols rules).length + k + 1) + 1 := by
    unfold fuelBound; omega
  rw [hfuel] at h
  have hsx : stateOf facts x = FactState.TRUE := by rw [stateOf_of_some facts x fx hx]; exact hxt
  rcases isFactTrue_cases h with ⟨h1, h2, hr, _⟩ | ⟨_, hip, _, _⟩ | ⟨hst, _, p, u, s2, hl, hr, _⟩
  · rw [hr]
    cases hfc : facts c with
    | none => exact absurd (by simp [stateOf, FactMap.get, hfc]) h1
    | some f =>
      rw [stateOf_of_some facts c f hfc] at h1 h2 ⊢
      have h3 := (hidle c f hfc).2
      cases hcs : f.currentState <;> simp_all
  · cases hfc : facts c with
    | none => simp [inProgress, FactMap.get, hfc] at hip
    | some f =>
      have h3 := (hidle c f hfc).1
      simp [inProgress, FactMap.get, hfc, h3] at hip
  · have hcx : x ≠ c := by
      rintro rfl
      rcases hst with hst | hst <;> rw [hsx] at hst <;> exact absurd hst (by decide)
    have hp : p = true :=
      ruleLoop_proves (isFactTrue rules ((antecedentSymbols rules).length + k + 1)) c x
        (fun t => stateOf t x = FactState.TRUE)
        (fun t ht => ⟨t.create x, by
          have := isFactTrue_of_state rules ((antecedentSymbols rules).length + k) x t
            (by rw [ht]; decide) (by rw [ht]; decide)
          rw [this, ht]⟩)
        (fun e t v t1 ht he =>
          (evaluate_frame rules _ e t v t1 he).stateOf_TRUE x ht)
        (fun t note ht => by
          show stateOf (t.pushReason c note) x = FactState.TRUE
          rw [stateOf_pushReason]; exact ht)
        rules false false _ p u s2
        (by
          show stateOf ((facts.create c).start c) x = FactState.TRUE
          rw [stateOf_start _ _ _ hcx, stateOf_create]; exact hsx)
        hl
        (Or.inr ⟨rule, hrule, concerns_symbol_of_isOrXor rule c hor hc, hant⟩)
    rw [hr, hp]
    rfl

/-- Witness for C22: with the rule `X => A^B` and the store in which X is TRUE,
both A and B resolve TRUE. -/
theorem disjunctive_conclusion_proves_each_fact_witness :
    (∃ facts1, isFactTrue [ruleXAxorB] (fuelBound [ruleXAxorB] + 0) 'A' storeXTrue
      = some (FactState.TRUE, facts1)) ∧
    (∃ facts1, isFactTrue [ruleXAxorB] (fuelBound [ruleXAxorB] + 0) 'B' storeXTrue
      = some (FactState.TRUE, facts1)) :=
  ⟨disjunctive_conclusion_proves_each_fact [ruleXAxorB] 0 ruleXAxorB 'X' 'A' storeXTrue
      (factIn 'X' FactState.TRUE) (by decide) (by decide) (by decide) (by decide) (by decide)
      (by
        intro d f h
        unfold storeXTrue at h
        by_cases hd : d = 'X'
        · subst hd
          simp only [FactMap.set_same, Option.some.injEq] at h
          subst h; exact ⟨rfl, by decide⟩
        · rw [FactMap.set_other _ _ _ _ hd] at h
          simp [FactMap.empty] at h)
      (by decide),
   disjunctive_conclusion_proves_each_fact [ruleXAxorB] 0 ruleXAxorB 'X' 'B' storeXTrue
      (factIn 'X' FactState.TRUE) (by decide) (by decide) (by decide) (by decide) (by decide)
      (by
        intro d f h
        unfold storeXTrue at h
        by_cases hd : d = 'X'
        · subst hd
          simp only [FactMap.set_same, Option.some.injEq] at h
          subst h; exact ⟨rfl, by decide⟩
        · rw [FactMap.set_other _ _ _ _ hd] at h
          simp [FactMap.empty] at h)
      (by decide)⟩

/-! ## C23 -/

theorem uppercaseLetters_cons_of (c : Char) (t : List Char) (h : 'A' ≤ c ∧ c ≤ 'Z') :
    uppercaseLetters (c :: t) = c :: uppercaseLetters t := by
  unfold uppercaseLetters
  rw [List.filter_cons_of_pos]
  exact decide_eq_true h

theorem uppercaseLetters_cons_of_not (c : Char) (t : List Char) (h : ¬ ('A' ≤ c ∧ c ≤ 'Z')) :
    uppercaseLetters (c :: t) = uppercaseLetters t := by
  unfold uppercaseLetters
  rw [List.filter_cons_of_neg]
  rw [decide_eq_true_eq]
  exact h

theorem uppercaseLetters_skipWhitespace (s : List Char) :
    uppercaseLetters (skipWhitespace s) = uppercaseLetters s := by
  induction s with
  | nil => rfl
  | cons c s ih =>
    simp only [skipWhitespace]
    split_ifs with hc
    · rw [ih, uppercaseLetters_cons_of_not c s (fun hl => letter_not_space c hl hc)]
    · rfl

theorem parse_Factor_collects (pxor : List Char → ParseResult) (hp : Collects pxor) :
    Collects (parse_Factor pxor) := by
  intro s e rest hok
  have hskip := uppercaseLetters_skipWhitespace s
  unfold parse_Factor at hok
  cases hs1 : skipWhitespace s with
  | nil => simp [hs1, peek, NUL_ne_open, NUL_not_letter] at hok
  | cons c t =>
    rw [hs1] at hskip
    simp only [hs1, peek, consume] at hok
    by_cases hc : c = '('
    · simp only [hc, if_true] at hok
      subst hc
      cases hx : pxor t with
      | outOfFuel => simp [hx] at hok
      | syntaxError r m => simp [hx] at hok
      | ok expr s2 =>
        simp only [hx] at hok
        have h2 := hp t expr s2 hx
        have h3 := uppercaseLetters_skipWhitespace s2
        cases hs3 : skipWhitespace s2 with
        | nil => simp [hs3, peek, NUL_ne_close] at hok
        | cons c3 t3 =>
          rw [hs3] at h3
          simp only [hs3, peek, consume] at hok
          by_cases hc3 : c3 = ')'
          · subst hc3
            simp only [ne_eq, not_true_eq_false, if_false, ParseResult.ok.injEq] at hok
            obtain ⟨rfl, rfl⟩ := hok
            rw [uppercaseLetters_cons_of_not _ _ (by decide)] at hskip h3
            rw [← hskip, h2, ← h3]
          · simp [hc3] at hok
    · simp only [hc, if_false] at hok
      by_cases hl : 'A' ≤ c ∧ c ≤ 'Z'
      · simp only [hl, and_self, if_true, ParseResult.ok.injEq] at hok
        obtain ⟨rfl, rfl⟩ := hok
        rw [← hskip, uppercaseLetters_cons_of c t hl]
        rfl
      · simp [hl] at hok

theorem parse_NOT_collects (pxor : List Char → ParseResult) (hp : Collects pxor) :
    Collects (parse_NOT pxor) := by
  intro s e rest hok
  have hF := parse_Factor_collects pxor hp
  have hskip := uppercaseLetters_skipWhitespace s
  unfold parse_NOT at hok
  cases hs1 : skipWhitespace s with
  | nil =>
    simp only [hs1, peek, NUL_ne_bang, if_false] at hok
    simp [parse_Factor, skipWhitespace, peek, NUL_ne_open, NUL_not_letter] at hok
  | cons c t =>
    rw [hs1] at hskip
    simp only [hs1, peek, consume] at hok
    by_cases hc : c = '!'
    · simp only [hc, if_true] at hok
      subst hc
      cases hx : parse_Factor pxor t with
      | outOfFuel => simp [hx] at hok
      | syntaxError r m => simp [hx] at hok
      | ok expr s2 =>
        have h2 := hF t expr s2 hx
        cases expr with
        | FactExpression f neg =>
          simp only [hx, ParseResult.ok.injEq] at hok
          obtain ⟨rfl, rfl⟩ := hok
          rw [uppercaseLetters_cons_of_not _ _ (by decide)] at hskip
          rw [← hskip, h2]
          rfl
        | BinaryOperation op l r => simp [hx] at hok
    · simp only [hc, if_false] at hok
      rw [← hskip]
      exact hF (c :: t) e rest hok

theorem binaryLoop_collects (op : Operator) (tok : Char) (hnul : NUL ≠ tok)
    (htok : ¬ ('A' ≤ tok ∧ tok ≤ 'Z')) (sub : List Char → ParseResult) (hp : Collects sub) :
    ∀ (n : Nat) (left : Expression) (s : List Char) (e : Expression) (rest : List Char),
      binaryLoop op tok sub n left s = ParseResult.ok e rest →
      left.getFacts ++ uppercaseLetters s = e.getFacts ++ uppercaseLetters rest := by
  intro n
  induction n with
  | zero => intro left s e rest hok; simp [binaryLoop] at hok
  | succ n ih =>
    intro left s e rest hok
    have hskip := uppercaseLetters_skipWhitespace s
    simp only [binaryLoop] at hok
    by_cases hc : peek (skipWhitespace s) = tok
    · simp only [hc, if_true] at hok
      cases hs1 : skipWhitespace s with
      | nil => rw [hs1] at hc; exact absurd hc hnul
      | cons c t =>
        rw [hs1] at hskip hc
        simp only [peek] at hc
        subst hc
        simp only [hs1, consume] at hok
        cases hx : sub t with
        | outOfFuel => simp [hx] at hok
        | syntaxError r m => simp [hx] at hok
        | ok right s2 =>
          simp only [hx] at hok
          have h2 := hp t right s2 hx
          have h3 := ih _ s2 e rest hok
          rw [uppercaseLetters_cons_of_not _ _ htok] at hskip
          rw [← hskip, h2, ← h3]
          simp [Expression.getFacts]
    · simp only [hc, if_false, ParseResult.ok.injEq] at hok
      obtain ⟨rfl, rfl⟩ := hok
      rw [hskip]

theorem binaryLevel_collects (op : Operator) (tok : Char) (hnul : NUL ≠ tok)
    (htok : ¬ ('A' ≤ tok ∧ tok ≤ 'Z')) (sub : List Char → ParseResult) (hp : Collects sub)
    (n : Nat) : Collects (binaryLevel op tok sub n) := by
  intro s e rest hok
  unfold binaryLevel at hok
  cases hx : sub s with
  | outOfFuel => simp [hx] at hok
  | syntaxError r m => simp [hx] at hok
  | ok left s1 =>
    simp only [hx] at hok
    rw [hp s left s1 hx]
    exact binaryLoop_collects op tok hnul htok sub hp n left s1 e rest hok

/-- The facts of the AST returned by `parse_XOR` are the uppercase letters of the
part of the text that it has read. -/
theorem parse_XOR_collects : ∀ n : Nat, Collects (parse_XOR n) := by
  intro n
  induction n with
  | zero => intro s e rest hok; simp [parse_XOR] at hok
  | succ n ih =>
    have hN := parse_NOT_collects (parse_XOR n) ih
    have hA : Collects (parse_AND (parse_XOR n) n) :=
      binaryLevel_collects Operator.AND '+' (by decide) (by decide) _ hN n
    have hO : Collects (parse_OR (parse_XOR n) n) :=
      binaryLevel_collects Operator.OR '|' (by decide) (by decide) _ hA n
    exact binaryLevel_collects Operator.XOR '^' (by decide) (by decide) _ hO n

/-- C23, counterexample: the text made of `A`, a NUL character and `B` is
accepted with the AST `A`, whose facts are `A` alone, while the uppercase
letters of the text are `A`, `B`. -/
theorem getFacts_stops_at_NUL :
    parseExpression ['A', NUL, 'B'] = Parsed.ast (leaf 'A') ∧
    (leaf 'A').getFacts = ['A'] ∧
    uppercaseLetters ['A', NUL, 'B'] = ['A', 'B'] := by
  decide

/-- C23, amended: for every text `s` without NUL character that `parseExpression`
accepts, `getFacts` of the resulting AST is the sequence of the uppercase
letters of `s`, from left to right, duplicates included. -/
theorem getFacts_source_order (s : List Char) (e : Expression) (hnul : NUL ∉ s)
    (h : parseExpression s = Parsed.ast e) :
    e.getFacts = uppercaseLetters s := by
  obtain ⟨rest, hpt⟩ := parseExpression_ast h
  obtain ⟨hcons, hpeek, rest0, hx, hrest⟩ := parseText_ok hpt
  have hnil : rest = [] :=
    peek_NUL_of_not_mem hpeek (fun hm => hnul (hcons.1.subset hm))
  have h1 := parse_XOR_collects _ s e rest0 hx
  rw [← uppercaseLetters_skipWhitespace rest0, ← hrest, hnil] at h1
  rw [h1]
  simp [uppercaseLetters]

/-- Witness for C23: `B + !A | (C ^ A)` lists B, A, C, A. -/
theorem getFacts_source_order_witness :
    Expression.getFacts (Expression.BinaryOperation Operator.OR
        (Expression.BinaryOperation Operator.AND (leaf 'B') (Expression.FactExpression 'A' true))
        (Expression.BinaryOperation Operator.XOR (leaf 'C') (leaf 'A')))
      = uppercaseLetters "B + !A | (C ^ A)".toList :=
  getFacts_source_order "B + !A | (C ^ A)".toList _ (by decide) (by decide)

/-! ## C21 -/

/-- The loop of a level stops before a character that is neither whitespace nor
its token. -/
theorem binaryLoop_stop (op : Operator) (tok : Char) (sub : List Char → ParseResult)
    (n : Nat) (left : Expression) (c : Char) (rest : List Char)
    (hws : ¬ (c = ' ' ∨ c = TAB)) (hne : ¬ (c = tok)) :
    binaryLoop op tok sub (n + 1) left (c :: rest) = ParseResult.ok left (c :: rest) := by
  simp only [binaryLoop]
  rw [skipWhitespace_cons_of_not c rest hws]
  have hpk : peek (c :: rest) = c := rfl
  rw [hpk, if_neg hne]

/-- The loop of a level on its token followed by one operand and a character that
stops it. -/
theorem binaryLoop_once (op : Operator) (tok : Char) (sub : List Char → ParseResult)
    (n : Nat) (left right : Expression) (c : Char) (s rest : List Char)
    (htok : ¬ (tok = ' ' ∨ tok = TAB)) (hws : ¬ (c = ' ' ∨ c = TAB)) (hne : ¬ (c = tok))
    (hsub : sub s = ParseResult.ok right (c :: rest)) :
    binaryLoop op tok sub (n + 2) left (tok :: s) =
      ParseResult.ok (Expression.BinaryOperation op left right) (c :: rest) := by
  simp only [binaryLoop]
  rw [skipWhitespace_cons_of_not tok s htok]
  have hpk : peek (tok :: s) = tok := rfl
  have hcs : consume (tok :: s) = s := rfl
  rw [hpk, if_pos rfl, hcs, hsub]
  simp only
  rw [skipWhitespace_cons_of_not c rest hws]
  have hpk2 : peek (c :: rest) = c := rfl
  rw [hpk2, if_neg hne]

theorem binaryLevel_pass (op : Operator) (tok : Char) (sub : List Char → ParseResult)
    (n : Nat) (s : List Char) (e : Expression) (c : Char) (rest : List Char)
    (hws : ¬ (c = ' ' ∨ c = TAB)) (hne : ¬ (c = tok))
    (hsub : sub s = ParseResult.ok e (c :: rest)) :
    binaryLevel op tok sub (n + 1) s = ParseResult.ok e (c :: rest) := by
  unfold binaryLevel
  rw [hsub]
  exact binaryLoop_stop op tok sub n e c rest hws hne

theorem binaryLevel_once (op : Operator) (tok : Char) (sub : List Char → ParseResult)
    (n : Nat) (s s2 : List Char) (l r : Expression) (c : Char) (rest : List Char)
    (htok : ¬ (tok = ' ' ∨ tok = TAB)) (hws : ¬ (c = ' ' ∨ c = TAB)) (hne : ¬ (c = tok))
    (hl : sub s = ParseResult.ok l (tok :: s2))
    (hr : sub s2 = ParseResult.ok r (c :: rest)) :
    binaryLevel op tok sub (n + 2) s =
      ParseResult.ok (Expression.BinaryOperation op l r) (c :: rest) := by
  unfold binaryLevel
  rw [hl]
  exact binaryLoop_once op tok sub n l r c s2 rest htok hws hne hr

theorem binaryLevel_end (op : Operator) (tok : Char) (sub : List Char → ParseResult)
    (n : Nat) (s : List Char) (e : Expression) (htok : tok = '+' ∨ tok = '|' ∨ tok = '^')
    (hsub : sub s = ParseResult.ok e []) :
    binaryLevel op tok sub (n + 1) s = ParseResult.ok e [] := by
  unfold binaryLevel
  rw [hsub]
  exact binaryLoop_end op tok sub n e htok

/-- The function `parse_XOR` on the text of two operands joined by the token of
`op`, before a closing parenthesis. -/
theorem parse_XOR_operands (n : Nat) (op : Operator) (l r : Expression)
    (sl sr rest : List Char)
    (hl : ∀ suffix, parse_NOT (parse_XOR (n + 2)) (sl ++ suffix) = ParseResult.ok l suffix)
    (hr : ∀ suffix, parse_NOT (parse_XOR (n + 2)) (sr ++ suffix) = ParseResult.ok r suffix) :
    parse_XOR (n + 3) (sl ++ op.op_str ++ sr ++ ')' :: rest) =
      ParseResult.ok (Expression.BinaryOperation op l r) (')' :: rest) := by
  have htxt : ∀ t : Char, sl ++ [t] ++ sr ++ ')' :: rest = sl ++ t :: (sr ++ ')' :: rest) := by
    intro t; simp
  show binaryLevel Operator.XOR '^' (parse_OR (parse_XOR (n + 2)) (n + 2)) (n + 2) _ = _
  cases op with
  | AND =>
    rw [show Operator.AND.op_str = ['+'] from rfl, htxt]
    have hA : parse_AND (parse_XOR (n + 2)) (n + 2) (sl ++ '+' :: (sr ++ ')' :: rest)) =
        ParseResult.ok (Expression.BinaryOperation Operator.AND l r) (')' :: rest) :=
      binaryLevel_once Operator.AND '+' _ n _ _ l r ')' rest (by decide) (by decide) (by decide)
        (hl _) (hr _)
    have hO : parse_OR (parse_XOR (n + 2)) (n + 2) (sl ++ '+' :: (sr ++ ')' :: rest)) =
        ParseResult.ok (Expression.BinaryOperation Operator.AND l r) (')' :: rest) :=
      binaryLevel_pass Operator.OR '|' _ (n + 1) _ _ ')' rest (by decide) (by decide) hA
    exact binaryLevel_pass Operator.XOR '^' _ (n + 1) _ _ ')' rest (by decide) (by decide) hO
  | OR =>
    rw [show Operator.OR.op_str = ['|'] from rfl, htxt]
    have hA1 : parse_AND (parse_XOR (n + 2)) (n + 2) (sl ++ '|' :: (sr ++ ')' :: rest)) =
        ParseResult.ok l ('|' :: (sr ++ ')' :: rest)) :=
      binaryLevel_pass Operator.AND '+' _ (n + 1) _ _ '|' _ (by decide) (by decide) (hl _)
    have hA2 : parse_AND (parse_XOR (n + 2)) (n + 2) (sr ++ ')' :: rest) =
        ParseResult.ok r (')' :: rest) :=
      binaryLevel_pass Operator.AND '+' _ (n + 1) _ _ ')' _ (by decide) (by decide) (hr _)
    have hO : parse_OR (parse_XOR (n + 2)) (n + 2) (sl ++ '|' :: (sr ++ ')' :: rest)) =
        ParseResult.ok (Expression.BinaryOperation Operator.OR l r) (')' :: rest) :=
      binaryLevel_once Operator.OR '|' _ n _ _ l r ')' rest (by decide) (by decide) (by decide)
        hA1 hA2
    exact binaryLevel_pass Operator.XOR '^' _ (n + 1) _ _ ')' rest (by decide) (by decide) hO
  | XOR =>
    rw [show Operator.XOR.op_str = ['^'] from rfl, htxt]
    have hA1 : parse_AND (parse_XOR (n + 2)) (n + 2) (sl ++ '^' :: (sr ++ ')' :: rest)) =
        ParseResult.ok l ('^' :: (sr ++ ')' :: rest)) :=
      binaryLevel_pass Operator.AND '+' _ (n + 1) _ _ '^' _ (by decide) (by decide) (hl _)
    have hA2 : parse_AND (parse_XOR (n + 2)) (n + 2) (sr ++ ')' :: rest) =
        ParseResult.ok r (')' :: rest) :=
      binaryLevel_pass Operator.AND '+' _ (n + 1) _ _ ')' _ (by decide) (by decide) (hr _)
    have hO1 : parse_OR (parse_XOR (n + 2)) (n + 2) (sl ++ '^' :: (sr ++ ')' :: rest)) =
        ParseResult.ok l ('^' :: (sr ++ ')' :: rest)) :=
      binaryLevel_pass Operator.OR '|' _ (n + 1) _ _ '^' _ (by decide) (by decide) hA1
    have hO2 : parse_OR (parse_XOR (n + 2)) (n + 2) (sr ++ ')' :: rest) =
        ParseResult.ok r (')' :: rest) :=
      binaryLevel_pass Operator.OR '|' _ (n + 1) _ _ ')' _ (by decide) (by decide) hA2
    exact binaryLevel_once Operator.XOR '^' _ n _ _ l r ')' rest (by decide) (by decide)
      (by decide) hO1 hO2

/-- The function `parse_NOT` on a `!` followed by a fact letter. -/
theorem parse_NOT_negated_letter (pxor : List Char → ParseResult) (c : Char) (rest : List Char)
    (h : 'A' ≤ c ∧ c ≤ 'Z') :
    parse_NOT pxor ('!' :: c :: rest) =
      ParseResult.ok (Expression.FactExpression c true) rest := by
  unfold parse_NOT
  rw [skipWhitespace_cons_of_not '!' _ (by decide)]
  have hpk : peek ('!' :: c :: rest) = '!' := rfl
  have hcs : consume ('!' :: c :: rest) = c :: rest := rfl
  simp only [hpk, hcs, if_true]
  unfold parse_Factor
  rw [skipWhitespace_cons_of_not c rest (letter_not_space c h)]
  have hpk2 : peek (c :: rest) = c := rfl
  have hcs2 : consume (c :: rest) = rest := rfl
  simp only [hpk2, hcs2]
  rw [if_neg (letter_ne_open c h), if_pos h]
  rfl

/-- The function `parse_NOT` on a parenthesised text. -/
theorem parse_NOT_parenthesised (pxor : List Char → ParseResult) (s rest : List Char)
    (e : Expression) (h : pxor s = ParseResult.ok e (')' :: rest)) :
    parse_NOT pxor ('(' :: s) = ParseResult.ok e rest := by
  unfold parse_NOT
  rw [skipWhitespace_cons_of_not '(' _ (by decide)]
  have hpk : peek ('(' :: s) = '(' := rfl
  simp only [hpk]
  rw [if_neg (by decide)]
  unfold parse_Factor
  rw [skipWhitespace_cons_of_not '(' _ (by decide)]
  have hcs : consume ('(' :: s) = s := rfl
  simp only [hpk, hcs, if_true]
  rw [h]
  simp only
  rw [skipWhitespace_cons_of_not ')' _ (by decide)]
  have hpk2 : peek (')' :: rest) = ')' := rfl
  have hcs2 : consume (')' :: rest) = rest := rfl
  simp only [hpk2, hcs2, ne_eq, not_true_eq_false, if_false]

theorem to_string_length_pos (e : Expression) : 0 < e.to_string.length := by
  cases e with
  | FactExpression c neg => simp [Expression.to_string]
  | BinaryOperation op l r => simp [Expression.to_string]

theorem op_str_length (op : Operator) : op.op_str.length = 1 := by
  cases op <;> rfl

/-- The function `parse_NOT` reads back the text of an expression, with fuel from the
length of the text on, and leaves what follows the text unread. -/
theorem parse_NOT_to_string :
    ∀ (e : Expression), (∀ c ∈ e.getFacts, 'A' ≤ c ∧ c ≤ 'Z') →
      ∀ (n : Nat) (suffix : List Char), e.to_string.length ≤ n →
        parse_NOT (parse_XOR n) (e.to_string ++ suffix) = ParseResult.ok e suffix := by
  intro e
  induction e with
  | FactExpression c neg =>
    intro hlet n suffix _
    have hc : 'A' ≤ c ∧ c ≤ 'Z' := hlet c (by simp [Expression.getFacts])
    cases neg with
    | false => exact parse_NOT_letter _ c suffix hc
    | true => exact parse_NOT_negated_letter _ c suffix hc
  | BinaryOperation op l r ihl ihr =>
    intro hlet n suffix hn
    have hll : ∀ c ∈ l.getFacts, 'A' ≤ c ∧ c ≤ 'Z' :=
      fun c hc => hlet c (by simp [Expression.getFacts, hc])
    have hlr : ∀ c ∈ r.getFacts, 'A' ≤ c ∧ c ≤ 'Z' :=
      fun c hc => hlet c (by simp [Expression.getFacts, hc])
    simp only [Expression.to_string, List.length_append, List.length_cons, List.length_nil] at hn
    have hpl := to_string_length_pos l
    have hop := op_str_length op
    obtain ⟨m, rfl⟩ : ∃ m, n = m + 3 := ⟨n - 3, by omega⟩
    have hX := parse_XOR_operands m op l r l.to_string r.to_string suffix
      (fun sfx => ihl hll (m + 2) sfx (by omega))
      (fun sfx => ihr hlr (m + 2) sfx (by omega))
    have htxt : (Expression.BinaryOperation op l r).to_string ++ suffix =
        '(' :: (l.to_string ++ op.op_str ++ r.to_string ++ ')' :: suffix) := by
      simp [Expression.to_string]
    rw [htxt]
    exact parse_NOT_parenthesised _ _ suffix _ hX

/-- C21: for every AST whose fact leaves carry letters from A to Z,
`parseExpression` on the text that `to_string` renders returns that AST. -/
theorem to_string_round_trip (e : Expression) (h : ∀ c ∈ e.getFacts, 'A' ≤ c ∧ c ≤ 'Z') :
    parseExpression e.to_string = Parsed.ast e := by
  have hpos := to_string_length_pos e
  obtain ⟨m, hm⟩ : ∃ m, e.to_string.length = m + 1 := ⟨e.to_string.length - 1, by omega⟩
  have hN : parse_NOT (parse_XOR (m + 1)) e.to_string = ParseResult.ok e [] := by
    have := parse_NOT_to_string e h (m + 1) [] (by omega)
    rwa [List.append_nil] at this
  have hA : parse_AND (parse_XOR (m + 1)) (m + 1) e.to_string = ParseResult.ok e [] :=
    binaryLevel_end Operator.AND '+' _ m _ e (Or.inl rfl) hN
  have hO : parse_OR (parse_XOR (m + 1)) (m + 1) e.to_string = ParseResult.ok e [] :=
    binaryLevel_end Operator.OR '|' _ m _ e (Or.inr (Or.inl rfl)) hA
  have hX : parse_XOR (m + 2) e.to_string = ParseResult.ok e [] :=
    binaryLevel_end Operator.XOR '^' _ m _ e (Or.inr (Or.inr rfl)) hO
  unfold parseExpression parseText
  rw [hm, hX]
  rfl

/-- Witness for C21: the AST of `(!A + B) ^ (C | A)`, rendered as `((!A+B)^(C|A))`. -/
theorem to_string_round_trip_witness :
    parseExpression (Expression.to_string (Expression.BinaryOperation Operator.XOR
      (Expression.BinaryOperation Operator.AND (Expression.FactExpression 'A' true) (leaf 'B'))
      (Expression.BinaryOperation Operator.OR (leaf 'C') (leaf 'A')))) =
    Parsed.ast (Expression.BinaryOperation Operator.XOR
      (Expression.BinaryOperation Operator.AND (Expression.FactExpression 'A' true) (leaf 'B'))
      (Expression.BinaryOperation Operator.OR (leaf 'C') (leaf 'A'))) :=
  to_string_round_trip _ (by decide)

end ExpertSystem
